import Mathlib

/-!
# SEG gateway: encrypted datagram endpoint and peer handshake

A shallow embedding of `gateway/econn.go`, `gateway/keymgr.go`,
`gateway/pathmgr.go`, `gateway/peer.go`, `gateway/message.go`,
`gateway/pool.go`, `gateway/worker.go`, `gateway/gateway.go` and of the IP
adapter under `gateway/adapters/ip`.

Conventions of the embedding

* a byte is a natural number (a Go `byte` is one below 256), a byte slice a
  `List Nat`;
* library calls whose result the gateway cannot compute itself (the DRKey
  service, the path service, dialling, the clock, the DH exchange) are inputs
  of the operation that makes the call (`Outcomes`);
* AES and CMAC are parameters (`Crypto`);
* a Go run-time panic (nil dereference, index or slice out of range, an
  explicit `panic`) is the result `none` of an operation that returns an
  `Option`, or the constructor `panic` of a result type.
-/

namespace Gateway

/-! ## Errors, crypto primitives -/

/-- Error values the gateway returns. -/
inductive Err where
  /-- The package variable `cryptoHandshakeError`. -/
  | cryptoHandshakeError
  /-- The package variable `PeerIsMigratingError`. -/
  | PeerIsMigratingError
  /-- The value `fmt.Errorf("cryptoHandshakeComplete not yet true")` built in `ReadFrom`. -/
  | handshakeNotYetTrue
  /-- The value `fmt.Errorf("invalid ciphertext length: %d", n)`. -/
  | invalidCiphertextLength (n : Nat)
  /-- The value `aes.KeySizeError(n)` of `aes.NewCipher`. -/
  | aesKeySize (n : Nat)
  /-- An error returned by a library or the network. -/
  | external (code : Nat)
  /-- The value `fmt.Errorf("client not found for %s", addr)` of `Router.Lookup`. -/
  | clientNotFound (addr : List Nat)
  /-- The error "Unsupported IP protocol version in egress packet" of `getDestIP`. -/
  | unsupportedIPVersion (ver : Nat)
  /-- The value `fmt.Errorf("Unknown client", "addr", IA)` of `Gateway.getPeer`. -/
  | unknownClient (IA : String)
  deriving DecidableEq, Repr

/-- The constant `aes.BlockSize`. -/
def BlockSize : Nat := 16

/-- The block cipher and the MAC the gateway is built on: `aesEncrypt key block`
and `aesDecrypt key block` are `cipher.Block.Encrypt` and `Decrypt` of
`aes.NewCipher(key)`, `cmacSum msg key tagsize` is `cmac.Sum` over that cipher
(it fails on a tag size the library refuses). -/
structure Crypto where
  aesEncrypt : List Nat → List Nat → List Nat
  aesDecrypt : List Nat → List Nat → List Nat
  cmacSum : List Nat → List Nat → Nat → Except Err (List Nat)

/-- The cipher is a permutation of the 16-byte blocks under every key, with
`aesDecrypt` its inverse. -/
def Crypto.IsBlockPermutation (C : Crypto) : Prop :=
  ∀ key block : List Nat, block.length = BlockSize →
    (C.aesEncrypt key block).length = BlockSize ∧
      C.aesDecrypt key (C.aesEncrypt key block) = block

/-- A toy instance: a block is reversed and every byte is xored with `0x5a`;
the tag of a message is the message xored bytewise with the key, cut to the tag
size. -/
def toyCrypto : Crypto where
  aesEncrypt := fun _ b => (b.map (fun x => x ^^^ 90)).reverse
  aesDecrypt := fun _ b => (b.map (fun x => x ^^^ 90)).reverse
  cmacSum := fun msg key tagsize =>
    if tagsize = 0 ∨ BlockSize < tagsize then .error (.external 1)
    else .ok ((List.zipWith (fun x y => x ^^^ y) key (msg ++ List.replicate tagsize 0)).take tagsize)

/-- The helper `subtle.XORBytes`: the bytewise xor, as long as the shorter argument. -/
def xorBytes (a b : List Nat) : List Nat :=
  List.zipWith (fun x y => x ^^^ y) a b

/-- The loop of `cbcEncrypter.CryptBlocks` over `n` blocks: each block is xored
with the previous ciphertext block (the IV for the first) and encrypted. -/
def cbcEncryptBlocks (enc : List Nat → List Nat) : Nat → List Nat → List Nat → List Nat
  | 0, _, _ => []
  | n + 1, iv, src =>
    let c := enc (xorBytes (src.take BlockSize) iv)
    c ++ cbcEncryptBlocks enc n c (src.drop BlockSize)

/-- The loop of `cbcDecrypter.CryptBlocks` over `n` blocks: each block is
decrypted and xored with the previous ciphertext block (the IV for the first). -/
def cbcDecryptBlocks (dec : List Nat → List Nat) : Nat → List Nat → List Nat → List Nat
  | 0, _, _ => []
  | n + 1, iv, src =>
    let c := src.take BlockSize
    xorBytes (dec c) iv ++ cbcDecryptBlocks dec n c (src.drop BlockSize)

/-- The calls `cipher.NewCBCEncrypter(block, iv).CryptBlocks(src, src)`: panics on
an IV that is not one block long and on an input that is not full blocks. -/
def cbcEncrypt (C : Crypto) (key iv src : List Nat) : Option (List Nat) :=
  if iv.length ≠ BlockSize then none
  else if src.length % BlockSize ≠ 0 then none
  else some (cbcEncryptBlocks (C.aesEncrypt key) (src.length / BlockSize) iv src)

/-- The calls `cipher.NewCBCDecrypter(block, iv).CryptBlocks(src, src)`. -/
def cbcDecrypt (C : Crypto) (key iv src : List Nat) : Option (List Nat) :=
  if iv.length ≠ BlockSize then none
  else if src.length % BlockSize ≠ 0 then none
  else some (cbcDecryptBlocks (C.aesDecrypt key) (src.length / BlockSize) iv src)

/-! ## Data model -/

/-- A path object of the path-aware network: `id` is the identity of the
object (Go compares two paths held in `snet.Path` variables by identity),
with the fingerprint and the interfaces it reports. -/
structure Path where
  id : Nat
  fingerprint : Nat
  interfaces : List Nat
  deriving DecidableEq, Repr

/-- The struct `pathingConf`, durations in nanoseconds. -/
structure pathingConf where
  KeepAliveInterval : Int
  KeepAliveTimeoutInterval : Int
  KeepAliveTimeout : Int
  MigrateGraceTimeout : Int
  deriving DecidableEq, Repr

/-- The variable `defaultPathingConf`. -/
def defaultPathingConf : pathingConf :=
  ⟨50 * 1000000, 30 * 1000000, 300 * 1000000, 500 * 1000000⟩

/-- The struct `eConn`: the connection it wraps, given by the remote port it
was dialled to and the path it was dialled on. The pointer back to the peer is
the peer argument of its methods. -/
structure eConn where
  remotePort : Int
  path : Path
  deriving DecidableEq, Repr

/-- The struct `keyMgr`. `group` and `priKey` say whether the pointers of these
names are set; `block` holds the key the AES block was built with, when one
was built. -/
structure keyMgr where
  group : Bool
  priKey : Bool
  pubKey : List Nat
  key : List Nat
  iv : List Nat
  block : Option (List Nat)
  deriving DecidableEq, Repr

/-- The struct `pathMgr`. -/
structure pathMgr where
  conf : pathingConf
  currPath : Option Path
  paths : List Path
  pathIdx : Nat
  hiddenPaths : List Path
  hiddenPathsIdx : Nat
  isMigrating : Nat
  lastKeepAlive : Int
  deriving DecidableEq, Repr

/-- What a peer did to the outside, in order. -/
inductive Event where
  /-- The function `pathMgr.start` ran. -/
  | pathMgrStart
  /-- The call `adapter.HandshakeComplete(peer)` was spawned. -/
  | adapterHandshakeComplete
  /-- A `handshakeResponseMsg` was written by `WriteMsgOneOff`. -/
  | sentHandshakeResponse
  /-- A datagram was handed to the control egress connection. -/
  | ctrlDatagram (remotePort : Int) (bytes : List Nat)
  /-- The log line "Error checking remote public key". -/
  | logVerifyError
  /-- The log line "Received public key authentication tag is not as expected". -/
  | logTagMismatch
  deriving DecidableEq, Repr

/-- The struct `peer`. `rendezvous` says whether `remote.RendezvousAddr` is
set; `events` is the history of what the peer did to the outside. -/
structure peer where
  rendezvous : Bool
  pathMgr : pathMgr
  keyMgr : keyMgr
  egressCtrlEConn : Option eConn
  egressDataEConn : Option eConn
  remoteCtrlPort : Int
  remoteDataPort : Int
  cryptoHandshakeComplete : Bool
  checkHandshakeComplete : Bool
  handshakeCompleted : Bool
  events : List Event
  deriving DecidableEq, Repr

/-- The struct `handshakeRequestMsg`. -/
structure handshakeRequestMsg where
  PubKey : List Nat
  PubKeyTag : List Nat
  CtrlPort : Int
  DataPort : Int
  deriving DecidableEq, Repr

/-! ## The encrypted endpoint (`econn.go`) -/

/-- The plaintext `eConn.writeTo` builds from `b` before it encrypts:
`padLen := aes.BlockSize - (len(b) % aes.BlockSize)`, then `b` followed by
`padLen` bytes of value `byte(padLen)`. -/
def eConn.paddedPlaintext (b : List Nat) : List Nat :=
  let padLen := BlockSize - (b.length % BlockSize)
  let padding := List.replicate padLen (padLen % 256)
  b ++ padding

/-- What `eConn.writeTo` returns, and the datagram it handed to the underlying
connection with its destination (`none` when it handed over nothing). -/
structure WriteResult where
  n : Int
  err : Option Err
  sent : Option (Int × List Nat)
  deriving DecidableEq, Repr

/-- The method `eConn.writeTo`. `conn` is the underlying `conn.WriteTo`: what it
returns for a datagram. The result is `none` when the call panics. -/
def eConn.writeTo (C : Crypto) (p : peer) (conn : List Nat → Int × Option Err)
    (b : List Nat) (raddr : Int) : Option WriteResult :=
  if !p.cryptoHandshakeComplete then
    some ⟨-1, some .cryptoHandshakeError, none⟩
  else if p.pathMgr.isMigrating = 1 then
    some ⟨-1, some .PeerIsMigratingError, none⟩
  else
    match p.keyMgr.block with
    | none => none
    | some key =>
      let plaintext := eConn.paddedPlaintext b
      match cbcEncrypt C key p.keyMgr.iv plaintext with
      | none => none
      | some ciphertext =>
        some ⟨(conn ciphertext).1, (conn ciphertext).2, some (raddr, ciphertext)⟩

/-- The method `eConn.Write`: `writeTo` towards the connection's remote address. -/
def eConn.Write (C : Crypto) (p : peer) (e : eConn) (conn : List Nat → Int × Option Err)
    (b : List Nat) : Option WriteResult :=
  eConn.writeTo C p conn b e.remotePort

/-- The outcome of `eConn.ReadFrom`, with the caller's buffer as the call left it. -/
inductive ReadResult where
  /-- The call returned `(-1, nil, err)`. -/
  | error (err : Err) (buf : List Nat)
  /-- The call returned `(dataLen, raddr, nil)`. -/
  | ok (dataLen : Int) (raddr : Nat) (buf : List Nat)
  /-- The call panicked. -/
  | panic
  deriving DecidableEq, Repr

/-- The method `eConn.ReadFrom`. `rd` is the underlying `conn.ReadFrom`: an
error, or the datagram that arrived and its source; the datagram is copied to
the front of `buf`, cut to the length of `buf`. -/
def eConn.ReadFrom (C : Crypto) (p : peer) (rd : Except Err (List Nat × Nat))
    (buf : List Nat) : ReadResult :=
  match rd with
  | .error err => .error err buf
  | .ok (dgram, raddr) =>
    let n := min dgram.length buf.length
    let buf := dgram.take n ++ buf.drop n
    if !p.cryptoHandshakeComplete then
      .error .handshakeNotYetTrue buf
    else
      let ciphertext := buf.take n
      if ciphertext.length < BlockSize ∨ ciphertext.length % BlockSize ≠ 0 then
        .error (.invalidCiphertextLength ciphertext.length) buf
      else
        match p.keyMgr.block with
        | none => .panic
        | some key =>
          match cbcDecrypt C key p.keyMgr.iv ciphertext with
          | none => .panic
          | some plain =>
            let buf := plain ++ buf.drop n
            let padLen : Int := ((plain.getD (n - 1) 0 : Nat) : Int)
            let dataLen : Int := (n : Int) - padLen
            if dataLen < 0 then .panic
            else .ok dataLen raddr buf

/-! ## Key manager (`keymgr.go`, `crypto.go`) -/

/-- The constructor `newKeyMgr`. -/
def newKeyMgr : keyMgr :=
  { group := false, priKey := false, pubKey := [], key := [], iv := [], block := none }

/-- The library call `aes.NewCipher(key)`: a key of 16, 24 or 32 bytes gives a
block (identified by its key), any other length `aes.KeySizeError`. -/
def aesNewCipher (key : List Nat) : Except Err (List Nat) :=
  if key.length = 16 ∨ key.length = 24 ∨ key.length = 32 then .ok key
  else .error (.aesKeySize key.length)

/-- The function `getCMAC`. -/
def getCMAC (C : Crypto) (buf key : List Nat) : Except Err (List Nat) :=
  match aesNewCipher key with
  | .error e => .error e
  | .ok _ => C.cmacSum buf key key.length

/-- The method `keyMgr.computePriPubPair`; `getGroup` is the outcome of
`dhkx.GetGroup(0)`, `gen` of `GeneratePrivateKey` (the public key bytes). -/
def keyMgr.computePriPubPair (k : keyMgr) (getGroup : Option Err)
    (gen : Except Err (List Nat)) : keyMgr × Option Err :=
  match getGroup with
  | some e => ({ k with group := false }, some e)
  | none =>
    match gen with
    | .error e => ({ k with group := true, priKey := false }, some e)
    | .ok pub => ({ k with group := true, priKey := true, pubKey := pub }, none)

/-- The method `keyMgr.getPubKey`. -/
def keyMgr.getPubKey (k : keyMgr) (getGroup : Option Err)
    (gen : Except Err (List Nat)) : keyMgr × List Nat × Option Err :=
  if k.pubKey.length = 0 then
    match k.computePriPubPair getGroup gen with
    | (k1, some e) => (k1, [], some e)
    | (k1, none) => (k1, k1.pubKey, none)
  else (k, k.pubKey, none)

/-- The method `keyMgr.getAuthdPubKey`: key manager after the call, public
key, tag, error. -/
def keyMgr.getAuthdPubKey (C : Crypto) (k : keyMgr) (getGroup : Option Err)
    (gen : Except Err (List Nat)) (authKey : List Nat) :
    keyMgr × List Nat × List Nat × Option Err :=
  match k.getPubKey getGroup gen with
  | (k1, _, some e) => (k1, [], [], some e)
  | (k1, pubKey, none) =>
    match getCMAC C pubKey authKey with
    | .error e => (k1, [], [], some e)
    | .ok pubTag => (k1, pubKey, pubTag, none)

/-- The method `keyMgr.verifyRemotePubKey`: `cmac.Verify` recomputes the tag
with `cmac.Sum` (a failure there gives `false`) and compares. -/
def keyMgr.verifyRemotePubKey (C : Crypto) (tag key authKey : List Nat) : Bool × Option Err :=
  match aesNewCipher authKey with
  | .error e => (false, some e)
  | .ok _ =>
    match C.cmacSum key authKey authKey.length with
    | .error _ => (false, none)
    | .ok sum => (decide (tag = sum), none)

/-- The method `keyMgr.computeSharedKey`; `dh` is `group.ComputeKey` under the
private key of the manager. A nil group or private key is dereferenced. -/
def keyMgr.computeSharedKey (k : keyMgr) (dh : List Nat → Except Err (List Nat))
    (remotePubKey : List Nat) : Option (keyMgr × Option Err) :=
  if !k.group || !k.priKey then none
  else
    match dh remotePubKey with
    | .error e => some (k, some e)
    | .ok key => some ({ k with key := key }, none)

/-- The method `keyMgr.initDataCrypto`: panics when a key is already set, and
on `k.key[:32]` when the shared key is shorter than 32 bytes. -/
def keyMgr.initDataCrypto (k : keyMgr) (dh : List Nat → Except Err (List Nat))
    (remotePubKey : List Nat) : Option (keyMgr × Option Err) :=
  if k.key.length ≠ 0 then none
  else
    match k.computeSharedKey dh remotePubKey with
    | none => none
    | some (k1, some e) => some (k1, some e)
    | some (k1, none) =>
      if k1.key.length < 32 then none
      else
        match aesNewCipher (k1.key.take 32) with
        | .error e => some ({ k1 with block := none }, some e)
        | .ok blk => some ({ k1 with block := some blk, iv := List.replicate BlockSize 0 }, none)

/-! ## Path manager (`pathmgr.go`) -/

/-- The constructor `newPathMgr`. -/
def newPathMgr (conf : pathingConf) : pathMgr :=
  { conf := conf, currPath := none, paths := [], pathIdx := 0, hiddenPaths := [],
    hiddenPathsIdx := 0, isMigrating := 0, lastKeepAlive := 0 }

/-- The method `pathMgr.resetTimeouts`. -/
def pathMgr.resetTimeouts (m : pathMgr) (now : Int) : pathMgr :=
  { m with lastKeepAlive := now + m.conf.MigrateGraceTimeout }

/-- The first loop of `updatePathsToRemote`: the entries of the map
`pathsSet`, one per fingerprint, the first occurrence kept; listed in the
order of first occurrence. -/
def pathsSet (paths : List Path) : List Path :=
  paths.foldl
    (fun acc p => if acc.any (fun q => decide (q.fingerprint = p.fingerprint)) then acc else acc ++ [p]) []

/-- The second loop of `updatePathsToRemote`: Go ranges over a map in an
unspecified order; `order` picks the permutation. -/
def mapIteration (order : Nat) (entries : List Path) : List Path :=
  entries.permutations.getD (order % entries.permutations.length) entries

/-- The method `leastHopsPathSorter.SortPaths`: `sort.Slice` by the number of
interfaces. What `sort.Slice` does with equal keys is unspecified; with the
arbitrary order `mapIteration` hands over, a stable sort loses no behaviour. -/
def SortPaths (paths : List Path) : List Path :=
  paths.insertionSort (fun a b => a.interfaces.length ≤ b.interfaces.length)

/-- The method `pathMgr.updatePathsToRemote`; `query` is the outcome of
`sdConn.Paths`. With no path there is no `m.paths[0]`: the call panics. -/
def pathMgr.updatePathsToRemote (m : pathMgr) (query : Except Err (List Path))
    (order : Nat) : Option (pathMgr × Option Err) :=
  match query with
  | .error e => some (m, some e)
  | .ok paths =>
    let uniquePaths := SortPaths (mapIteration order (pathsSet paths))
    match uniquePaths.get? 0 with
    | none => none
    | some first => some ({ m with paths := uniquePaths, pathIdx := 0, currPath := some first }, none)

/-- The method `pathMgr.nextPath`. -/
def pathMgr.nextPath (m : pathMgr) (hidden : Bool) : Option (pathMgr × Path) :=
  if hidden && decide (0 < m.hiddenPaths.length) then
    match m.hiddenPaths.get? m.hiddenPathsIdx with
    | none => none
    | some h =>
      if m.currPath = some h ∧ m.hiddenPathsIdx = m.hiddenPaths.length - 1 then
        (m.paths.get? m.pathIdx).map (fun q => ({ m with hiddenPathsIdx := 0 }, q))
      else
        let idx := (m.hiddenPathsIdx + 1) % m.hiddenPaths.length
        (m.hiddenPaths.get? idx).map (fun q => ({ m with hiddenPathsIdx := idx }, q))
  else if m.paths.length = 0 then none
  else
    let idx := (m.pathIdx + 1) % m.paths.length
    (m.paths.get? idx).map (fun q => ({ m with pathIdx := idx }, q))

/-- The method `pathMgr.getCurrPath`. -/
def pathMgr.getCurrPath (m : pathMgr) : Option Path := m.currPath

/-- The method `pathMgr.handleKeepAliveRequest`. -/
def pathMgr.handleKeepAliveRequest (m : pathMgr) (now : Int) : pathMgr :=
  { m with lastKeepAlive := now }

/-- The method `pathMgr.storeHiddenPaths`. -/
def pathMgr.storeHiddenPaths (m : pathMgr) (paths : List Path) : pathMgr :=
  { m with hiddenPaths := m.hiddenPaths ++ paths, hiddenPathsIdx := 0 }

/-! ## Peer (`peer.go`, `gateway.go`, `hiddenpath.go`) -/

/-- The outcomes, during one call, of the steps the gateway does not compute
itself. -/
structure Outcomes where
  /-- The clock, `time.Now()`. -/
  now : Int
  /-- The call `drkeyMgr.serverHostKey()`. -/
  serverHostKey : Except Err (List Nat)
  /-- The call `sdConn.Paths` of `updatePathsToRemote`. -/
  paths : Except Err (List Path)
  /-- The order in which the map of unique paths is ranged over. -/
  mapOrder : Nat
  /-- The call `network.Dial` for the control egress endpoint. -/
  dialCtrl : Option Err
  /-- The call `network.Dial` for the data egress endpoint. -/
  dialData : Option Err
  /-- The call `group.ComputeKey` on a remote public key. -/
  dh : List Nat → Except Err (List Nat)
  /-- The call `sdConn.Paths` of `getConnTo`. -/
  oneOffPaths : Except Err (List Path)
  /-- The call `network.Dial` of `getConnTo`. -/
  oneOffDial : Option Err
  /-- The call `WriteMsg` on the one-off connection. -/
  oneOffWrite : Option Err
  /-- The call `getPathSegmentToRendezvous`. -/
  segment : Option Err
  /-- The gob encoding of the `hiddenPathRequestMsg`. -/
  hiddenPathMsg : Except Err (List Nat)
  /-- The call `WriteTo` of the connection under the control egress endpoint. -/
  ctrlConn : List Nat → Int × Option Err

/-- The method `Gateway.getConnTo`, reduced to its error: `paths[0]` panics on
an empty answer of the path service. -/
def getConnTo (o : Outcomes) : Option (Option Err) :=
  match o.oneOffPaths with
  | .error e => some (some e)
  | .ok [] => none
  | .ok (_ :: _) => some o.oneOffDial

/-- The method `Gateway.WriteMsgOneOff`. -/
def WriteMsgOneOff (o : Outcomes) : Option (Option Err) :=
  match getConnTo o with
  | none => none
  | some (some e) => some (some e)
  | some none => some o.oneOffWrite

/-- The constructor `newPeer`, when both ingress listeners could be opened. -/
def newPeer (conf : pathingConf) (rendezvous : Bool) : peer :=
  { rendezvous := rendezvous, pathMgr := newPathMgr conf, keyMgr := newKeyMgr,
    egressCtrlEConn := none, egressDataEConn := none, remoteCtrlPort := 0,
    remoteDataPort := 0, cryptoHandshakeComplete := false,
    checkHandshakeComplete := false, handshakeCompleted := false, events := [] }

/-- The method `peer.setupEgressConnections`: `getNewEConn` hands back a nil
endpoint with its error, and the nil is stored. A nil current path is
dereferenced. -/
def peer.setupEgressConnections (p : peer) (dialCtrl dialData : Option Err) :
    Option (peer × Option Err) :=
  match p.pathMgr.getCurrPath with
  | none => none
  | some path =>
    match dialCtrl with
    | some e => some ({ p with egressCtrlEConn := none }, some e)
    | none =>
      let p1 : peer := { p with egressCtrlEConn := some ⟨p.remoteCtrlPort, path⟩ }
      match dialData with
      | some e => some ({ p1 with egressDataEConn := none }, some e)
      | none => some ({ p1 with egressDataEConn := some ⟨p.remoteDataPort, path⟩ }, none)

/-- The method `peer.WriteMsg` on the encoding `bytes` of a message: `Write` on
the control egress endpoint, a nil endpoint being dereferenced. -/
def peer.WriteMsg (C : Crypto) (p : peer) (conn : List Nat → Int × Option Err)
    (bytes : Except Err (List Nat)) : Option (peer × Option Err) :=
  match bytes with
  | .error e => some (p, some e)
  | .ok b =>
    match p.egressCtrlEConn with
    | none => none
    | some e =>
      match eConn.Write C p e conn b with
      | none => none
      | some r =>
        match r.sent with
        | none => some (p, r.err)
        | some (port, d) => some ({ p with events := p.events ++ [.ctrlDatagram port d] }, r.err)

/-- The method `pathMgr.sendHiddenPath`. -/
def pathMgr.sendHiddenPath (C : Crypto) (p : peer) (o : Outcomes) : Option (peer × Option Err) :=
  match o.segment with
  | some e => some (p, some e)
  | none => peer.WriteMsg C p o.ctrlConn o.hiddenPathMsg

/-- The method `pathMgr.start`, on the peer that owns the manager. The three
periodic tasks it spawns are not part of the call. -/
def pathMgr.start (C : Crypto) (p : peer) (o : Outcomes) : Option peer :=
  let p1 : peer :=
    { p with pathMgr := p.pathMgr.resetTimeouts o.now,
             events := p.events ++ [Event.pathMgrStart] }
  if p1.rendezvous then (pathMgr.sendHiddenPath C p1 o).map (fun r => r.1)
  else some p1

/-- The method `peer.completeHandshake`. -/
def peer.completeHandshake (C : Crypto) (p : peer) (o : Outcomes) : Option peer :=
  if p.handshakeCompleted then
    if p.cryptoHandshakeComplete && p.handshakeCompleted then some p else none
  else if !p.cryptoHandshakeComplete || !p.checkHandshakeComplete then some p
  else
    match pathMgr.start C p o with
    | none => none
    | some p1 =>
      some { p1 with events := p1.events ++ [.adapterHandshakeComplete],
                     handshakeCompleted := true }

/-- The method `peer.handleHandshakeResponse`. -/
def peer.handleHandshakeResponse (C : Crypto) (p : peer) (o : Outcomes) : Option peer :=
  peer.completeHandshake C { p with checkHandshakeComplete := true } o

/-- The log lines `handleHandshakeRequest` writes for the answer of
`verifyRemotePubKey`. -/
def verifyLog : Bool × Option Err → List Event
  | (_, some _) => [.logVerifyError]
  | (false, none) => [.logTagMismatch]
  | (true, none) => []

/-- The method `peer.handleHandshakeRequest`. -/
def peer.handleHandshakeRequest (C : Crypto) (p : peer) (reqMsg : handshakeRequestMsg)
    (o : Outcomes) : Option peer :=
  if p.cryptoHandshakeComplete then some p
  else
    match o.serverHostKey with
    | .error _ => some p
    | .ok hostKey =>
      let tagMatch := keyMgr.verifyRemotePubKey C reqMsg.PubKeyTag reqMsg.PubKey hostKey
      let p1 : peer :=
        { p with events := p.events ++ verifyLog tagMatch,
                 remoteCtrlPort := reqMsg.CtrlPort,
                 remoteDataPort := reqMsg.DataPort }
      match p1.pathMgr.updatePathsToRemote o.paths o.mapOrder with
      | none => none
      | some (m, some _) => some { p1 with pathMgr := m }
      | some (m, none) =>
        match peer.setupEgressConnections { p1 with pathMgr := m } o.dialCtrl o.dialData with
        | none => none
        | some (p2, some _) => some p2
        | some (p2, none) =>
          match p2.keyMgr.initDataCrypto o.dh reqMsg.PubKey with
          | none => none
          | some (k, some _) => some { p2 with keyMgr := k }
          | some (k, none) =>
            let p3 : peer := { p2 with keyMgr := k, cryptoHandshakeComplete := true }
            match WriteMsgOneOff o with
            | none => none
            | some (some _) => some p3
            | some none =>
              peer.completeHandshake C { p3 with events := p3.events ++ [.sentHandshakeResponse] } o

/-- The method `pathMgr.migrate`, on the peer that owns the manager, up to
its return; `hiddenFailover` is the flag of that name. The task it spawns is
`pathMgr.migrateDone`. -/
def pathMgr.migrate (p : peer) (hiddenFailover : Bool) (dialCtrl dialData : Option Err) :
    Option (peer × Option Err) :=
  if p.pathMgr.isMigrating ≠ 0 then some (p, none)
  else
    match ({ p.pathMgr with isMigrating := 1 } : pathMgr).nextPath hiddenFailover with
    | none => none
    | some (m, next) =>
      match peer.setupEgressConnections { p with pathMgr := { m with currPath := some next } }
          dialCtrl dialData with
      | none => none
      | some (p1, some e) => some ({ p1 with pathMgr := { p1.pathMgr with isMigrating := 0 } }, some e)
      | some (p1, none) => some (p1, none)

/-- The task `pathMgr.migrate` spawns, once its sleep is over: the flag is
cleared and the timeouts are reset. -/
def pathMgr.migrateDone (p : peer) (now : Int) : peer :=
  { p with pathMgr := ({ p.pathMgr with isMigrating := 0 } : pathMgr).resetTimeouts now }

/-- A write on an egress endpoint of the peer as `PeerWriter` hands it out
(`DataWriter()` for `data = true`, `CtrlWriter()` otherwise); a nil endpoint
is dereferenced. -/
def peer.egressWrite (C : Crypto) (p : peer) (data : Bool) (conn : List Nat → Int × Option Err)
    (b : List Nat) : Option WriteResult :=
  match (if data then p.egressDataEConn else p.egressCtrlEConn) with
  | none => none
  | some e => eConn.Write C p e conn b

/-! ## Handshake runs -/

/-- A call on a peer: `keyMgr.getAuthdPubKey`, which `initHandshaking` makes
before it sends requests, the three handshake handlers, and the operations of
the path manager (a tick of `pathRefresher`, `migrate` and the task it spawns,
a keep-alive, the storing of hidden paths, `nextPath` on its own). -/
inductive Call where
  | getAuthdPubKey (getGroup : Option Err) (gen : Except Err (List Nat)) (authKey : List Nat)
  | handleHandshakeRequest (reqMsg : handshakeRequestMsg) (o : Outcomes)
  | handleHandshakeResponse (o : Outcomes)
  | completeHandshake (o : Outcomes)
  | updatePathsToRemote (query : Except Err (List Path)) (order : Nat)
  | migrate (hiddenFailover : Bool) (dialCtrl dialData : Option Err)
  | migrateDone (now : Int)
  | handleKeepAliveRequest (now : Int)
  | storeHiddenPaths (paths : List Path)
  | nextPath (hidden : Bool)

/-- The peer after a call that returns; `none` when the call panics. -/
def peer.call (C : Crypto) (p : peer) : Call → Option peer
  | .getAuthdPubKey getGroup gen authKey =>
    some { p with keyMgr := (p.keyMgr.getAuthdPubKey C getGroup gen authKey).1 }
  | .handleHandshakeRequest reqMsg o => peer.handleHandshakeRequest C p reqMsg o
  | .handleHandshakeResponse o => peer.handleHandshakeResponse C p o
  | .completeHandshake o => peer.completeHandshake C p o
  | .updatePathsToRemote query order =>
    (p.pathMgr.updatePathsToRemote query order).map (fun r => { p with pathMgr := r.1 })
  | .migrate hiddenFailover dialCtrl dialData =>
    (pathMgr.migrate p hiddenFailover dialCtrl dialData).map (fun r => r.1)
  | .migrateDone now => some (pathMgr.migrateDone p now)
  | .handleKeepAliveRequest now =>
    some { p with pathMgr := p.pathMgr.handleKeepAliveRequest now }
  | .storeHiddenPaths paths => some { p with pathMgr := p.pathMgr.storeHiddenPaths paths }
  | .nextPath hidden => (p.pathMgr.nextPath hidden).map (fun r => { p with pathMgr := r.1 })

/-- The peer after a sequence of calls that all return. -/
def peer.run (C : Crypto) (p : peer) : List Call → Option peer
  | [] => some p
  | c :: cs =>
    match peer.call C p c with
    | none => none
    | some p1 => peer.run C p1 cs

/-- A state a fresh peer reaches by a sequence of calls that all return. -/
def Reachable (C : Crypto) (p : peer) : Prop :=
  ∃ (conf : pathingConf) (rendezvous : Bool) (cs : List Call),
    peer.run C (newPeer conf rendezvous) cs = some p

/-- How often `pathMgr.start` ran in the history of a peer. -/
def peer.starts (p : peer) : Nat := p.events.count .pathMgrStart

/-- How often the adapter was notified of a completed handshake. -/
def peer.notifications (p : peer) : Nat := p.events.count .adapterHandshakeComplete

/-- Two peer states agree on `checkHandshakeComplete`, on `handshakeCompleted`
and on how often the path manager was started and the adapter notified. -/
def peer.sameCompletion (q p : peer) : Prop :=
  q.checkHandshakeComplete = p.checkHandshakeComplete ∧
    q.handshakeCompleted = p.handshakeCompleted ∧
    q.starts = p.starts ∧ q.notifications = p.notifications

/-- Two peer states agree on the three handshake flags and on the history of
effects. -/
def peer.sameHandshake (q p : peer) : Prop :=
  q.cryptoHandshakeComplete = p.cryptoHandshakeComplete ∧
    q.checkHandshakeComplete = p.checkHandshakeComplete ∧
    q.handshakeCompleted = p.handshakeCompleted ∧ q.events = p.events

/-- The invariant of the handshake flags: a completed peer has both parts of
the handshake and started its path manager and notified the adapter once; a
peer not completed did neither. -/
def peer.Inv (p : peer) : Prop :=
  (p.handshakeCompleted = true →
    p.cryptoHandshakeComplete = true ∧ p.checkHandshakeComplete = true ∧
      p.starts = 1 ∧ p.notifications = 1) ∧
  (p.handshakeCompleted = false → p.starts = 0 ∧ p.notifications = 0)

/-- The `HandshakeResponse` of the call, when it is a request handler, is not
refused by `WriteMsgOneOff` with an error. -/
def Call.responseSendOk : Call → Prop
  | .handleHandshakeRequest _ o => ∀ e, WriteMsgOneOff o ≠ some (some e)
  | _ => True

/-! ## Sample values -/

/-- A peer after a handshake: session key of 32 bytes `7`, zero IV, two
candidate paths, both egress endpoints on the first. -/
def samplePeer : peer :=
  { rendezvous := false,
    pathMgr :=
      { conf := defaultPathingConf, currPath := some ⟨2, 12, [1, 2]⟩,
        paths := [⟨2, 12, [1, 2]⟩, ⟨1, 11, [1, 2, 3, 4]⟩], pathIdx := 0, hiddenPaths := [],
        hiddenPathsIdx := 0, isMigrating := 0, lastKeepAlive := 500001000 },
    keyMgr :=
      { group := true, priKey := true, pubKey := [5, 5], key := List.replicate 32 7,
        iv := List.replicate 16 0, block := some (List.replicate 32 7) },
    egressCtrlEConn := some ⟨4000, ⟨2, 12, [1, 2]⟩⟩,
    egressDataEConn := some ⟨4001, ⟨2, 12, [1, 2]⟩⟩,
    remoteCtrlPort := 4000, remoteDataPort := 4001,
    cryptoHandshakeComplete := true, checkHandshakeComplete := true,
    handshakeCompleted := true,
    events := [.sentHandshakeResponse, .pathMgrStart, .adapterHandshakeComplete] }

/-- An underlying connection whose `WriteTo` sends every datagram whole. -/
def okConn : List Nat → Int × Option Err := fun d => ((d.length : Int), none)

/-- Outcomes of a call in which every external step succeeds: a 16-byte DRKey,
two paths, a 32-byte shared secret. -/
def goodOutcomes : Outcomes :=
  { now := 1000, serverHostKey := .ok (List.replicate 16 1),
    paths := .ok [⟨1, 11, [1, 2, 3, 4]⟩, ⟨2, 12, [1, 2]⟩], mapOrder := 0,
    dialCtrl := none, dialData := none, dh := fun _ => .ok (List.replicate 32 7),
    oneOffPaths := .ok [⟨3, 11, [1, 2]⟩], oneOffDial := none, oneOffWrite := none,
    segment := none, hiddenPathMsg := .ok [1, 2, 3], ctrlConn := okConn }

/-- The peer `samplePeer` right after `migrate` moved it to its second path. -/
def migratedPeer : peer :=
  { samplePeer with
    pathMgr := { samplePeer.pathMgr with
                 isMigrating := 1, pathIdx := 1, currPath := some ⟨1, 11, [1, 2, 3, 4]⟩ },
    egressCtrlEConn := some ⟨4000, ⟨1, 11, [1, 2, 3, 4]⟩⟩,
    egressDataEConn := some ⟨4001, ⟨1, 11, [1, 2, 3, 4]⟩⟩ }

/-- A fresh peer after `initHandshaking` generated its DH key pair (public
key `[5, 5]`). -/
def keyedPeer : peer :=
  { newPeer defaultPathingConf false with
    keyMgr := { newKeyMgr with group := true, priKey := true, pubKey := [5, 5] } }

/-- A request carrying the public key `[9, 9, 9]` and its tag under `toyCrypto`
with the DRKey of `goodOutcomes`. -/
def goodRequest : handshakeRequestMsg :=
  ⟨[9, 9, 9], [8, 8, 8, 1, 1, 1, 1, 1, 1, 1, 1, 1, 1, 1, 1, 1], 4000, 4001⟩

/-- The request `goodRequest` with the lowest bit of the first tag byte flipped. -/
def tamperedRequest : handshakeRequestMsg :=
  { goodRequest with PubKeyTag := [9, 8, 8, 1, 1, 1, 1, 1, 1, 1, 1, 1, 1, 1, 1, 1] }

/-- The outcomes `goodOutcomes`, but the `HandshakeResponse` cannot be sent. -/
def sendFails : Outcomes :=
  { goodOutcomes with oneOffWrite := some (.external 3) }

/-- The peer `keyedPeer` after a `HandshakeResponse` arrived and a request was
handled whose `HandshakeResponse` could not be sent. -/
def stuckPeer : peer :=
  { samplePeer with
    pathMgr := { samplePeer.pathMgr with lastKeepAlive := 0 },
    handshakeCompleted := false, events := [] }

/-! ## CMAC (the library `github.com/aead/cmac`) -/

/-- Modelled from the spec: the shift `L << 1` of RFC 4493 on a block of bytes,
most significant byte first. The library that computes the CMAC is not part of
the sources; the spec names AES-CMAC and RFC 4493. -/
def cmacShift (b : List Nat) : List Nat :=
  List.zipWith (fun x y => ((x * 2) % 256) ||| ((y % 256) / 128)) b (b.drop 1 ++ [0])

/-- Modelled from the spec: one subkey step of RFC 4493 (`Generate_Subkey`):
the block shifted by one bit, xored with `const_Rb = 0x87` when its top bit
was set. -/
def cmacDouble (b : List Nat) : List Nat :=
  if (b.headD 0 % 256) / 128 = 1 then
    xorBytes (cmacShift b) (List.replicate 15 0 ++ [135])
  else cmacShift b

/-- Modelled from the spec: the padding of RFC 4493 for an incomplete last
block: a byte `0x80`, then zeros up to 16 bytes. -/
def cmacPadding (m : List Nat) : List Nat :=
  m ++ 128 :: List.replicate (15 - m.length) 0

/-- Modelled from the spec: the block loop of RFC 4493 (`AES-CMAC`) with `n`
blocks before the last one: `X := enc (X xor M_i)` for these, then
`T := enc (M_last xor X)`, where `M_last` is the last block xored with `K1` when
it is complete and the padded last block xored with `K2` otherwise. -/
def cmacBlocks (enc : List Nat → List Nat) (K1 K2 : List Nat) : Nat → List Nat → List Nat → List Nat
  | 0, X, m =>
    let last := if m.length = BlockSize then xorBytes m K1 else xorBytes (cmacPadding m) K2
    enc (xorBytes last X)
  | n + 1, X, m =>
    cmacBlocks enc K1 K2 n (enc (xorBytes X (m.take BlockSize))) (m.drop BlockSize)

/-- Modelled from the spec: the 16-byte AES-CMAC tag of RFC 4493 of a message
under the block encryption `enc`. -/
def cmac (enc : List Nat → List Nat) (msg : List Nat) : List Nat :=
  let K1 := cmacDouble (enc (List.replicate BlockSize 0))
  let K2 := cmacDouble K1
  cmacBlocks enc K1 K2 ((msg.length - 1) / BlockSize) (List.replicate BlockSize 0) msg

/-- Modelled from the spec: the library call `cmac.Sum(msg, c, tagsize)`: the
first `tagsize` bytes of the CMAC tag; a tag size of 0 or above the block size
is refused. -/
def cmacSumOver (aes : List Nat → List Nat → List Nat) (msg key : List Nat) (tagsize : Nat) :
    Except Err (List Nat) :=
  if tagsize = 0 ∨ BlockSize < tagsize then .error (.external 2)
  else .ok ((cmac (aes key) msg).take tagsize)

/-- The MAC of the `Crypto` is the CMAC over its block cipher. -/
def Crypto.IsCMAC (C : Crypto) : Prop :=
  ∀ msg key tagsize, C.cmacSum msg key tagsize = cmacSumOver C.aesEncrypt msg key tagsize

/-- The toy block cipher of `toyCrypto` with the CMAC over it. -/
def cmacCrypto : Crypto :=
  { toyCrypto with cmacSum := cmacSumOver toyCrypto.aesEncrypt }

/-- The byte string `l` with bit `j` of byte `i` flipped. -/
def flipBit (l : List Nat) (i j : Nat) : List Nat :=
  l.set i (l.getD i 0 ^^^ 2 ^ j)

/-! ## IP adapter (`adapters/ip/router.go`, `adapters/ip/ipadapter.go`) -/

/-- The library type `net.IPNet`: address and mask, as byte strings. -/
structure IPNet where
  IP : List Nat
  Mask : List Nat
  deriving DecidableEq, Repr

/-- The library method `net.IP.To4`: a 4-byte address as it is, the last four
bytes of a 16-byte IPv4-mapped address, and nil otherwise. -/
def IP.To4 (ip : List Nat) : Option (List Nat) :=
  if ip.length = 4 then some ip
  else if ip.length = 16 ∧ ip.take 10 = List.replicate 10 0 ∧ ip.getD 10 0 = 255 ∧
      ip.getD 11 0 = 255 then some (ip.drop 12)
  else none

/-- The library function `networkNumberAndMask` of package `net`. -/
def networkNumberAndMask (n : IPNet) : Option (List Nat × List Nat) :=
  match (match IP.To4 n.IP with
         | some x => some x
         | none => if n.IP.length = 16 then some n.IP else none) with
  | none => none
  | some ip =>
    if n.Mask.length = 4 then (if ip.length = 4 then some (ip, n.Mask) else none)
    else if n.Mask.length = 16 then
      (if ip.length = 4 then some (ip, n.Mask.drop 12) else some (ip, n.Mask))
    else none

/-- The library method `net.IPNet.Contains`: the address, brought to 4 bytes
when it is an IPv4 address, agrees with the network number on every bit of the
mask. -/
def IPNet.Contains (n : IPNet) (ip : List Nat) : Bool :=
  let nnm := (networkNumberAndMask n).getD ([], [])
  let x := (IP.To4 ip).getD ip
  if x.length ≠ nnm.1.length then false
  else (List.range x.length).all
    (fun i => nnm.1.getD i 0 &&& nnm.2.getD i 0 == x.getD i 0 &&& nnm.2.getD i 0)

/-- The struct `netToClient`. -/
structure netToClient where
  net : IPNet
  IA : String
  deriving DecidableEq, Repr

/-- The struct `Router`; the adapter it points back to is the adapter that
holds it. -/
structure Router where
  netToClientList : List netToClient
  deriving DecidableEq, Repr

/-- The constructor `newRouter`. -/
def newRouter : Router := { netToClientList := [] }

/-- The loop of `Router.Lookup` over the entries: the `IA` of the first entry
whose net contains the address. -/
def Router.lookupLoop (addr : List Nat) : List netToClient → Option String
  | [] => none
  | nToC :: rest => if nToC.net.Contains addr then some nToC.IA else Router.lookupLoop addr rest

/-- The method `Router.Lookup`. -/
def Router.Lookup (r : Router) (addr : List Nat) : Except Err String :=
  match Router.lookupLoop addr r.netToClientList with
  | some IA => .ok IA
  | none => .error (.clientNotFound addr)

/-- The method `Router.addNet`; `routeAdd` is the outcome of
`netlink.RouteAdd`. The entry is appended before the kernel route is added. -/
def Router.addNet (r : Router) (dst : IPNet) (IA : String) (routeAdd : Option Err) :
    Router × Option Err :=
  ({ r with netToClientList := r.netToClientList ++ [⟨dst, IA⟩] }, routeAdd)

/-- A control message (`Message` is `interface{}`): the message types the
gateway and the IP adapter register with gob, and any other value. -/
inductive Message where
  | keepAliveMsg
  | handshakeRequestMsg (m : Gateway.handshakeRequestMsg)
  | handshakeResponseMsg
  | hiddenPathRequestMsg (PathSegment : List Nat)
  | ConfMsg (Net : IPNet)
  | other (tag : Nat)
  deriving DecidableEq, Repr

/-- The struct `IPAdapter`: the subnet of its configuration and its router
(the tunnel device is not modelled). -/
structure IPAdapter where
  Subnet : IPNet
  router : Router
  deriving DecidableEq, Repr

/-- The method `IPAdapter.ProcessCtrlMsg`; the error of `addNet` is logged. -/
def IPAdapter.ProcessCtrlMsg (a : IPAdapter) (msg : Message) (remoteIA : String)
    (routeAdd : Option Err) : IPAdapter :=
  match msg with
  | .ConfMsg Net => { a with router := (a.router.addNet Net remoteIA routeAdd).1 }
  | _ => a

/-- A Go byte slice: its bytes, and what its backing array holds beyond its
length, up to its capacity. -/
structure Slice where
  bytes : List Nat
  spare : List Nat
  deriving DecidableEq, Repr

/-- The function `getDestIP`: `none` when it panics (`buf[0]` on an empty
slice, `buf[16:20]` beyond the capacity). The slice expression reaches into the
backing array beyond the length. -/
def getDestIP (buf : Slice) : Option (Except Err (List Nat)) :=
  match buf.bytes with
  | [] => none
  | b0 :: _ =>
    let ver := (b0 % 256) >>> 4
    if ver = 4 then
      if (buf.bytes ++ buf.spare).length < 20 then none
      else some (.ok (((buf.bytes ++ buf.spare).drop 16).take 4))
    else some (.error (.unsupportedIPVersion ver))

/-- The method `Gateway.getPeer` on the peer table `asClientMap`: the peer (nil
when unknown) and the error. -/
def getPeer (asClientMap : List (String × peer)) (IA : String) : Option peer × Option Err :=
  match asClientMap.lookup IA with
  | some p => (some p, none)
  | none => (none, some (.unknownClient IA))

/-- The method `Gateway.getPeerWriter`. -/
def getPeerWriter (asClientMap : List (String × peer)) (IA : String) :
    Option peer × Option Err :=
  getPeer asClientMap IA

/-- What `IPAdapter.ProcessEgressPkt` did with a packet. -/
inductive EgressResult where
  /-- It returned without a write. -/
  | dropped
  /-- It called `Write` once, on the data writer of the peer found for `IA`,
  with these bytes, and `Write` returned `r`. -/
  | wrote (IA : String) (bytes : List Nat) (r : WriteResult)
  /-- It panicked. -/
  | panic
  deriving DecidableEq, Repr

/-- The method `IPAdapter.ProcessEgressPkt`. `getPeerWriter` hands back a
writer (nil for `none`) and an error; the error is logged and the writer is
used all the same. `conn` is the connection under the data endpoint. -/
def IPAdapter.ProcessEgressPkt (C : Crypto) (a : IPAdapter) (buf : Slice)
    (getPeerWriter : String → Option peer × Option Err)
    (conn : List Nat → Int × Option Err) : EgressResult :=
  match getDestIP buf with
  | none => .panic
  | some (.error _) => .dropped
  | some (.ok dstIP) =>
    match a.router.Lookup dstIP with
    | .error _ => .dropped
    | .ok remoteIA =>
      match (getPeerWriter remoteIA).1 with
      | none => .panic
      | some p =>
        match peer.egressWrite C p true conn buf.bytes with
        | none => .panic
        | some r => .wrote remoteIA buf.bytes r

/-- The net `10.10.0.0/24`. -/
def net_10_10_0 : IPNet := ⟨[10, 10, 0, 0], [255, 255, 255, 0]⟩

/-- An IPv4 packet of 24 bytes from `10.10.1.1` to `10.10.0.5`, in a buffer
with 8 spare bytes. -/
def samplePacket : Slice :=
  ⟨[69, 0, 0, 24, 0, 0, 0, 0, 64, 17, 0, 0, 10, 10, 1, 1, 10, 10, 0, 5, 1, 2, 3, 4],
    List.replicate 8 0⟩

/-- An adapter that learned `10.10.0.0/24` from the AS `1-ff00:0:110`. -/
def sampleAdapter : IPAdapter :=
  { Subnet := ⟨[10, 10, 1, 0], [255, 255, 255, 0]⟩,
    router := { netToClientList := [⟨net_10_10_0, "1-ff00:0:110"⟩] } }

/-! ## Path manager: cursor -/

/-- The cursor `pathIdx` is an index into `paths` once there are paths. -/
def pathMgr.IdxOk (m : pathMgr) : Prop :=
  m.paths ≠ [] → m.pathIdx < m.paths.length

/-- The method `pathMgr.nextPath` called `k` times in a row: the manager after
the calls and the paths they returned, in order. -/
def pathMgr.nextPathN (m : pathMgr) (hidden : Bool) : Nat → Option (pathMgr × List Path)
  | 0 => some (m, [])
  | k + 1 =>
    match pathMgr.nextPathN m hidden k with
    | none => none
    | some (m1, visited) => (m1.nextPath hidden).map (fun r => (r.1, visited ++ [r.2]))

/-- The order of `leastHopsPathSorter`: no more interfaces than. -/
def fewerHops (a b : Path) : Prop := a.interfaces.length ≤ b.interfaces.length

/-- The peer `samplePeer` after `nextPath` moved the cursor to its second path
and a refresh then installed a table of one path. -/
def refreshedPeer : peer :=
  { samplePeer with
    pathMgr := { samplePeer.pathMgr with
                 paths := [⟨2, 12, [1, 2]⟩], pathIdx := 0, currPath := some ⟨2, 12, [1, 2]⟩ } }

/-! ## Buffer pool (`pool.go`) -/

/-- The struct `memPool`: the slice `pool`, the top of the stack last. -/
structure memPool where
  pool : List Slice
  deriving DecidableEq, Repr

/-- The constructor `newMemPool`: `items` buffers of `itemSize` zero bytes.
A `make` with a negative size panics. -/
def newMemPool (itemSize items : Int) : Option memPool :=
  if items < 0 then none
  else if 0 < items ∧ itemSize < 0 then none
  else some ⟨List.replicate items.toNat ⟨List.replicate itemSize.toNat 0, []⟩⟩

/-- The method `memPool.get`: the buffer it returns (`none` for nil) and the
pool after the call. -/
def memPool.get (m : memPool) : Option Slice × memPool :=
  let poolSize := m.pool.length
  if poolSize = 0 then (none, m)
  else (m.pool.get? (poolSize - 1), ⟨m.pool.take (poolSize - 1)⟩)

/-- The method `memPool.put`. -/
def memPool.put (m : memPool) (buf : Slice) : memPool :=
  ⟨m.pool ++ [buf]⟩

/-! ## Periodic tasks of the path manager (`pathmgr.go`) -/

/-- One tick of the task `pathMgr.keepAliveSender`, on the peer that owns the
manager: skipped during a migration, otherwise `WriteMsg` of a `keepAliveMsg`
on the control egress endpoint, whose error is logged. `keepAliveBytes` is the
gob encoding of the message. -/
def pathMgr.keepAliveSender (C : Crypto) (p : peer) (conn : List Nat → Int × Option Err)
    (keepAliveBytes : Except Err (List Nat)) : Option peer :=
  if p.pathMgr.isMigrating = 1 then some p
  else (peer.WriteMsg C p conn keepAliveBytes).map (fun r => r.1)

/-- The library method `Time.Sub` on two readings of the monotonic clock, in
nanoseconds: the difference, cut to the range of a `Duration` (a signed 64-bit
count of nanoseconds). -/
def timeSub (t u : Int) : Int :=
  if t - u > 2 ^ 63 - 1 then 2 ^ 63 - 1
  else if t - u < -(2 ^ 63) then -(2 ^ 63)
  else t - u

/-- One tick of the task `pathMgr.keepAliveChecker`, on the peer that owns the
manager: whether the tick called `migrate`, and the peer after the tick (`none`
when `migrate` panics). The error of `migrate` is logged. -/
def pathMgr.keepAliveChecker (p : peer) (now : Int) (hiddenFailover : Bool)
    (dialCtrl dialData : Option Err) : Bool × Option peer :=
  if p.pathMgr.isMigrating = 1 then (false, some p)
  else if timeSub now p.pathMgr.lastKeepAlive > p.pathMgr.conf.KeepAliveTimeout then
    (true, (pathMgr.migrate p hiddenFailover dialCtrl dialData).map (fun r => r.1))
  else (false, some p)

/-- What a tick of the keep-alive checker meets: the clock, and the outcomes of
the two dials of a migration. -/
structure Tick where
  now : Int
  dialCtrl : Option Err
  dialData : Option Err

/-- Ticks of `keepAliveChecker` in a row, with no other task in between: how
many of them called `migrate`, and the peer after the last (`none` after a
panic). -/
def pathMgr.keepAliveCheckerTicks (p : peer) (hiddenFailover : Bool) :
    List Tick → Nat × Option peer
  | [] => (0, some p)
  | t :: ts =>
    match pathMgr.keepAliveChecker p t.now hiddenFailover t.dialCtrl t.dialData with
    | (called, none) => (if called then 1 else 0, none)
    | (called, some p1) =>
      ((if called then 1 else 0) + (pathMgr.keepAliveCheckerTicks p1 hiddenFailover ts).1,
        (pathMgr.keepAliveCheckerTicks p1 hiddenFailover ts).2)

/-- The flag `isMigrating` holds 0 or 1. -/
def pathMgr.FlagOk (m : pathMgr) : Prop := m.isMigrating = 0 ∨ m.isMigrating = 1

/-! ## The handshake initiator (`peer.go`) -/

/-- One round of the retry loop of `initHandshaking`: the outcomes its
`WriteMsgOneOff` meets, and the calls other tasks make on the peer while the
loop sleeps. -/
structure Round where
  send : Outcomes
  during : List Call

/-- How `initHandshaking` stands after the rounds it was given. -/
inductive InitResult where
  /-- It returned, with the peer as it left it, after `sent` requests went out. -/
  | returned (p : peer) (sent : Nat)
  /-- The rounds are used up and the loop goes on. -/
  | running (p : peer) (sent : Nat)
  /-- It panicked, or a task beside it did. -/
  | panic
  deriving DecidableEq, Repr

/-- The loop `for !peer.handshakeCompleted` of `initHandshaking`: the request is
sent with `WriteMsgOneOff`; on an error the function returns, otherwise it
sleeps. -/
def peer.initHandshakingLoop (C : Crypto) : peer → Nat → List Round → InitResult
  | p, sent, [] => if p.handshakeCompleted then .returned p sent else .running p sent
  | p, sent, r :: rest =>
    if p.handshakeCompleted then .returned p sent
    else
      match WriteMsgOneOff r.send with
      | none => .panic
      | some (some _) => .returned p sent
      | some none =>
        match peer.run C p r.during with
        | none => .panic
        | some p1 => peer.initHandshakingLoop C p1 (sent + 1) rest

/-- The method `peer.initHandshaking`; `clientHostKey` is the outcome of
`drkeyMgr.clientHostKey()`. An error of `getAuthdPubKey` is logged and the
request is built all the same. -/
def peer.initHandshaking (C : Crypto) (p : peer) (clientHostKey : Except Err (List Nat))
    (getGroup : Option Err) (gen : Except Err (List Nat)) (rounds : List Round) : InitResult :=
  match clientHostKey with
  | .error _ => .returned p 0
  | .ok hostKey =>
    peer.initHandshakingLoop C
      { p with keyMgr := (p.keyMgr.getAuthdPubKey C getGroup gen hostKey).1 } 0 rounds

/-! ## Path manager: hidden paths (`pathmgr.go`, `hiddenpath.go`) -/

/-- The assignment `m.currPath = m.nextPath(hidden)` of `migrate`, made `k`
times in a row: the manager after the assignments, and the paths `nextPath`
returned, in order. -/
def pathMgr.migrations (m : pathMgr) (hidden : Bool) : Nat → Option (pathMgr × List Path)
  | 0 => some (m, [])
  | k + 1 =>
    match pathMgr.migrations m hidden k with
    | none => none
    | some (m1, visited) =>
      (m1.nextPath hidden).map
        (fun r => ({ r.1 with currPath := some r.2 }, visited ++ [r.2]))

/-- The peer `samplePeer` with two hidden paths stored. -/
def hiddenPeer : peer :=
  { samplePeer with
    pathMgr := samplePeer.pathMgr.storeHiddenPaths [⟨10, 0, [1, 9, 2]⟩, ⟨11, 0, [1, 9, 3]⟩] }

/-! ## Workers and readers (`worker.go`, `gateway.go`, `peer.go`) -/

/-- The constant `chanLength`. -/
def chanLength : Nat := 1500

/-- The struct `worker`: the buffers in the channel `pktsChannel`, the oldest
first, and the pool. The channel was made with room for `chanLength` buffers. -/
structure worker where
  pktsChannel : List Slice
  pktsPool : memPool
  deriving DecidableEq, Repr

/-- The constructor `newWorker`; `MaxMTU` is the constant `common.MaxMTU` of the
network library. -/
def newWorker (MaxMTU : Nat) : Option worker :=
  (newMemPool MaxMTU chanLength).map (fun pool => ⟨[], pool⟩)

/-- A reader task, the loop of `Gateway.listen` or of the task
`startIngressDataHandler` starts, between two of its steps. -/
inductive Reader where
  /-- At the top of its loop, with the buffer it reads into. -/
  | reading (buf : Slice)
  /-- After `pktsPool.get()` handed it `freeBuf`, before it sends `pkt`, which
  is `buf[:n]`, on the channel. -/
  | sending (pkt : Slice) (freeBuf : Slice)
  deriving DecidableEq, Repr

/-- A worker with the tasks around it: the buffer the loop of `Run` received
from the channel and has not put back yet, and the readers that feed the
channel. -/
structure Pipeline where
  worker : worker
  held : Option Slice
  readers : List Reader
  deriving DecidableEq, Repr

/-- A read into the buffer: the bytes `data` of the packet are copied to its
front, as many as fit. -/
def Slice.readInto (buf : Slice) (data : List Nat) : Slice :=
  ⟨data.take (min data.length buf.bytes.length)
    ++ buf.bytes.drop (min data.length buf.bytes.length), buf.spare⟩

/-- The slice expression `buf[:n]`, for `n` up to the length of `buf`. -/
def Slice.upTo (buf : Slice) (n : Nat) : Slice :=
  ⟨buf.bytes.take n, buf.bytes.drop n ++ buf.spare⟩

/-- A step of one of the tasks. -/
inductive Step where
  /-- Reader `i` reads a packet of bytes `data` into its buffer and calls
  `pktsPool.get()`; on nil it drops the packet. -/
  | read (i : Nat) (data : List Nat)
  /-- Reader `i` sends the packet on the channel and goes on with the free buffer. -/
  | send (i : Nat)
  /-- The loop of `Run` receives the next buffer from the channel. -/
  | receive
  /-- The loop of `Run` has processed its buffer and calls `pktsPool.put(buf[:cap(buf)])`. -/
  | process
  deriving DecidableEq, Repr

/-- The pipeline after a step; `none` when the step cannot be taken: the task
is not at this point, the channel is empty for a receive, or it is full for a
send, which then blocks. -/
def Pipeline.step (s : Pipeline) : Step → Option Pipeline
  | .read i data =>
    match s.readers.get? i with
    | some (.reading buf) =>
      let n := min data.length buf.bytes.length
      let buf1 := buf.readInto data
      match s.worker.pktsPool.get with
      | (none, _) => some { s with readers := s.readers.set i (.reading buf1) }
      | (some freeBuf, pool) =>
        some { s with worker := { s.worker with pktsPool := pool },
                      readers := s.readers.set i (.sending (buf1.upTo n) freeBuf) }
    | _ => none
  | .send i =>
    match s.readers.get? i with
    | some (.sending pkt freeBuf) =>
      if s.worker.pktsChannel.length < chanLength then
        some { s with worker := { s.worker with pktsChannel := s.worker.pktsChannel ++ [pkt] },
                      readers := s.readers.set i (.reading freeBuf) }
      else none
    | _ => none
  | .receive =>
    match s.held, s.worker.pktsChannel with
    | none, buf :: rest =>
      some { s with held := some buf, worker := { s.worker with pktsChannel := rest } }
    | _, _ => none
  | .process =>
    match s.held with
    | some buf =>
      some { s with held := none,
                    worker := { s.worker with
                                pktsPool := s.worker.pktsPool.put ⟨buf.bytes ++ buf.spare, []⟩ } }
    | none => none

/-- The pipeline after a sequence of steps that can all be taken. -/
def Pipeline.run (s : Pipeline) : List Step → Option Pipeline
  | [] => some s
  | st :: rest =>
    match s.step st with
    | none => none
    | some s1 => Pipeline.run s1 rest

/-- A fresh worker with `readers` readers, each with the buffer of `MaxMTU`
bytes it made for itself. -/
def Pipeline.start (MaxMTU readers : Nat) : Option Pipeline :=
  (newWorker MaxMTU).map
    (fun w => ⟨w, none, List.replicate readers (.reading ⟨List.replicate MaxMTU 0, []⟩)⟩)

/-- The buffers a reader holds beyond the one it reads into. -/
def Reader.extra : Reader → Nat
  | .reading _ => 0
  | .sending _ _ => 1

/-- How many readers hold a free buffer they took from the pool and have not
yet sent their packet. -/
def Pipeline.inFlight (s : Pipeline) : Nat := (s.readers.map Reader.extra).sum

/-- The buffers of the pool of a worker, wherever they are: in the pool, in
the channel, with the loop of `Run`, or taken by a reader that has not sent
its packet yet. -/
def Pipeline.buffers (s : Pipeline) : Nat :=
  s.worker.pktsPool.pool.length + s.worker.pktsChannel.length + s.held.toList.length + s.inFlight

/-! ## Message codec (`message.go`) -/

/-- The struct types of the control messages: those of `message.go`, and
`ConfMsg` of the IP adapter. -/
inductive MsgType where
  | keepAliveMsg
  | handshakeRequestMsg
  | handshakeResponseMsg
  | hiddenPathRequestMsg
  | ConfMsg
  deriving DecidableEq, Repr

/-- The struct type of a message, `none` for a value of any other type. -/
def Message.type? : Message → Option MsgType
  | .keepAliveMsg => some .keepAliveMsg
  | .handshakeRequestMsg _ => some .handshakeRequestMsg
  | .handshakeResponseMsg => some .handshakeResponseMsg
  | .hiddenPathRequestMsg _ => some .hiddenPathRequestMsg
  | .ConfMsg _ => some .ConfMsg
  | .other _ => none

/-- A value as a variable of type `Message` holds it: the struct `msg` itself,
or a pointer to it. -/
structure Held where
  pointer : Bool
  msg : Message
  deriving DecidableEq, Repr

/-- An entry of the registry of gob: the call `gob.Register(&T{})` records the
type `*T` under its name, and the name for the struct type `T`. -/
structure Registration where
  name : String
  pointer : Bool
  base : MsgType
  deriving DecidableEq, Repr

/-- The registry after the functions `init` of `message.go` and of the IP
adapter ran. -/
def registry : List Registration :=
  [⟨"*gateway.keepAliveMsg", true, .keepAliveMsg⟩,
   ⟨"*gateway.handshakeRequestMsg", true, .handshakeRequestMsg⟩,
   ⟨"*gateway.handshakeResponseMsg", true, .handshakeResponseMsg⟩,
   ⟨"*gateway.hiddenPathRequestMsg", true, .hiddenPathRequestMsg⟩,
   ⟨"*ipadapter.ConfMsg", true, .ConfMsg⟩]

/-- Modelled from the spec: the wire format of the library `encoding/gob`,
which is not part of the sources; the spec describes a self-describing binary
encoding that carries the type tag. `frame name value` is a value of an
interface type on the wire, the name of its type followed by the encoding of
the struct; `encodeStruct` is the encoding of the fields of a struct,
`decodeStruct` its decoding into a struct of a given type. -/
structure Gob where
  frame : String → List Nat → List Nat
  unframe : List Nat → Except Err (String × List Nat)
  encodeStruct : Message → List Nat
  decodeStruct : MsgType → List Nat → Except Err Message

/-- Modelled from the spec: the library reads back the name and the struct it
wrote (`decode(encode(msg)) = msg`), for the struct types of the messages. -/
def Gob.IsCodec (g : Gob) : Prop :=
  (∀ name value, g.unframe (g.frame name value) = .ok (name, value)) ∧
  (∀ msg ty, Message.type? msg = some ty → g.decodeStruct ty (g.encodeStruct msg) = .ok msg)

/-- Modelled from the spec: the library call `Encoder.Encode(&msg)` on a
variable `msg` of type `Message`. The value goes out under the name registered
for its struct type, a pointer being followed to its struct; a type without a
registered name is refused. -/
def Gob.Encode (g : Gob) (reg : List Registration) (v : Held) : Except Err (List Nat) :=
  match Message.type? v.msg with
  | none => .error (.external 20)
  | some ty =>
    match reg.find? (fun r => decide (r.base = ty)) with
    | none => .error (.external 20)
    | some r => .ok (g.frame r.name (g.encodeStruct v.msg))

/-- Modelled from the spec: the library call `Decoder.Decode(&msg)` on a
variable `msg` of type `Message`. The name on the wire is looked up in the
registry, a value of the type registered under it is made (for a pointer type
a pointer to a fresh struct), and the struct is decoded into it. -/
def Gob.Decode (g : Gob) (reg : List Registration) (bytes : List Nat) : Except Err Held :=
  match g.unframe bytes with
  | .error e => .error e
  | .ok (name, value) =>
    match reg.find? (fun r => decide (r.name = name)) with
    | none => .error (.external 21)
    | some r =>
      match g.decodeStruct r.base value with
      | .error e => .error e
      | .ok msg => .ok ⟨r.pointer, msg⟩

/-- The function `writeMsg`, which is `WriteMsg`: the error it returns, and
the bytes it handed to `writer.Write`, in one call (`none` when the encoding
failed). A short write is logged. -/
def writeMsg (g : Gob) (msg : Held) (writer : List Nat → Int × Option Err) :
    Option Err × Option (List Nat) :=
  match g.Encode registry msg with
  | .error e => (some e, none)
  | .ok buf => ((writer buf).2, some buf)

/-- The function `ReadMsg`; `rd` is the outcome of `reader.ReadFrom` on the
buffer of `MaxMTU` bytes the function made. The result is the message and the
source address, `none` after a panic. -/
def ReadMsg (g : Gob) (rd : ReadResult) : Option (Except Err (Held × Nat)) :=
  match rd with
  | .panic => none
  | .error e _ => some (.error e)
  | .ok n raddr buf =>
    if n < 0 ∨ (buf.length : Int) < n then none
    else
      match g.Decode registry (buf.take n.toNat) with
      | .error e => some (.error e)
      | .ok msg => some (.ok (msg, raddr))

/-- The library method `snet.Conn.ReadFrom` on a fresh buffer of `MaxMTU`
bytes, when a datagram arrived: the datagram is copied to the front of the
buffer, cut to the length of the buffer. -/
def connReadFrom (MaxMTU : Nat) (dgram : List Nat) (raddr : Nat) : ReadResult :=
  let n : Nat := min dgram.length MaxMTU
  .ok (n : Int) raddr (dgram.take n ++ List.replicate (MaxMTU - n) 0)

/-- A toy wire format for names: the length of the name, its characters, then
the value. -/
def toyFrame (name : String) (value : List Nat) : List Nat :=
  name.length :: (name.toList.map Char.toNat ++ value)

/-- The reading of a name and a value in the toy wire format. -/
def toyUnframe : List Nat → Except Err (String × List Nat)
  | [] => .error (.external 22)
  | len :: rest =>
    if rest.length < len then .error (.external 22)
    else .ok (String.mk ((rest.take len).map Char.ofNat), rest.drop len)

/-- A toy wire format for structs: a handshake request is the lengths of key
and tag, the two ports (positive and negative part of each), the key and the
tag; a `ConfMsg` the length of the address, the address and the mask. -/
def toyEncodeStruct : Message → List Nat
  | .handshakeRequestMsg m =>
    [m.PubKey.length, m.PubKeyTag.length, m.CtrlPort.toNat, (-m.CtrlPort).toNat,
      m.DataPort.toNat, (-m.DataPort).toNat] ++ (m.PubKey ++ m.PubKeyTag)
  | .hiddenPathRequestMsg seg => seg
  | .ConfMsg n => n.IP.length :: (n.IP ++ n.Mask)
  | _ => []

/-- The reading of a struct of a given type in the toy wire format. -/
def toyDecodeStruct : MsgType → List Nat → Except Err Message
  | .keepAliveMsg, _ => .ok .keepAliveMsg
  | .handshakeResponseMsg, _ => .ok .handshakeResponseMsg
  | .hiddenPathRequestMsg, seg => .ok (.hiddenPathRequestMsg seg)
  | .ConfMsg, len :: rest => .ok (.ConfMsg ⟨rest.take len, rest.drop len⟩)
  | .handshakeRequestMsg, a :: b :: c :: c1 :: d :: d1 :: rest =>
    .ok (.handshakeRequestMsg
      ⟨rest.take a, (rest.drop a).take b, (c : Int) - (c1 : Int), (d : Int) - (d1 : Int)⟩)
  | _, _ => .error (.external 23)

/-- A toy instance of the wire format. -/
def toyGob : Gob :=
  { frame := toyFrame, unframe := toyUnframe, encodeStruct := toyEncodeStruct,
    decodeStruct := toyDecodeStruct }

/-! ## Lemmas on the crypto primitives and the endpoint -/

theorem BlockSize_eq : BlockSize = 16 := rfl

theorem xorBytes_length (a b : List Nat) : (xorBytes a b).length = min a.length b.length := by
  simp [xorBytes]

theorem xorBytes_cancel : ∀ (a b : List Nat), a.length ≤ b.length →
    xorBytes (xorBytes a b) b = a
  | [], b, _ => by cases b <;> simp [xorBytes]
  | _ :: _, [], h => by simp at h
  | x :: a, y :: b, h => by
    have ih := xorBytes_cancel a b (by simpa using h)
    simp only [xorBytes, List.zipWith_cons_cons] at ih ⊢
    rw [ih, Nat.xor_cancel_right]

theorem cbcEncryptBlocks_length (enc : List Nat → List Nat)
    (henc : ∀ b : List Nat, b.length = BlockSize → (enc b).length = BlockSize) :
    ∀ (n : Nat) (iv src : List Nat), iv.length = BlockSize → src.length = BlockSize * n →
      (cbcEncryptBlocks enc n iv src).length = BlockSize * n
  | 0, _, _, _, _ => by simp [cbcEncryptBlocks]
  | n + 1, iv, src, hiv, hsrc => by
    have hx : (xorBytes (src.take BlockSize) iv).length = BlockSize := by
      rw [xorBytes_length, List.length_take, hiv, hsrc]
      simp [Nat.mul_succ]
    have hc := henc _ hx
    have ih := cbcEncryptBlocks_length enc henc n (enc (xorBytes (src.take BlockSize) iv))
      (src.drop BlockSize) hc (by rw [List.length_drop, hsrc, Nat.mul_succ]; omega)
    simp only [cbcEncryptBlocks, List.length_append, hc, ih, Nat.mul_succ]
    omega

theorem cbcDecryptBlocks_encrypt (enc dec : List Nat → List Nat)
    (hperm : ∀ b : List Nat, b.length = BlockSize → (enc b).length = BlockSize ∧ dec (enc b) = b) :
    ∀ (n : Nat) (iv src : List Nat), iv.length = BlockSize → src.length = BlockSize * n →
      cbcDecryptBlocks dec n iv (cbcEncryptBlocks enc n iv src) = src
  | 0, _, src, _, hsrc => by
    have : src = [] := List.length_eq_zero.mp (by simpa using hsrc)
    simp [cbcDecryptBlocks, cbcEncryptBlocks, this]
  | n + 1, iv, src, hiv, hsrc => by
    have htake : (src.take BlockSize).length = BlockSize := by
      rw [List.length_take, hsrc]; simp [Nat.mul_succ]
    have hx : (xorBytes (src.take BlockSize) iv).length = BlockSize := by
      rw [xorBytes_length, htake, hiv]; simp
    obtain ⟨hc, hdec⟩ := hperm _ hx
    have ih := cbcDecryptBlocks_encrypt enc dec hperm n (enc (xorBytes (src.take BlockSize) iv))
      (src.drop BlockSize) hc (by rw [List.length_drop, hsrc, Nat.mul_succ]; omega)
    simp only [cbcDecryptBlocks, cbcEncryptBlocks]
    rw [List.take_left' hc, List.drop_left' hc, hdec, ih,
      xorBytes_cancel _ _ (by rw [htake, hiv]), List.take_append_drop]

theorem toyCrypto_isBlockPermutation : toyCrypto.IsBlockPermutation := by
  intro key block _
  constructor
  · simpa [toyCrypto] using ‹block.length = BlockSize›
  · simp [toyCrypto, List.map_reverse, Nat.xor_cancel_right, Function.comp_def]

theorem paddedPlaintext_eq (b : List Nat) :
    eConn.paddedPlaintext b
      = b ++ List.replicate (16 - b.length % 16) (16 - b.length % 16) := by
  have h : (16 - b.length % 16) % 256 = 16 - b.length % 16 := by omega
  simp only [eConn.paddedPlaintext, BlockSize_eq, h]

theorem paddedPlaintext_length (b : List Nat) :
    (eConn.paddedPlaintext b).length = b.length + (16 - b.length % 16) := by
  simp [paddedPlaintext_eq]

theorem paddedPlaintext_blocks (b : List Nat) :
    (eConn.paddedPlaintext b).length = BlockSize * ((eConn.paddedPlaintext b).length / BlockSize) := by
  rw [paddedPlaintext_length, BlockSize_eq]
  omega

theorem writeTo_sent (C : Crypto) (p : peer) (conn : List Nat → Int × Option Err)
    (b : List Nat) (raddr : Int) (r : WriteResult) (dst : Int) (d : List Nat)
    (h : eConn.writeTo C p conn b raddr = some r) (hd : r.sent = some (dst, d)) :
    p.cryptoHandshakeComplete = true ∧ p.pathMgr.isMigrating ≠ 1 ∧ dst = raddr ∧
      ∃ key, p.keyMgr.block = some key ∧
        cbcEncrypt C key p.keyMgr.iv (eConn.paddedPlaintext b) = some d := by
  unfold eConn.writeTo at h
  by_cases hc : p.cryptoHandshakeComplete = true
  · by_cases hm : p.pathMgr.isMigrating = 1
    · simp [hc, hm] at h
      subst h
      simp at hd
    · cases hk : p.keyMgr.block with
      | none => simp [hc, hm, hk] at h
      | some key =>
        cases hct : cbcEncrypt C key p.keyMgr.iv (eConn.paddedPlaintext b) with
        | none => simp [hc, hm, hk, hct] at h
        | some ct =>
          simp [hc, hm, hk, hct] at h
          subst h
          simp only [Option.some.injEq, Prod.mk.injEq] at hd
          obtain ⟨h1, h2⟩ := hd
          subst h1 h2
          exact ⟨hc, hm, rfl, key, rfl, hct⟩
  · simp [hc] at h
    subst h
    simp at hd

theorem ReadFrom_decrypted (C : Crypto) (p : peer) (dgram : List Nat) (raddr : Nat)
    (buf key plain : List Nat) (hc : p.cryptoHandshakeComplete = true)
    (hk : p.keyMgr.block = some key) (hn : dgram.length ≤ buf.length)
    (h16 : 16 ≤ dgram.length) (hmod : dgram.length % 16 = 0)
    (hdec : cbcDecrypt C key p.keyMgr.iv dgram = some plain) :
    eConn.ReadFrom C p (.ok (dgram, raddr)) buf
      = if (dgram.length : Int) - ((plain.getD (dgram.length - 1) 0 : Nat) : Int) < 0 then .panic
        else .ok ((dgram.length : Int) - ((plain.getD (dgram.length - 1) 0 : Nat) : Int)) raddr
          (plain ++ buf.drop dgram.length) := by
  have hmin : min dgram.length buf.length = dgram.length := Nat.min_eq_left hn
  have htake : (dgram ++ List.drop dgram.length buf).take dgram.length = dgram :=
    List.take_left' rfl
  have hdrop : (dgram ++ List.drop dgram.length buf).drop dgram.length
      = List.drop dgram.length buf := List.drop_left' rfl
  have hlt : ¬ (dgram.length < BlockSize ∨ dgram.length % BlockSize ≠ 0) := by
    rw [BlockSize_eq]; omega
  simp only [eConn.ReadFrom, hmin, List.take_length, htake, hdrop, hc, hk, hdec, hlt,
    Bool.not_true, Bool.false_eq_true, if_false]

theorem ReadFrom_encrypted (C : Crypto) (hC : C.IsBlockPermutation) (p : peer)
    (key plain : List Nat) (k raddr : Nat) (buf : List Nat)
    (hc : p.cryptoHandshakeComplete = true) (hk : p.keyMgr.block = some key)
    (hiv : p.keyMgr.iv = List.replicate BlockSize 0) (hk1 : 1 ≤ k)
    (hplain : plain.length = BlockSize * k) (hbuf : BlockSize * k ≤ buf.length) :
    eConn.ReadFrom C p
        (.ok (cbcEncryptBlocks (C.aesEncrypt key) k (List.replicate BlockSize 0) plain, raddr)) buf
      = if ((BlockSize * k : Nat) : Int) - ((plain.getD (BlockSize * k - 1) 0 : Nat) : Int) < 0
        then .panic
        else .ok (((BlockSize * k : Nat) : Int) - ((plain.getD (BlockSize * k - 1) 0 : Nat) : Int))
          raddr (plain ++ buf.drop (BlockSize * k)) := by
  have hivlen : (List.replicate BlockSize (0 : Nat)).length = BlockSize := by simp
  have hencl := cbcEncryptBlocks_length (C.aesEncrypt key) (fun b hb => (hC key b hb).1)
    k _ _ hivlen hplain
  have hrt := cbcDecryptBlocks_encrypt (C.aesEncrypt key) (C.aesDecrypt key) (hC key)
    k _ _ hivlen hplain
  generalize cbcEncryptBlocks (C.aesEncrypt key) k (List.replicate BlockSize 0) plain = d
    at hencl hrt
  have hdiv : d.length / BlockSize = k := by
    rw [hencl, BlockSize_eq]; omega
  have hmod : d.length % BlockSize = 0 := by
    rw [hencl, BlockSize_eq]; omega
  have hdec : cbcDecrypt C key p.keyMgr.iv d = some plain := by
    simp only [cbcDecrypt, hiv, hivlen, hmod, hdiv, hrt, ne_eq, not_true_eq_false, if_false]
  rw [BlockSize_eq] at hencl hbuf hmod
  rw [ReadFrom_decrypted C p d raddr buf key plain hc hk (by omega) (by omega) hmod hdec, hencl,
    BlockSize_eq]

theorem ReadFrom_error_iff (C : Crypto) (p : peer) (rd : Except Err (List Nat × Nat))
    (buf : List Nat) (hc : p.cryptoHandshakeComplete = true) :
    (∃ err raw, eConn.ReadFrom C p rd buf = .error err raw) ↔
      ((∃ err, rd = .error err) ∨
        ∃ dgram raddr, rd = .ok (dgram, raddr) ∧
          (min dgram.length buf.length < 16 ∨ min dgram.length buf.length % 16 ≠ 0)) := by
  cases rd with
  | error e => simp [eConn.ReadFrom]
  | ok v =>
    obtain ⟨dgram, raddr⟩ := v
    have hlen : (List.take (min dgram.length buf.length)
        (List.take (min dgram.length buf.length) dgram
          ++ List.drop (min dgram.length buf.length) buf)).length
        = min dgram.length buf.length := by
      simp only [List.length_take, List.length_append, List.length_drop]
      omega
    have hrhs : ((∃ err, (Except.ok (dgram, raddr) : Except Err (List Nat × Nat)) = .error err) ∨
        ∃ dgram1 raddr1, (Except.ok (dgram, raddr) : Except Err (List Nat × Nat))
            = .ok (dgram1, raddr1) ∧
          (min dgram1.length buf.length < 16 ∨ min dgram1.length buf.length % 16 ≠ 0)) ↔
        (min dgram.length buf.length < 16 ∨ min dgram.length buf.length % 16 ≠ 0) := by
      constructor
      · rintro (⟨e, he⟩ | ⟨d1, r1, he, h⟩)
        · cases he
        · cases he; exact h
      · intro h; exact Or.inr ⟨dgram, raddr, rfl, h⟩
    rw [hrhs]
    by_cases hbad : min dgram.length buf.length < 16 ∨ min dgram.length buf.length % 16 ≠ 0
    · simp only [eConn.ReadFrom, hc, hlen, BlockSize_eq, hbad, Bool.not_true,
        Bool.false_eq_true, if_false, if_true, iff_true]
      exact ⟨_, _, rfl⟩
    · simp only [eConn.ReadFrom, hc, hlen, BlockSize_eq, hbad, Bool.not_true,
        Bool.false_eq_true, if_false, iff_false]
      rintro ⟨e, raw, h⟩
      split at h
      · cases h
      · split at h
        · cases h
        · split at h <;> cases h

theorem writeTo_migrating (C : Crypto) (p : peer) (hm : p.pathMgr.isMigrating = 1)
    (conn : List Nat → Int × Option Err) (b : List Nat) (raddr : Int) :
    eConn.writeTo C p conn b raddr
      = some ⟨-1, some (if p.cryptoHandshakeComplete then .PeerIsMigratingError
                        else .cryptoHandshakeError), none⟩ := by
  cases hc : p.cryptoHandshakeComplete <;> simp [eConn.writeTo, hc, hm]

theorem nextPath_isMigrating (m m1 : pathMgr) (hidden : Bool) (q : Path)
    (h : m.nextPath hidden = some (m1, q)) : m1.isMigrating = m.isMigrating := by
  unfold pathMgr.nextPath at h
  split at h
  · split at h
    · cases h
    · split at h
      · simp only [Option.map_eq_some', Prod.mk.injEq] at h
        obtain ⟨_, _, h1, _⟩ := h
        rw [← h1]
      · simp only [Option.map_eq_some', Prod.mk.injEq] at h
        obtain ⟨_, _, h1, _⟩ := h
        rw [← h1]
  · split at h
    · cases h
    · simp only [Option.map_eq_some', Prod.mk.injEq] at h
      obtain ⟨_, _, h1, _⟩ := h
      rw [← h1]

theorem setupEgressConnections_spec (p p1 : peer) (dialCtrl dialData : Option Err)
    (err : Option Err) (h : p.setupEgressConnections dialCtrl dialData = some (p1, err)) :
    p1.pathMgr = p.pathMgr ∧ p1.keyMgr = p.keyMgr ∧ p1.rendezvous = p.rendezvous ∧
      p1.cryptoHandshakeComplete = p.cryptoHandshakeComplete ∧
      p1.checkHandshakeComplete = p.checkHandshakeComplete ∧
      p1.handshakeCompleted = p.handshakeCompleted ∧ p1.events = p.events ∧
      p1.remoteCtrlPort = p.remoteCtrlPort ∧ p1.remoteDataPort = p.remoteDataPort ∧
      (err = none → ∃ path, p.pathMgr.currPath = some path ∧
        p1.egressCtrlEConn = some ⟨p.remoteCtrlPort, path⟩ ∧
        p1.egressDataEConn = some ⟨p.remoteDataPort, path⟩) := by
  unfold peer.setupEgressConnections pathMgr.getCurrPath at h
  cases hp : p.pathMgr.currPath with
  | none => simp [hp] at h
  | some path =>
    cases dialCtrl with
    | some e =>
      simp only [hp, Option.some.injEq, Prod.mk.injEq] at h
      obtain ⟨h1, h2⟩ := h
      subst h1 h2
      simp
    | none =>
      cases dialData with
      | some e =>
        simp only [hp, Option.some.injEq, Prod.mk.injEq] at h
        obtain ⟨h1, h2⟩ := h
        subst h1 h2
        simp
      | none =>
        simp only [hp, Option.some.injEq, Prod.mk.injEq] at h
        obtain ⟨h1, h2⟩ := h
        subst h1 h2
        simp

theorem egressWrite_migrating (C : Crypto) (p : peer) (hm : p.pathMgr.isMigrating = 1)
    (data : Bool) (conn : List Nat → Int × Option Err) (b : List Nat) (r : WriteResult)
    (h : peer.egressWrite C p data conn b = some r) :
    r = ⟨-1, some (if p.cryptoHandshakeComplete then .PeerIsMigratingError
                    else .cryptoHandshakeError), none⟩ := by
  unfold peer.egressWrite at h
  split at h
  · cases h
  · rw [eConn.Write, writeTo_migrating C p hm] at h
    exact (Option.some.inj h).symm

/-! ## The encrypted endpoint: claims C1 to C6 -/

/-- C1: on a sender whose handshake is complete and that is not migrating, and
a receiver with the same session key, both with the zero IV, and AES any
permutation of the 16-byte blocks: the datagram `writeTo` sends for `m`, read
by `ReadFrom` into a buffer of at least `|m| + 16` bytes, gives length `|m|`
and `m` in the first `|m|` bytes of the buffer. -/
theorem eConn_roundtrip (C : Crypto) (hC : C.IsBlockPermutation) (s r : peer)
    (key : List Nat) (conn : List Nat → Int × Option Err) (m : List Nat) (raddr : Int)
    (src : Nat) (buf : List Nat)
    (hs : s.cryptoHandshakeComplete = true) (hm : s.pathMgr.isMigrating ≠ 1)
    (hsk : s.keyMgr.block = some key) (hsiv : s.keyMgr.iv = List.replicate BlockSize 0)
    (hr : r.cryptoHandshakeComplete = true) (hrk : r.keyMgr.block = some key)
    (hriv : r.keyMgr.iv = List.replicate BlockSize 0)
    (hlen : m.length + 16 ≤ buf.length) :
    ∃ (d : List Nat) (n : Int) (err : Option Err) (buf1 : List Nat),
      eConn.writeTo C s conn m raddr = some ⟨n, err, some (raddr, d)⟩ ∧
      eConn.ReadFrom C r (.ok (d, src)) buf = .ok (m.length : Int) src buf1 ∧
      buf1.take m.length = m := by
  have hpl := paddedPlaintext_blocks m
  have hplen := paddedPlaintext_length m
  have hivlen : (List.replicate BlockSize (0 : Nat)).length = BlockSize := by simp
  have hencl := cbcEncryptBlocks_length (C.aesEncrypt key) (fun b hb => (hC key b hb).1)
    ((eConn.paddedPlaintext m).length / BlockSize) _ _ hivlen hpl
  have hrt := cbcDecryptBlocks_encrypt (C.aesEncrypt key) (C.aesDecrypt key) (hC key)
    ((eConn.paddedPlaintext m).length / BlockSize) _ _ hivlen hpl
  rw [← hpl] at hencl
  generalize hd : cbcEncryptBlocks (C.aesEncrypt key)
    ((eConn.paddedPlaintext m).length / BlockSize) (List.replicate BlockSize 0)
    (eConn.paddedPlaintext m) = d at hencl hrt
  have hmod : (eConn.paddedPlaintext m).length % BlockSize = 0 := by
    rw [hplen, BlockSize_eq]; omega
  have hw : eConn.writeTo C s conn m raddr = some ⟨(conn d).1, (conn d).2, some (raddr, d)⟩ := by
    simp only [eConn.writeTo, cbcEncrypt, hs, hm, hsk, hsiv, hivlen, hmod, hd, Bool.not_true,
      Bool.false_eq_true, if_false, ne_eq, not_true_eq_false]
  have hdec : cbcDecrypt C key r.keyMgr.iv d = some (eConn.paddedPlaintext m) := by
    have hmod2 : d.length % BlockSize = 0 := by rw [hencl]; exact hmod
    simp only [cbcDecrypt, hriv, hivlen, hmod2, hencl, hrt, hmod, ne_eq, not_true_eq_false, if_false]
  have hget : (eConn.paddedPlaintext m).getD (d.length - 1) 0 = 16 - m.length % 16 := by
    rw [hencl, hplen, paddedPlaintext_eq, List.getD_eq_getElem?_getD,
      List.getElem?_append_right (by omega)]
    rw [List.getElem?_replicate]
    have : m.length + (16 - m.length % 16) - 1 - m.length < 16 - m.length % 16 := by omega
    simp [this]
  refine ⟨d, _, _, eConn.paddedPlaintext m ++ buf.drop d.length, hw, ?_, ?_⟩
  · rw [ReadFrom_decrypted C r d src buf key _ hr hrk (by omega) (by omega)
      (by rw [hencl, hplen]; omega) hdec, hget, hencl, hplen]
    have h1 : ¬ (((m.length + (16 - m.length % 16) : Nat) : Int)
        - ((16 - m.length % 16 : Nat) : Int) < 0) := by omega
    rw [if_neg h1]
    congr 1
    omega
  · rw [paddedPlaintext_eq, List.append_assoc, List.take_left' rfl]

theorem eConn_roundtrip_witness :
    ∃ (d : List Nat) (n : Int) (err : Option Err) (buf1 : List Nat),
      eConn.writeTo toyCrypto samplePeer okConn [1, 2, 3] 4001
        = some ⟨n, err, some (4001, d)⟩ ∧
      eConn.ReadFrom toyCrypto samplePeer (.ok (d, 9)) (List.replicate 40 255)
        = .ok 3 9 buf1 ∧
      buf1.take 3 = [1, 2, 3] :=
  eConn_roundtrip toyCrypto toyCrypto_isBlockPermutation samplePeer samplePeer
    (List.replicate 32 7) okConn [1, 2, 3] 4001 9 (List.replicate 40 255)
    rfl (by decide) rfl rfl rfl rfl rfl (by decide)

/-- C2: on an endpoint whose handshake is complete and that is not migrating,
with a session key and an IV of 16 bytes, `eConn.writeTo` on a buffer `b`
encrypts `b` followed by `p` bytes of value `p`, with
`p = 16 - (len(b) mod 16)`, and hands the result to the connection as one
datagram; under a block permutation the datagram decrypts to that plaintext.
The number `p` lies in `1..16` and fits a byte, the padded length is a multiple
of 16, and a buffer of a multiple of 16 bytes gets a full block of padding.
Whatever the state of the endpoint, every datagram `writeTo` sends is the CBC
encryption of that plaintext. -/
theorem writeTo_padding (C : Crypto) (q : peer) (key : List Nat)
    (conn : List Nat → Int × Option Err) (b : List Nat) (raddr : Int)
    (hc : q.cryptoHandshakeComplete = true) (hm : q.pathMgr.isMigrating ≠ 1)
    (hk : q.keyMgr.block = some key) (hiv : q.keyMgr.iv.length = BlockSize) :
    (∃ d, cbcEncrypt C key q.keyMgr.iv
          (b ++ List.replicate (16 - b.length % 16) (16 - b.length % 16)) = some d ∧
      eConn.writeTo C q conn b raddr = some ⟨(conn d).1, (conn d).2, some (raddr, d)⟩ ∧
      (C.IsBlockPermutation →
        cbcDecrypt C key q.keyMgr.iv d
          = some (b ++ List.replicate (16 - b.length % 16) (16 - b.length % 16)))) ∧
    eConn.paddedPlaintext b
        = b ++ List.replicate (16 - b.length % 16) (16 - b.length % 16) ∧
    1 ≤ 16 - b.length % 16 ∧ 16 - b.length % 16 ≤ 16 ∧
    (16 - b.length % 16) % 256 = 16 - b.length % 16 ∧
    (b ++ List.replicate (16 - b.length % 16) (16 - b.length % 16)).length % 16 = 0 ∧
    (b.length % 16 = 0 →
      b ++ List.replicate (16 - b.length % 16) (16 - b.length % 16)
        = b ++ List.replicate 16 16) ∧
    (∀ (C1 : Crypto) (q1 : peer) (conn1 : List Nat → Int × Option Err) (raddr1 : Int)
        (r : WriteResult) (dst : Int) (d : List Nat),
      eConn.writeTo C1 q1 conn1 b raddr1 = some r → r.sent = some (dst, d) →
        ∃ key1, q1.keyMgr.block = some key1 ∧
          cbcEncrypt C1 key1 q1.keyMgr.iv
            (b ++ List.replicate (16 - b.length % 16) (16 - b.length % 16)) = some d) := by
  have hpe := paddedPlaintext_eq b
  have hpl := paddedPlaintext_blocks b
  have hplen := paddedPlaintext_length b
  have hmod : (eConn.paddedPlaintext b).length % BlockSize = 0 := by
    rw [hplen, BlockSize_eq]; omega
  have henc : cbcEncrypt C key q.keyMgr.iv (eConn.paddedPlaintext b)
      = some (cbcEncryptBlocks (C.aesEncrypt key) ((eConn.paddedPlaintext b).length / BlockSize)
          q.keyMgr.iv (eConn.paddedPlaintext b)) := by
    simp only [cbcEncrypt, hiv, hmod, ne_eq, not_true_eq_false, if_false]
  refine ⟨⟨_, by rw [← hpe]; exact henc, ?_, ?_⟩, hpe, by omega, by omega, by omega, ?_, ?_, ?_⟩
  · simp only [eConn.writeTo, hc, hm, hk, henc, Bool.not_true, Bool.false_eq_true, if_false]
  · intro hC
    have hencl := cbcEncryptBlocks_length (C.aesEncrypt key) (fun x hx => (hC key x hx).1)
      ((eConn.paddedPlaintext b).length / BlockSize) _ _ hiv hpl
    have hrt := cbcDecryptBlocks_encrypt (C.aesEncrypt key) (C.aesDecrypt key) (hC key)
      ((eConn.paddedPlaintext b).length / BlockSize) _ _ hiv hpl
    rw [← hpl] at hencl
    have hmod2 : (cbcEncryptBlocks (C.aesEncrypt key)
        ((eConn.paddedPlaintext b).length / BlockSize) q.keyMgr.iv
        (eConn.paddedPlaintext b)).length % BlockSize = 0 := by rw [hencl]; exact hmod
    simp only [cbcDecrypt, hiv, hmod2, hencl, hrt, hmod, ne_eq, not_true_eq_false, if_false]
    rw [hpe]
  · rw [← hpe, hplen]; omega
  · intro h
    rw [h]
  · intro C1 q1 conn1 raddr1 r dst d h hd
    obtain ⟨_, _, _, key1, hk1, hct⟩ := writeTo_sent C1 q1 conn1 b raddr1 r dst d h hd
    exact ⟨key1, hk1, by rw [← paddedPlaintext_eq]; exact hct⟩

theorem writeTo_padding_witness :
    ∃ d, cbcEncrypt toyCrypto (List.replicate 32 7) samplePeer.keyMgr.iv
          ([1, 2, 3] ++ List.replicate 13 13) = some d ∧
      eConn.writeTo toyCrypto samplePeer okConn [1, 2, 3] 4001
        = some ⟨(okConn d).1, (okConn d).2, some (4001, d)⟩ ∧
      (toyCrypto.IsBlockPermutation →
        cbcDecrypt toyCrypto (List.replicate 32 7) samplePeer.keyMgr.iv d
          = some ([1, 2, 3] ++ List.replicate 13 13)) :=
  (writeTo_padding toyCrypto samplePeer (List.replicate 32 7) okConn [1, 2, 3] 4001
    rfl (by decide) rfl rfl).1

/-- C3: on an endpoint whose handshake is complete, `eConn.ReadFrom` returns an
error exactly when the underlying read failed or the received length `n` is
below 16 or no multiple of 16; with the error the buffer holds what the read
left there, nothing decrypted; a datagram of `16 * k` bytes, `k ≥ 1`, that fits
the buffer passes the length check. -/
theorem ReadFrom_error_iff_bad_length (C : Crypto) (p : peer)
    (rd : Except Err (List Nat × Nat)) (buf : List Nat)
    (hc : p.cryptoHandshakeComplete = true) :
    ((∃ err raw, eConn.ReadFrom C p rd buf = .error err raw) ↔
      ((∃ err, rd = .error err) ∨
        ∃ dgram raddr, rd = .ok (dgram, raddr) ∧
          (min dgram.length buf.length < 16 ∨ min dgram.length buf.length % 16 ≠ 0))) ∧
    (∀ err raw, eConn.ReadFrom C p rd buf = .error err raw →
      raw = buf ∨ ∃ dgram raddr, rd = .ok (dgram, raddr) ∧
        raw = dgram.take (min dgram.length buf.length)
          ++ buf.drop (min dgram.length buf.length)) ∧
    (∀ dgram raddr k, rd = .ok (dgram, raddr) → 1 ≤ k → dgram.length = 16 * k →
      16 * k ≤ buf.length → ∀ err raw, eConn.ReadFrom C p rd buf ≠ .error err raw) := by
  have hiff := ReadFrom_error_iff C p rd buf hc
  refine ⟨hiff, ?_, ?_⟩
  · intro err raw h
    cases rd with
    | error e =>
      left
      simp only [eConn.ReadFrom, ReadResult.error.injEq] at h
      exact h.2.symm
    | ok v =>
      obtain ⟨dgram, raddr⟩ := v
      right
      refine ⟨dgram, raddr, rfl, ?_⟩
      simp only [eConn.ReadFrom, hc, Bool.not_true, Bool.false_eq_true, if_false] at h
      split at h
      · simp only [ReadResult.error.injEq] at h
        exact h.2.symm
      · split at h
        · cases h
        · split at h
          · cases h
          · split at h <;> cases h
  · intro dgram raddr k hrd hk hlen hbuf err raw h
    rcases hiff.mp ⟨err, raw, h⟩ with ⟨e, he⟩ | ⟨d1, r1, he, hbad⟩
    · rw [hrd] at he; cases he
    · rw [hrd] at he
      cases he
      have : min dgram.length buf.length = 16 * k := by omega
      omega

theorem ReadFrom_error_iff_bad_length_witness :
    samplePeer.cryptoHandshakeComplete = true ∧
      ∃ err raw, eConn.ReadFrom toyCrypto samplePeer (.ok ([1, 2, 3], 9))
        (List.replicate 40 255) = .error err raw :=
  ⟨rfl, (ReadFrom_error_iff_bad_length toyCrypto samplePeer (.ok ([1, 2, 3], 9))
    (List.replicate 40 255) rfl).1.mpr (Or.inr ⟨[1, 2, 3], 9, rfl, by decide⟩)⟩

/-- C4: `ReadFrom` does not check the padding byte. With AES any permutation of
the 16-byte blocks, on a peer with a complete handshake and the zero IV: a
datagram of 16 bytes whose last decrypted byte is 17 makes `ReadFrom` slice
`ciphertext[:-1]` and panic; one whose last decrypted byte is 0 is returned
with length 16, the whole datagram; one of 32 bytes whose last decrypted byte
is 20 is returned with length 12. None of the three is reported as an error. -/
theorem ReadFrom_padding_unchecked (C : Crypto) (hC : C.IsBlockPermutation) (p : peer)
    (key : List Nat) (raddr : Nat) (buf : List Nat)
    (hc : p.cryptoHandshakeComplete = true) (hk : p.keyMgr.block = some key)
    (hiv : p.keyMgr.iv = List.replicate BlockSize 0) (hbuf : 32 ≤ buf.length) :
    eConn.ReadFrom C p
        (.ok (cbcEncryptBlocks (C.aesEncrypt key) 1 (List.replicate BlockSize 0)
          (List.replicate 15 0 ++ [17]), raddr)) buf = .panic ∧
    eConn.ReadFrom C p
        (.ok (cbcEncryptBlocks (C.aesEncrypt key) 1 (List.replicate BlockSize 0)
          (List.replicate 16 0), raddr)) buf
      = .ok 16 raddr (List.replicate 16 0 ++ buf.drop 16) ∧
    eConn.ReadFrom C p
        (.ok (cbcEncryptBlocks (C.aesEncrypt key) 2 (List.replicate BlockSize 0)
          (List.replicate 31 0 ++ [20]), raddr)) buf
      = .ok 12 raddr (List.replicate 31 0 ++ [20] ++ buf.drop 32) := by
  refine ⟨?_, ?_, ?_⟩
  · rw [ReadFrom_encrypted C hC p key _ 1 raddr buf hc hk hiv (by omega) (by simp [BlockSize_eq])
      (by rw [BlockSize_eq]; omega)]
    simp [BlockSize_eq]
  · rw [ReadFrom_encrypted C hC p key _ 1 raddr buf hc hk hiv (by omega) (by simp [BlockSize_eq])
      (by rw [BlockSize_eq]; omega)]
    simp [BlockSize_eq]
  · rw [ReadFrom_encrypted C hC p key _ 2 raddr buf hc hk hiv (by omega) (by simp [BlockSize_eq])
      (by rw [BlockSize_eq]; omega)]
    simp [BlockSize_eq]

theorem ReadFrom_padding_unchecked_witness :
    eConn.ReadFrom toyCrypto samplePeer
        (.ok ([90, 90, 90, 90, 90, 90, 90, 90, 90, 90, 90, 90, 90, 90, 90, 75].reverse, 9))
        (List.replicate 40 255) = .panic ∧
    eConn.ReadFrom toyCrypto samplePeer (.ok (List.replicate 16 90, 9)) (List.replicate 40 255)
      = .ok 16 9 (List.replicate 16 0 ++ List.replicate 24 255) :=
  ⟨(ReadFrom_padding_unchecked toyCrypto toyCrypto_isBlockPermutation samplePeer
      (List.replicate 32 7) 9 (List.replicate 40 255) rfl rfl rfl (by decide)).1,
   (ReadFrom_padding_unchecked toyCrypto toyCrypto_isBlockPermutation samplePeer
      (List.replicate 32 7) 9 (List.replicate 40 255) rfl rfl rfl (by decide)).2.1⟩

/-- C5: while `cryptoHandshakeComplete` is false, `writeTo` and `Write` return
`(-1, cryptoHandshakeError)` and hand no datagram to the connection, and
`ReadFrom` returns an error, with the buffer as the underlying read left it. -/
theorem handshake_pending (C : Crypto) (p : peer) (hc : p.cryptoHandshakeComplete = false) :
    (∀ conn b raddr,
      eConn.writeTo C p conn b raddr = some ⟨-1, some .cryptoHandshakeError, none⟩) ∧
    (∀ e conn b, eConn.Write C p e conn b = some ⟨-1, some .cryptoHandshakeError, none⟩) ∧
    (∀ err buf, eConn.ReadFrom C p (.error err) buf = .error err buf) ∧
    (∀ dgram raddr buf, eConn.ReadFrom C p (.ok (dgram, raddr)) buf
      = .error .handshakeNotYetTrue
          (dgram.take (min dgram.length buf.length) ++ buf.drop (min dgram.length buf.length))) := by
  refine ⟨?_, ?_, ?_, ?_⟩
  · intro conn b raddr
    simp [eConn.writeTo, hc]
  · intro e conn b
    simp [eConn.Write, eConn.writeTo, hc]
  · intro err buf
    simp [eConn.ReadFrom]
  · intro dgram raddr buf
    simp [eConn.ReadFrom, hc]

theorem handshake_pending_witness :
    (newPeer defaultPathingConf false).cryptoHandshakeComplete = false ∧
      eConn.writeTo toyCrypto (newPeer defaultPathingConf false) okConn [1, 2, 3] 4001
        = some ⟨-1, some .cryptoHandshakeError, none⟩ ∧
      eConn.ReadFrom toyCrypto (newPeer defaultPathingConf false)
          (.ok (List.replicate 16 90, 9)) (List.replicate 20 255)
        = .error .handshakeNotYetTrue (List.replicate 16 90 ++ List.replicate 4 255) :=
  ⟨rfl, (handshake_pending toyCrypto (newPeer defaultPathingConf false) rfl).1 okConn [1, 2, 3] 4001,
    (handshake_pending toyCrypto (newPeer defaultPathingConf false) rfl).2.2.2
      (List.replicate 16 90) 9 (List.replicate 20 255)⟩

/-- C6: while `isMigrating` is 1, `writeTo` returns `-1` with an error and
hands no datagram to the connection, a write on the data or control egress
endpoint never succeeds, and with a complete handshake the error is
`PeerIsMigratingError`; the endpoints a successful `migrate` has rebuilt are in
that state. -/
theorem migrating_blocks_writes (C : Crypto) (p : peer) (hm : p.pathMgr.isMigrating = 1) :
    (∀ conn b raddr, ∃ err, eConn.writeTo C p conn b raddr = some ⟨-1, some err, none⟩ ∧
      (p.cryptoHandshakeComplete = true → err = .PeerIsMigratingError)) ∧
    (∀ data conn b r, peer.egressWrite C p data conn b = some r →
      r.n = -1 ∧ r.sent = none ∧ ∃ err, r.err = some err ∧
        (p.cryptoHandshakeComplete = true → err = .PeerIsMigratingError)) ∧
    (∀ q hiddenFailover dialCtrl dialData q1, q.pathMgr.isMigrating = 0 →
      pathMgr.migrate q hiddenFailover dialCtrl dialData = some (q1, none) →
        q1.pathMgr.isMigrating = 1 ∧
        q1.cryptoHandshakeComplete = q.cryptoHandshakeComplete ∧
        (∃ e1 e2, q1.egressCtrlEConn = some e1 ∧ q1.egressDataEConn = some e2) ∧
        ∀ data conn b, peer.egressWrite C q1 data conn b
          = some ⟨-1, some (if q1.cryptoHandshakeComplete then .PeerIsMigratingError
                            else .cryptoHandshakeError), none⟩) := by
  refine ⟨?_, ?_, ?_⟩
  · intro conn b raddr
    refine ⟨_, writeTo_migrating C p hm conn b raddr, ?_⟩
    intro hc
    simp [hc]
  · intro data conn b r h
    rw [egressWrite_migrating C p hm data conn b r h]
    refine ⟨rfl, rfl, _, rfl, ?_⟩
    intro hc
    simp [hc]
  · intro q hiddenFailover dialCtrl dialData q1 hq h
    unfold pathMgr.migrate at h
    simp only [hq, ne_eq, not_true_eq_false, if_false] at h
    split at h
    · cases h
    · rename_i m next hnext
      have hmig := nextPath_isMigrating _ _ _ _ hnext
      split at h
      · cases h
      · simp only [Option.some.injEq, Prod.mk.injEq, reduceCtorEq, and_false] at h
      · rename_i p1 hsetup
        simp only [Option.some.injEq, Prod.mk.injEq, and_true] at h
        subst h
        obtain ⟨hpm, _, _, hcr, _, _, _, _, _, hconn⟩ := setupEgressConnections_spec _ _ _ _ _ hsetup
        obtain ⟨path, _, h1, h2⟩ := hconn rfl
        have hm1 : p1.pathMgr.isMigrating = 1 := by
          rw [hpm]; exact hmig
        refine ⟨hm1, hcr, ⟨_, _, h1, h2⟩, ?_⟩
        intro data conn b
        cases data
        · simp only [peer.egressWrite, h1, Bool.false_eq_true, if_false, eConn.Write]
          exact writeTo_migrating C p1 hm1 conn b _
        · simp only [peer.egressWrite, h2, if_true, eConn.Write]
          exact writeTo_migrating C p1 hm1 conn b _

theorem migrating_blocks_writes_witness :
    pathMgr.migrate samplePeer false none none = some (migratedPeer, none) ∧
      migratedPeer.pathMgr.isMigrating = 1 ∧
      ∃ err, eConn.writeTo toyCrypto migratedPeer okConn [1, 2, 3] 4001
          = some ⟨-1, some err, none⟩ ∧
        (migratedPeer.cryptoHandshakeComplete = true → err = .PeerIsMigratingError) :=
  ⟨by decide, rfl, (migrating_blocks_writes toyCrypto migratedPeer rfl).1 okConn [1, 2, 3] 4001⟩

/-! ## Lemmas on the handshake -/

theorem count_verifyLog (v : Bool × Option Err) :
    (verifyLog v).count .pathMgrStart = 0 ∧
      (verifyLog v).count .adapterHandshakeComplete = 0 := by
  obtain ⟨b, e⟩ := v
  cases b <;> cases e <;> simp [verifyLog]

theorem WriteMsg_spec (C : Crypto) (p p1 : peer) (conn : List Nat → Int × Option Err)
    (bytes : Except Err (List Nat)) (err : Option Err)
    (h : peer.WriteMsg C p conn bytes = some (p1, err)) :
    p1.cryptoHandshakeComplete = p.cryptoHandshakeComplete ∧ p1.sameCompletion p := by
  unfold peer.WriteMsg at h
  cases bytes with
  | error e =>
    simp only [Option.some.injEq, Prod.mk.injEq] at h
    obtain ⟨h1, _⟩ := h
    subst h1
    exact ⟨rfl, rfl, rfl, rfl, rfl⟩
  | ok b =>
    cases he : p.egressCtrlEConn with
    | none => simp [he] at h
    | some e =>
      cases hw : eConn.Write C p e conn b with
      | none => simp [he, hw] at h
      | some r =>
        cases hs : r.sent with
        | none =>
          simp only [he, hw, hs, Option.some.injEq, Prod.mk.injEq] at h
          obtain ⟨h1, _⟩ := h
          subst h1
          exact ⟨rfl, rfl, rfl, rfl, rfl⟩
        | some v =>
          obtain ⟨port, d⟩ := v
          simp only [he, hw, hs, Option.some.injEq, Prod.mk.injEq] at h
          obtain ⟨h1, _⟩ := h
          subst h1
          refine ⟨rfl, rfl, rfl, ?_, ?_⟩ <;>
            simp [peer.starts, peer.notifications, List.count_append]

theorem start_spec (C : Crypto) (p p1 : peer) (o : Outcomes)
    (h : pathMgr.start C p o = some p1) :
    p1.cryptoHandshakeComplete = p.cryptoHandshakeComplete ∧
      p1.checkHandshakeComplete = p.checkHandshakeComplete ∧
      p1.handshakeCompleted = p.handshakeCompleted ∧
      p1.starts = p.starts + 1 ∧ p1.notifications = p.notifications := by
  unfold pathMgr.start at h
  have hbase : ∀ (rv : Bool) (q : peer),
      q = { p with rendezvous := rv, pathMgr := p.pathMgr.resetTimeouts o.now,
                   events := p.events ++ [Event.pathMgrStart] } →
      q.cryptoHandshakeComplete = p.cryptoHandshakeComplete ∧
      q.checkHandshakeComplete = p.checkHandshakeComplete ∧
      q.handshakeCompleted = p.handshakeCompleted ∧
      q.starts = p.starts + 1 ∧ q.notifications = p.notifications := by
    intro rv q hq
    subst hq
    refine ⟨rfl, rfl, rfl, ?_, ?_⟩ <;>
      simp [peer.starts, peer.notifications, List.count_append]
  cases hr : p.rendezvous with
  | true =>
    simp only [hr, if_true, Option.map_eq_some'] at h
    obtain ⟨⟨q, err⟩, hq, hq1⟩ := h
    simp only at hq1
    subst hq1
    obtain ⟨h1, h2, h3, h4, h5⟩ := hbase true _ rfl
    unfold pathMgr.sendHiddenPath at hq
    cases hseg : o.segment with
    | some e =>
      simp only [hseg, Option.some.injEq, Prod.mk.injEq] at hq
      obtain ⟨hq, _⟩ := hq
      subst hq
      exact ⟨h1, h2, h3, h4, h5⟩
    | none =>
      simp only [hseg] at hq
      obtain ⟨g1, g2, g3, g4, g5⟩ := WriteMsg_spec C _ _ _ _ _ hq
      exact ⟨g1.trans h1, g2.trans h2, g3.trans h3, g4.trans h4, g5.trans h5⟩
  | false =>
    simp only [hr, Bool.false_eq_true, if_false, Option.some.injEq] at h
    exact hbase false _ h.symm

theorem completeHandshake_spec (C : Crypto) (p p1 : peer) (o : Outcomes)
    (h : peer.completeHandshake C p o = some p1) :
    (p1 = p ∧ ((p.handshakeCompleted = true ∧ p.cryptoHandshakeComplete = true) ∨
        (p.handshakeCompleted = false ∧
          (p.cryptoHandshakeComplete = false ∨ p.checkHandshakeComplete = false)))) ∨
    (p.handshakeCompleted = false ∧ p.cryptoHandshakeComplete = true ∧
      p.checkHandshakeComplete = true ∧ p1.handshakeCompleted = true ∧
      p1.cryptoHandshakeComplete = true ∧ p1.checkHandshakeComplete = true ∧
      p1.starts = p.starts + 1 ∧ p1.notifications = p.notifications + 1) := by
  unfold peer.completeHandshake at h
  cases hd : p.handshakeCompleted with
  | true =>
    cases hc : p.cryptoHandshakeComplete with
    | true =>
      simp only [hd, hc, Bool.and_self, if_true, Option.some.injEq] at h
      exact Or.inl ⟨h.symm, Or.inl ⟨rfl, rfl⟩⟩
    | false => simp [hd, hc] at h
  | false =>
    cases hc : p.cryptoHandshakeComplete with
    | false =>
      simp only [hd, hc, Bool.false_eq_true, if_false, Bool.not_false, Bool.true_or, if_true,
        Option.some.injEq] at h
      exact Or.inl ⟨h.symm, Or.inr ⟨rfl, Or.inl rfl⟩⟩
    | true =>
      cases ha : p.checkHandshakeComplete with
      | false =>
        simp only [hd, hc, ha, Bool.false_eq_true, if_false, Bool.not_false, Bool.or_true,
          if_true, Option.some.injEq] at h
        exact Or.inl ⟨h.symm, Or.inr ⟨rfl, Or.inr rfl⟩⟩
      | true =>
        simp only [hd, hc, ha, Bool.false_eq_true, if_false, Bool.not_true, Bool.or_self] at h
        cases hs : pathMgr.start C p o with
        | none => simp [hs] at h
        | some q =>
          simp only [hs, Option.some.injEq] at h
          subst h
          obtain ⟨h1, h2, _, h4, h5⟩ := start_spec C p q o hs
          refine Or.inr ⟨rfl, rfl, rfl, rfl, ?_, ?_, ?_, ?_⟩
          · exact h1.trans hc
          · exact h2.trans ha
          · simp only [peer.starts] at h4 ⊢
            simp [List.count_append, h4]
          · simp only [peer.notifications] at h5 ⊢
            simp [List.count_append, h5]

theorem handleHandshakeRequest_cases (C : Crypto) (p p1 : peer) (reqMsg : handshakeRequestMsg)
    (o : Outcomes) (h : peer.handleHandshakeRequest C p reqMsg o = some p1) :
    p1 = p ∨
    (p.cryptoHandshakeComplete = false ∧ ∃ q : peer, q.sameCompletion p ∧
      ((q.cryptoHandshakeComplete = false ∧ p1 = q) ∨
        (q.cryptoHandshakeComplete = true ∧
          (((∃ e, WriteMsgOneOff o = some (some e)) ∧ p1 = q) ∨
            (WriteMsgOneOff o = some none ∧ peer.completeHandshake C q o = some p1))))) := by
  unfold peer.handleHandshakeRequest at h
  cases hc : p.cryptoHandshakeComplete with
  | true =>
    simp only [hc, if_true, Option.some.injEq] at h
    exact Or.inl h.symm
  | false =>
    simp only [hc, Bool.false_eq_true, if_false] at h
    cases hk : o.serverHostKey with
    | error e =>
      simp only [hk, Option.some.injEq] at h
      exact Or.inl h.symm
    | ok hostKey =>
      simp only [hk] at h
      right
      refine ⟨rfl, ?_⟩
      generalize keyMgr.verifyRemotePubKey C reqMsg.PubKeyTag reqMsg.PubKey hostKey = v at h
      obtain ⟨hv1, hv2⟩ := count_verifyLog v
      have hbase : ∀ (m : pathMgr) (q : peer),
          q = ({ p with events := p.events ++ verifyLog v,
                        remoteCtrlPort := reqMsg.CtrlPort,
                        remoteDataPort := reqMsg.DataPort, pathMgr := m,
                        cryptoHandshakeComplete := false } : peer) →
          q.sameCompletion p ∧ q.cryptoHandshakeComplete = false := by
        intro m q hq
        subst hq
        refine ⟨⟨rfl, rfl, ?_, ?_⟩, rfl⟩ <;>
          simp [peer.starts, peer.notifications, List.count_append, hv1, hv2]
      split at h
      · cases h
      · rename_i m e hu
        simp only [Option.some.injEq] at h
        obtain ⟨g1, g2⟩ := hbase m p1 h.symm
        exact ⟨p1, g1, Or.inl ⟨g2, rfl⟩⟩
      · rename_i m hu
        split at h
        · cases h
        · rename_i p2 e hs
          simp only [Option.some.injEq] at h
          subst h
          obtain ⟨g1, g2⟩ := hbase m _ rfl
          obtain ⟨_, _, _, s4, s5, s6, s7, _, _, _⟩ := setupEgressConnections_spec _ _ _ _ _ hs
          refine ⟨p2, ⟨s5.trans g1.1, s6.trans g1.2.1, ?_, ?_⟩, Or.inl ⟨s4.trans g2, rfl⟩⟩
          · exact (by simp only [peer.starts, s7] : p2.starts = _).trans g1.2.2.1
          · exact (by simp only [peer.notifications, s7] : p2.notifications = _).trans g1.2.2.2
        · rename_i p2 hs
          obtain ⟨g1, g2⟩ := hbase m _ rfl
          obtain ⟨_, _, _, s4, s5, s6, s7, _, _, _⟩ := setupEgressConnections_spec _ _ _ _ _ hs
          have hsame : p2.sameCompletion p := by
            refine ⟨s5.trans g1.1, s6.trans g1.2.1, ?_, ?_⟩
            · exact (by simp only [peer.starts, s7] : p2.starts = _).trans g1.2.2.1
            · exact (by simp only [peer.notifications, s7] : p2.notifications = _).trans g1.2.2.2
          have hcr : p2.cryptoHandshakeComplete = false := s4.trans g2
          split at h
          · cases h
          · rename_i k e hi
            simp only [Option.some.injEq] at h
            subst h
            refine ⟨_, ?_, Or.inl ⟨?_, rfl⟩⟩
            · exact hsame
            · exact hcr
          · rename_i k hi
            split at h
            · cases h
            · rename_i e hw
              simp only [Option.some.injEq] at h
              subst h
              refine ⟨_, ?_, Or.inr ⟨?_, Or.inl ⟨⟨e, hw⟩, rfl⟩⟩⟩
              · exact hsame
              · rfl
            · rename_i hw
              refine ⟨_, ?_, Or.inr ⟨rfl, Or.inr ⟨hw, h⟩⟩⟩
              obtain ⟨t1, t2, t3, t4⟩ := hsame
              refine ⟨t1, t2, ?_, ?_⟩
              · simp only [peer.starts] at t3 ⊢
                simp [List.count_append, t3]
              · simp only [peer.notifications] at t4 ⊢
                simp [List.count_append, t4]

theorem Inv_of_sameCompletion (p q : peer) (hp : p.Inv) (hq : q.sameCompletion p)
    (hc : q.cryptoHandshakeComplete = p.cryptoHandshakeComplete ∨ p.handshakeCompleted = false) :
    q.Inv := by
  obtain ⟨h1, h2, h3, h4⟩ := hq
  obtain ⟨i1, i2⟩ := hp
  constructor
  · intro hd
    rw [h2] at hd
    obtain ⟨j1, j2, j3, j4⟩ := i1 hd
    rcases hc with hc | hc
    · exact ⟨hc.trans j1, h1.trans j2, h3.trans j3, h4.trans j4⟩
    · rw [hc] at hd; cases hd
  · intro hd
    rw [h2] at hd
    obtain ⟨j3, j4⟩ := i2 hd
    exact ⟨h3.trans j3, h4.trans j4⟩

theorem completeHandshake_Inv (C : Crypto) (p p1 : peer) (o : Outcomes) (hp : p.Inv)
    (h : peer.completeHandshake C p o = some p1) : p1.Inv := by
  rcases completeHandshake_spec C p p1 o h with ⟨rfl, _⟩ | ⟨hd, _, _, h1, h2, h3, h4, h5⟩
  · exact hp
  · obtain ⟨j3, j4⟩ := hp.2 hd
    constructor
    · intro _
      exact ⟨h2, h3, by omega, by omega⟩
    · intro hd1
      rw [h1] at hd1; cases hd1

theorem migrate_sameHandshake (p p1 : peer) (hiddenFailover : Bool)
    (dialCtrl dialData err : Option Err)
    (h : pathMgr.migrate p hiddenFailover dialCtrl dialData = some (p1, err)) :
    p1.sameHandshake p := by
  unfold pathMgr.migrate at h
  split at h
  · simp only [Option.some.injEq, Prod.mk.injEq] at h
    rw [← h.1]
    exact ⟨rfl, rfl, rfl, rfl⟩
  · split at h
    · cases h
    · split at h
      · cases h
      · rename_i q e hs
        simp only [Option.some.injEq, Prod.mk.injEq] at h
        rw [← h.1]
        obtain ⟨_, _, _, s4, s5, s6, s7, _⟩ := setupEgressConnections_spec _ _ _ _ _ hs
        exact ⟨s4, s5, s6, s7⟩
      · rename_i q hs
        simp only [Option.some.injEq, Prod.mk.injEq] at h
        rw [← h.1]
        obtain ⟨_, _, _, s4, s5, s6, s7, _⟩ := setupEgressConnections_spec _ _ _ _ _ hs
        exact ⟨s4, s5, s6, s7⟩

theorem call_sameHandshake (C : Crypto) (p p1 : peer) (c : Call)
    (h : peer.call C p c = some p1) :
    p1.sameHandshake p ∨ (∃ reqMsg o, c = .handleHandshakeRequest reqMsg o) ∨
      (∃ o, c = .handleHandshakeResponse o) ∨ (∃ o, c = .completeHandshake o) := by
  cases c with
  | getAuthdPubKey g gen a =>
    simp only [peer.call, Option.some.injEq] at h
    subst h
    exact Or.inl ⟨rfl, rfl, rfl, rfl⟩
  | handleHandshakeRequest reqMsg o => exact Or.inr (Or.inl ⟨reqMsg, o, rfl⟩)
  | handleHandshakeResponse o => exact Or.inr (Or.inr (Or.inl ⟨o, rfl⟩))
  | completeHandshake o => exact Or.inr (Or.inr (Or.inr ⟨o, rfl⟩))
  | updatePathsToRemote query order =>
    simp only [peer.call, Option.map_eq_some'] at h
    obtain ⟨r, _, h⟩ := h
    subst h
    exact Or.inl ⟨rfl, rfl, rfl, rfl⟩
  | migrate hiddenFailover dialCtrl dialData =>
    simp only [peer.call, Option.map_eq_some'] at h
    obtain ⟨⟨q, err⟩, hm, h⟩ := h
    simp only at h
    subst h
    exact Or.inl (migrate_sameHandshake p q hiddenFailover dialCtrl dialData err hm)
  | migrateDone now =>
    simp only [peer.call, Option.some.injEq] at h
    subst h
    exact Or.inl ⟨rfl, rfl, rfl, rfl⟩
  | handleKeepAliveRequest now =>
    simp only [peer.call, Option.some.injEq] at h
    subst h
    exact Or.inl ⟨rfl, rfl, rfl, rfl⟩
  | storeHiddenPaths paths =>
    simp only [peer.call, Option.some.injEq] at h
    subst h
    exact Or.inl ⟨rfl, rfl, rfl, rfl⟩
  | nextPath hidden =>
    simp only [peer.call, Option.map_eq_some'] at h
    obtain ⟨r, _, h⟩ := h
    subst h
    exact Or.inl ⟨rfl, rfl, rfl, rfl⟩

theorem Inv_of_sameHandshake (p q : peer) (hp : p.Inv) (hq : q.sameHandshake p) : q.Inv := by
  obtain ⟨h1, h2, h3, h4⟩ := hq
  refine Inv_of_sameCompletion p q hp ⟨h2, h3, ?_, ?_⟩ (Or.inl h1)
  · simp only [peer.starts, h4]
  · simp only [peer.notifications, h4]

theorem call_Inv (C : Crypto) (p p1 : peer) (c : Call) (hp : p.Inv)
    (h : peer.call C p c = some p1) : p1.Inv := by
  rcases call_sameHandshake C p p1 c h with hs | ⟨reqMsg, o, rfl⟩ | ⟨o, rfl⟩ | ⟨o, rfl⟩
  · exact Inv_of_sameHandshake p p1 hp hs
  · simp only [peer.call] at h
    rcases handleHandshakeRequest_cases C p p1 reqMsg o h with rfl | ⟨hc, q, hq, hcase⟩
    · exact hp
    · have hnd : p.handshakeCompleted = false := by
        cases hd : p.handshakeCompleted with
        | false => rfl
        | true => have := (hp.1 hd).1; rw [hc] at this; cases this
      have hqi : q.Inv := Inv_of_sameCompletion p q hp hq (Or.inr hnd)
      rcases hcase with ⟨_, rfl⟩ | ⟨_, ⟨_, rfl⟩ | ⟨_, hcomp⟩⟩
      · exact hqi
      · exact hqi
      · exact completeHandshake_Inv C q p1 o hqi hcomp
  · simp only [peer.call, peer.handleHandshakeResponse] at h
    refine completeHandshake_Inv C _ p1 o ?_ h
    constructor
    · intro hd
      obtain ⟨j1, _, j3, j4⟩ := hp.1 hd
      exact ⟨j1, rfl, j3, j4⟩
    · intro hd
      exact hp.2 hd
  · exact completeHandshake_Inv C p p1 o hp h

theorem run_Inv (C : Crypto) : ∀ (cs : List Call) (p p1 : peer), p.Inv →
    peer.run C p cs = some p1 → p1.Inv
  | [], p, p1, hp, h => by
    simp only [peer.run, Option.some.injEq] at h
    subst h
    exact hp
  | c :: cs, p, p1, hp, h => by
    simp only [peer.run] at h
    cases hc : peer.call C p c with
    | none => simp [hc] at h
    | some q =>
      simp only [hc] at h
      exact run_Inv C cs q p1 (call_Inv C p q c hp hc) h

theorem Reachable_Inv (C : Crypto) (p : peer) (h : Reachable C p) : p.Inv := by
  obtain ⟨conf, rv, cs, hrun⟩ := h
  refine run_Inv C cs _ p ?_ hrun
  constructor
  · intro hd
    simp [newPeer] at hd
  · intro _
    simp [newPeer, peer.starts, peer.notifications]

theorem completeHandshake_complete (C : Crypto) (p p1 : peer) (o : Outcomes)
    (h : peer.completeHandshake C p o = some p1) :
    p1.cryptoHandshakeComplete = true → p1.checkHandshakeComplete = true →
      p1.handshakeCompleted = true := by
  intro hc ha
  rcases completeHandshake_spec C p p1 o h with ⟨rfl, h1 | h1⟩ | h1
  · exact h1.1
  · rcases h1.2 with h2 | h2
    · rw [h2] at hc; cases hc
    · rw [h2] at ha; cases ha
  · exact h1.2.2.2.1

theorem call_complete_of_responseSendOk (C : Crypto) (p p1 : peer) (c : Call)
    (hp : p.cryptoHandshakeComplete = true → p.checkHandshakeComplete = true →
      p.handshakeCompleted = true)
    (hc : c.responseSendOk) (h : peer.call C p c = some p1) :
    p1.cryptoHandshakeComplete = true → p1.checkHandshakeComplete = true →
      p1.handshakeCompleted = true := by
  rcases call_sameHandshake C p p1 c h with hs | ⟨reqMsg, o, rfl⟩ | ⟨o, rfl⟩ | ⟨o, rfl⟩
  · obtain ⟨h1, h2, h3, _⟩ := hs
    rw [h1, h2, h3]
    exact hp
  · simp only [peer.call] at h
    rcases handleHandshakeRequest_cases C p p1 reqMsg o h with rfl | ⟨_, q, _, hcase⟩
    · exact hp
    · rcases hcase with ⟨hq, rfl⟩ | ⟨_, ⟨⟨e, he⟩, _⟩ | ⟨_, hcomp⟩⟩
      · intro h1
        rw [hq] at h1; cases h1
      · exact absurd he (hc e)
      · exact completeHandshake_complete C q p1 o hcomp
  · exact completeHandshake_complete C _ p1 o h
  · exact completeHandshake_complete C p p1 o h

/-- After a sequence of calls that return, a completed peer has both parts of
the handshake; and when no `HandshakeResponse` was refused by `WriteMsgOneOff`,
a peer with both parts is completed. -/
theorem handshake_iff_of_responseSendOk (C : Crypto) (conf : pathingConf) (rv : Bool) :
    ∀ (cs : List Call) (p : peer), peer.run C (newPeer conf rv) cs = some p →
      (p.handshakeCompleted = true →
        p.cryptoHandshakeComplete = true ∧ p.checkHandshakeComplete = true) ∧
      ((∀ c ∈ cs, c.responseSendOk) →
        p.cryptoHandshakeComplete = true → p.checkHandshakeComplete = true →
          p.handshakeCompleted = true) := by
  intro cs p hrun
  constructor
  · intro hd
    obtain ⟨h1, h2, _, _⟩ := (Reachable_Inv C p ⟨conf, rv, cs, hrun⟩).1 hd
    exact ⟨h1, h2⟩
  · have key : ∀ (cs : List Call) (q p : peer),
        (q.cryptoHandshakeComplete = true → q.checkHandshakeComplete = true →
          q.handshakeCompleted = true) →
        (∀ c ∈ cs, c.responseSendOk) → peer.run C q cs = some p →
        (p.cryptoHandshakeComplete = true → p.checkHandshakeComplete = true →
          p.handshakeCompleted = true) := by
      intro cs
      induction cs with
      | nil =>
        intro q p hq _ h
        simp only [peer.run, Option.some.injEq] at h
        subst h
        exact hq
      | cons c cs ih =>
        intro q p hq hall h
        simp only [peer.run] at h
        cases hc : peer.call C q c with
        | none => simp [hc] at h
        | some q1 =>
          simp only [hc] at h
          exact ih q1 p
            (call_complete_of_responseSendOk C q q1 c hq (hall c (List.mem_cons_self c cs)) hc)
            (fun c1 h1 => hall c1 (List.mem_cons_of_mem c h1)) h
    intro hall
    exact key cs _ p (by simp [newPeer]) hall hrun

theorem call_completed_mono (C : Crypto) (p p1 : peer) (c : Call)
    (hp : p.Inv) (h : peer.call C p c = some p1) (hd : p.handshakeCompleted = true) :
    p1.handshakeCompleted = true := by
  obtain ⟨hcr, hack, _, _⟩ := hp.1 hd
  rcases call_sameHandshake C p p1 c h with hs | ⟨reqMsg, o, rfl⟩ | ⟨o, rfl⟩ | ⟨o, rfl⟩
  · exact hs.2.2.1.trans hd
  · simp only [peer.call, peer.handleHandshakeRequest, hcr, if_true, Option.some.injEq] at h
    subst h
    exact hd
  · simp only [peer.call, peer.handleHandshakeResponse, peer.completeHandshake, hd, hcr,
      Bool.and_self, if_true, Option.some.injEq] at h
    subst h
    rfl
  · simp only [peer.call, peer.completeHandshake, hd, hcr, Bool.and_self, if_true,
      Option.some.injEq] at h
    subst h
    exact hd

theorem run_completed_mono (C : Crypto) : ∀ (cs : List Call) (p p1 : peer), p.Inv →
    peer.run C p cs = some p1 → p.handshakeCompleted = true → p1.handshakeCompleted = true
  | [], p, p1, _, h, hd => by
    simp only [peer.run, Option.some.injEq] at h
    subst h
    exact hd
  | c :: cs, p, p1, hp, h, hd => by
    simp only [peer.run] at h
    cases hc : peer.call C p c with
    | none => simp [hc] at h
    | some q =>
      simp only [hc] at h
      exact run_completed_mono C cs q p1 (call_Inv C p q c hp hc) h
        (call_completed_mono C p q c hp hc hd)

theorem getAuthdPubKey_keyMgr (C : Crypto) (k : keyMgr) (getGroup : Option Err)
    (gen : Except Err (List Nat)) (authKey : List Nat) :
    (k.getAuthdPubKey C getGroup gen authKey).1 = (k.getPubKey getGroup gen).1 := by
  unfold keyMgr.getAuthdPubKey
  split
  · rename_i h
    rw [h]
  · rename_i h
    rw [h]
    split <;> rfl

theorem samplePeer_reachable : Reachable toyCrypto samplePeer :=
  ⟨defaultPathingConf, false,
    [.getAuthdPubKey none (.ok [5, 5]) (List.replicate 16 1),
     .handleHandshakeRequest goodRequest goodOutcomes,
     .handleHandshakeResponse goodOutcomes], by decide⟩

/-! ## The handshake: claims C7 to C10 -/

/-- C7 (code defect): a `HandshakeResponse` arrives, then a request is handled
whose own `HandshakeResponse` cannot be sent. `handleHandshakeRequest` has set
`cryptoHandshakeComplete` and returns before `completeHandshake`: the peer has
both parts of the handshake and is not completed. A request handled afterwards
with every step succeeding is ignored and leaves the peer as it is. -/
theorem handshake_not_completed_after_failed_response :
    peer.run toyCrypto (newPeer defaultPathingConf false)
        [.getAuthdPubKey none (.ok [5, 5]) (List.replicate 16 1),
         .handleHandshakeResponse goodOutcomes,
         .handleHandshakeRequest goodRequest sendFails] = some stuckPeer ∧
      stuckPeer.cryptoHandshakeComplete = true ∧ stuckPeer.checkHandshakeComplete = true ∧
      stuckPeer.handshakeCompleted = false ∧
      peer.handleHandshakeRequest toyCrypto stuckPeer goodRequest goodOutcomes
        = some stuckPeer := by
  refine ⟨by decide, rfl, rfl, rfl, by decide⟩

/-- C8: `completeHandshake` sets `handshakeCompleted` only in a state in which
`cryptoHandshakeComplete` and `checkHandshakeComplete` both hold, and every
completed peer reached from a fresh one by calls that return has both. -/
theorem completed_implies_both_parts (C : Crypto) (p : peer) (hr : Reachable C p)
    (hd : p.handshakeCompleted = true) :
    (p.cryptoHandshakeComplete = true ∧ p.checkHandshakeComplete = true) ∧
      ∀ (q q1 : peer) (o : Outcomes), peer.completeHandshake C q o = some q1 →
        q.handshakeCompleted = false → q1.handshakeCompleted = true →
          q.cryptoHandshakeComplete = true ∧ q.checkHandshakeComplete = true := by
  obtain ⟨h1, h2, _, _⟩ := (Reachable_Inv C p hr).1 hd
  refine ⟨⟨h1, h2⟩, ?_⟩
  intro q q1 o hq hq0 hq1
  rcases completeHandshake_spec C q q1 o hq with ⟨rfl, _⟩ | ⟨_, g1, g2, _⟩
  · rw [hq0] at hq1; cases hq1
  · exact ⟨g1, g2⟩

theorem completed_implies_both_parts_witness :
    Reachable toyCrypto samplePeer ∧ samplePeer.handshakeCompleted = true ∧
      samplePeer.cryptoHandshakeComplete = true ∧ samplePeer.checkHandshakeComplete = true :=
  ⟨samplePeer_reachable, rfl,
    (completed_implies_both_parts toyCrypto samplePeer samplePeer_reachable rfl).1⟩

/-- C9: on a completed peer reached from a fresh one, a further
`HandshakeResponse` leaves the whole peer state as it is, so the flags stay and
neither the path manager is started nor the adapter notified again; in every
state reached, `pathMgr.start` ran at most once and the adapter was notified at
most once. -/
theorem handshakeResponse_idempotent (C : Crypto) (p : peer) (hr : Reachable C p) :
    p.starts ≤ 1 ∧ p.notifications ≤ 1 ∧
      (p.handshakeCompleted = true →
        ∀ o, peer.handleHandshakeResponse C p o = some p) := by
  have hinv := Reachable_Inv C p hr
  refine ⟨?_, ?_, ?_⟩
  · cases hd : p.handshakeCompleted with
    | true => exact le_of_eq (hinv.1 hd).2.2.1
    | false => rw [(hinv.2 hd).1]; exact Nat.zero_le 1
  · cases hd : p.handshakeCompleted with
    | true => exact le_of_eq (hinv.1 hd).2.2.2
    | false => rw [(hinv.2 hd).2]; exact Nat.zero_le 1
  · intro hd o
    obtain ⟨hcr, hack, _, _⟩ := hinv.1 hd
    have hp : ({ p with checkHandshakeComplete := true } : peer) = p := by
      cases p
      simp only at hack
      subst hack
      rfl
    rw [peer.handleHandshakeResponse, hp]
    simp [peer.completeHandshake, hd, hcr]

theorem handshakeResponse_idempotent_witness :
    Reachable toyCrypto samplePeer ∧ samplePeer.handshakeCompleted = true ∧
      samplePeer.starts ≤ 1 ∧
      peer.handleHandshakeResponse toyCrypto samplePeer goodOutcomes = some samplePeer :=
  ⟨samplePeer_reachable, rfl,
    (handshakeResponse_idempotent toyCrypto samplePeer samplePeer_reachable).1,
    (handshakeResponse_idempotent toyCrypto samplePeer samplePeer_reachable).2.2 rfl
      goodOutcomes⟩

/-- C10 (code defect): `handleHandshakeRequest` logs the answer of
`verifyRemotePubKey` and goes on. On the peer `keyedPeer`, a fresh
peer that generated its key pair, with every other
step succeeding, a request with any public key and any tag, under any DRKey and
any CMAC, installs the ports of the request, the paths, both egress endpoints
and the session key, sets `cryptoHandshakeComplete` and sends the
`HandshakeResponse`; the answer of the verification only chooses the log line.
Every later request is ignored. With `toyCrypto` the tag of `tamperedRequest`
fails the verification. -/
theorem handshakeRequest_installs_unverified (C : Crypto) (reqMsg : handshakeRequestMsg)
    (hostKey : List Nat) :
    keyMgr.verifyRemotePubKey toyCrypto tamperedRequest.PubKeyTag tamperedRequest.PubKey
        (List.replicate 16 1) = (false, none) ∧
    Reachable C keyedPeer ∧
    ∃ p : peer,
      peer.handleHandshakeRequest C keyedPeer reqMsg
          { goodOutcomes with serverHostKey := .ok hostKey } = some p ∧
      p.remoteCtrlPort = reqMsg.CtrlPort ∧ p.remoteDataPort = reqMsg.DataPort ∧
      p.pathMgr.paths = [⟨2, 12, [1, 2]⟩, ⟨1, 11, [1, 2, 3, 4]⟩] ∧
      p.egressCtrlEConn = some ⟨reqMsg.CtrlPort, ⟨2, 12, [1, 2]⟩⟩ ∧
      p.egressDataEConn = some ⟨reqMsg.DataPort, ⟨2, 12, [1, 2]⟩⟩ ∧
      p.keyMgr.key = List.replicate 32 7 ∧ p.keyMgr.block = some (List.replicate 32 7) ∧
      p.cryptoHandshakeComplete = true ∧
      p.events = verifyLog (keyMgr.verifyRemotePubKey C reqMsg.PubKeyTag reqMsg.PubKey hostKey)
        ++ [.sentHandshakeResponse] ∧
      ∀ (later : handshakeRequestMsg) (o : Outcomes),
        peer.handleHandshakeRequest C p later o = some p := by
  refine ⟨by decide,
    ⟨defaultPathingConf, false, [.getAuthdPubKey none (.ok [5, 5]) (List.replicate 16 1)], ?_⟩,
    ?_⟩
  · simp only [peer.run, peer.call, getAuthdPubKey_keyMgr]
    rfl
  refine ⟨{ keyedPeer with
            pathMgr := { keyedPeer.pathMgr with
                         paths := [⟨2, 12, [1, 2]⟩, ⟨1, 11, [1, 2, 3, 4]⟩], pathIdx := 0,
                         currPath := some ⟨2, 12, [1, 2]⟩ },
            keyMgr := { keyedPeer.keyMgr with
                        key := List.replicate 32 7, block := some (List.replicate 32 7),
                        iv := List.replicate BlockSize 0 },
            egressCtrlEConn := some ⟨reqMsg.CtrlPort, ⟨2, 12, [1, 2]⟩⟩,
            egressDataEConn := some ⟨reqMsg.DataPort, ⟨2, 12, [1, 2]⟩⟩,
            remoteCtrlPort := reqMsg.CtrlPort, remoteDataPort := reqMsg.DataPort,
            cryptoHandshakeComplete := true,
            events := verifyLog
              (keyMgr.verifyRemotePubKey C reqMsg.PubKeyTag reqMsg.PubKey hostKey)
              ++ [.sentHandshakeResponse] }, ?_, rfl, rfl, rfl, rfl, rfl, rfl, rfl, rfl, rfl, ?_⟩
  · rfl
  · intro later o
    rfl

/-! ## The CMAC: claim C11 -/

theorem xorBytes_comm (a b : List Nat) : xorBytes a b = xorBytes b a := by
  unfold xorBytes
  exact List.zipWith_comm_of_comm _ (fun x y => Nat.xor_comm x y) a b

theorem xorBytes_right_inj (a b k : List Nat) (hab : a.length = b.length)
    (hk : a.length ≤ k.length) (h : xorBytes a k = xorBytes b k) : a = b := by
  rw [← xorBytes_cancel a k hk, h, xorBytes_cancel b k (hab ▸ hk)]

theorem xorBytes_left_inj (a b k : List Nat) (hab : a.length = b.length)
    (hk : a.length ≤ k.length) (h : xorBytes k a = xorBytes k b) : a = b := by
  rw [xorBytes_comm k a, xorBytes_comm k b] at h
  exact xorBytes_right_inj a b k hab hk h

theorem cmacDouble_length (b : List Nat) (hb : b.length = BlockSize) :
    (cmacDouble b).length = BlockSize := by
  have hs : (cmacShift b).length = BlockSize := by
    unfold cmacShift
    rw [List.length_zipWith, List.length_append, List.length_drop, hb, BlockSize_eq]
    rfl
  unfold cmacDouble
  split
  · rw [xorBytes_length, hs, BlockSize_eq]
    rfl
  · exact hs

theorem enc_injective (enc dec : List Nat → List Nat)
    (hperm : ∀ b : List Nat, b.length = BlockSize → (enc b).length = BlockSize ∧ dec (enc b) = b)
    (a b : List Nat) (ha : a.length = BlockSize) (hb : b.length = BlockSize)
    (h : enc a = enc b) : a = b := by
  rw [← (hperm a ha).2, h, (hperm b hb).2]

theorem cmacBlocks_ne (enc dec : List Nat → List Nat)
    (hperm : ∀ b : List Nat, b.length = BlockSize → (enc b).length = BlockSize ∧ dec (enc b) = b)
    (K1 K2 : List Nat) (h1 : K1.length = BlockSize) (h2 : K2.length = BlockSize) :
    ∀ (n : Nat) (X X1 m m1 : List Nat), X.length = BlockSize → X1.length = BlockSize →
      n = (m.length - 1) / BlockSize →
      ((X ≠ X1 ∧ m = m1) ∨
        (X = X1 ∧ ∃ pre a b suf, a ≠ b ∧ m = pre ++ a :: suf ∧ m1 = pre ++ b :: suf)) →
      cmacBlocks enc K1 K2 n X m ≠ cmacBlocks enc K1 K2 n X1 m1 := by
  intro n
  induction n with
  | zero =>
    intro X X1 m m1 hX hX1 hn hd
    rw [BlockSize_eq] at hn
    have hm : m.length ≤ 16 := by omega
    simp only [cmacBlocks]
    intro heq
    rcases hd with ⟨hne, rfl⟩ | ⟨rfl, pre, a, b, suf, hab, rfl, rfl⟩
    · -- same message, different chaining value
      have hlast : ∀ l : List Nat, l.length = BlockSize →
          xorBytes l X = xorBytes l X1 → False := by
        intro l hl hx
        exact hne (xorBytes_left_inj X X1 l (hX.trans hX1.symm) (by rw [hX, hl]) hx)
      split at heq
      · rename_i hfull
        have hl : (xorBytes m K1).length = BlockSize := by
          rw [xorBytes_length, hfull, h1]; simp
        refine hlast _ hl (enc_injective enc dec hperm _ _ ?_ ?_ heq) <;>
          rw [xorBytes_length, hl] <;> simp [hX, hX1]
      · rename_i hpart
        rw [BlockSize_eq] at hpart
        have hl : (xorBytes (cmacPadding m) K2).length = BlockSize := by
          rw [xorBytes_length, h2, BlockSize_eq]
          simp only [cmacPadding, List.length_append, List.length_cons, List.length_replicate]
          omega
        refine hlast _ hl (enc_injective enc dec hperm _ _ ?_ ?_ heq) <;>
          rw [xorBytes_length, hl] <;> simp [hX, hX1]
    · -- same chaining value, one byte of the last block differs
      have hlen : (pre ++ a :: suf).length = (pre ++ b :: suf).length := by simp
      have hne : pre ++ a :: suf ≠ pre ++ b :: suf := by
        intro h
        exact hab (List.cons_eq_cons.mp (List.append_cancel_left h)).1
      rw [← hlen] at heq
      split at heq
      · rename_i hfull
        have hl : (xorBytes (pre ++ a :: suf) K1).length = BlockSize := by
          rw [xorBytes_length, hfull, h1]; simp
        have hl1 : (xorBytes (pre ++ b :: suf) K1).length = BlockSize := by
          rw [xorBytes_length, ← hlen, hfull, h1]; simp
        have e1 := enc_injective enc dec hperm _ _
          (by rw [xorBytes_length, hl, hX]; simp) (by rw [xorBytes_length, hl1, hX]; simp) heq
        have e2 := xorBytes_right_inj _ _ X (hl.trans hl1.symm) (by rw [hl, hX]) e1
        exact hne (xorBytes_right_inj _ _ K1 hlen (by rw [hfull, h1]) e2)
      · rename_i hpart
        rw [BlockSize_eq] at hpart
        have hp : ∀ l : List Nat, l.length = (pre ++ a :: suf).length →
            (cmacPadding l).length = 16 := by
          intro l hl
          simp only [cmacPadding, List.length_append, List.length_cons, List.length_replicate]
          omega
        have hl : (xorBytes (cmacPadding (pre ++ a :: suf)) K2).length = BlockSize := by
          rw [xorBytes_length, hp _ rfl, h2, BlockSize_eq]; rfl
        have hl1 : (xorBytes (cmacPadding (pre ++ b :: suf)) K2).length = BlockSize := by
          rw [xorBytes_length, hp _ hlen.symm, h2, BlockSize_eq]; rfl
        have e1 := enc_injective enc dec hperm _ _
          (by rw [xorBytes_length, hl, hX]; simp) (by rw [xorBytes_length, hl1, hX]; simp) heq
        have e2 := xorBytes_right_inj _ _ X (hl.trans hl1.symm) (by rw [hl, hX]) e1
        have e3 := xorBytes_right_inj _ _ K2 ((hp _ rfl).trans (hp _ hlen.symm).symm)
          (by rw [hp _ rfl, h2, BlockSize_eq]) e2
        simp only [cmacPadding, hlen] at e3
        exact hne (List.append_cancel_right e3)
  | succ n ih =>
    intro X X1 m m1 hX hX1 hn hd
    rw [BlockSize_eq] at hn
    have hm : 17 ≤ m.length := by omega
    simp only [cmacBlocks]
    have htake : ∀ l : List Nat, l.length = m.length → (l.take BlockSize).length = BlockSize := by
      intro l hl
      rw [List.length_take, hl, BlockSize_eq]; omega
    have hxl : ∀ (Y l : List Nat), Y.length = BlockSize → l.length = m.length →
        (xorBytes Y (l.take BlockSize)).length = BlockSize := by
      intro Y l hY hl
      rw [xorBytes_length, hY, htake l hl]; simp
    have hdrop : n = ((m.drop BlockSize).length - 1) / BlockSize := by
      rw [List.length_drop, BlockSize_eq]; omega
    rcases hd with ⟨hne, rfl⟩ | ⟨rfl, pre, a, b, suf, hab, rfl, rfl⟩
    · refine ih _ _ _ _ (hperm _ (hxl X m hX rfl)).1 (hperm _ (hxl X1 m hX1 rfl)).1 hdrop
        (Or.inl ⟨?_, rfl⟩)
      intro heq
      have e1 := enc_injective enc dec hperm _ _ (hxl X m hX rfl) (hxl X1 m hX1 rfl) heq
      exact hne (xorBytes_right_inj X X1 _ (hX.trans hX1.symm) (by rw [hX, htake m rfl]) e1)
    · have hlen : (pre ++ b :: suf).length = (pre ++ a :: suf).length := by simp
      by_cases hpre : pre.length < BlockSize
      · -- the byte lies in this block
        have hdr : (pre ++ b :: suf).drop BlockSize = (pre ++ a :: suf).drop BlockSize := by
          rw [List.drop_append_eq_append_drop, List.drop_append_eq_append_drop,
            List.drop_of_length_le (Nat.le_of_lt hpre)]
          obtain ⟨d, hd⟩ : ∃ d, BlockSize - pre.length = d + 1 := ⟨BlockSize - pre.length - 1, by omega⟩
          rw [hd, List.drop_succ_cons, List.drop_succ_cons]
        rw [hdr]
        refine ih _ _ _ _ (hperm _ (hxl X _ hX rfl)).1 (hperm _ (hxl X _ hX hlen)).1 hdrop
          (Or.inl ⟨?_, rfl⟩)
        intro heq
        have e1 := enc_injective enc dec hperm _ _ (hxl X _ hX rfl) (hxl X _ hX hlen) heq
        have e2 := xorBytes_left_inj _ _ X ((htake _ rfl).trans (htake _ hlen).symm)
          (by rw [htake _ rfl, hX]) e1
        rw [List.take_append_eq_append_take, List.take_append_eq_append_take,
          List.take_of_length_le (Nat.le_of_lt hpre)] at e2
        obtain ⟨d, hd⟩ : ∃ d, BlockSize - pre.length = d + 1 := ⟨BlockSize - pre.length - 1, by omega⟩
        rw [hd, List.take_succ_cons, List.take_succ_cons] at e2
        exact hab (List.cons_eq_cons.mp (List.append_cancel_left e2)).1
      · -- the byte lies in a later block
        have hpre1 : BlockSize ≤ pre.length := Nat.le_of_not_lt hpre
        have htk : ∀ c : Nat, (pre ++ c :: suf).take BlockSize = pre.take BlockSize := by
          intro c
          rw [List.take_append_eq_append_take, Nat.sub_eq_zero_of_le hpre1, List.take_zero,
            List.append_nil]
        have hdk : ∀ c : Nat, (pre ++ c :: suf).drop BlockSize = pre.drop BlockSize ++ c :: suf := by
          intro c
          rw [List.drop_append_eq_append_drop, Nat.sub_eq_zero_of_le hpre1, List.drop_zero]
        rw [htk a, htk b, hdk a, hdk b]
        have hX2 : (xorBytes X (pre.take BlockSize)).length = BlockSize := by
          rw [← htk a]; exact hxl X _ hX rfl
        refine ih _ _ _ _ (hperm _ hX2).1 (hperm _ hX2).1 (by rw [← hdk a]; exact hdrop)
          (Or.inr ⟨rfl, _, a, b, suf, hab, rfl, rfl⟩)

theorem flipBit_split (l : List Nat) (i j : Nat) (hi : i < l.length) :
    ∃ pre a b suf, a ≠ b ∧ l = pre ++ a :: suf ∧ flipBit l i j = pre ++ b :: suf := by
  refine ⟨l.take i, l[i], l[i] ^^^ 2 ^ j, l.drop (i + 1), ?_, ?_, ?_⟩
  · intro h
    have h0 : l[i] ^^^ 2 ^ j = l[i] ^^^ 0 := by rw [Nat.xor_zero]; exact h.symm
    have := Nat.xor_right_injective h0
    exact absurd this (Nat.pos_iff_ne_zero.mp (Nat.two_pow_pos j))
  · rw [← List.drop_eq_getElem_cons hi, List.take_append_drop]
  · unfold flipBit
    rw [List.getD_eq_getElem l 0 hi, List.set_eq_take_cons_drop _ hi]

theorem cmac_flipBit_ne (enc dec : List Nat → List Nat)
    (hperm : ∀ b : List Nat, b.length = BlockSize → (enc b).length = BlockSize ∧ dec (enc b) = b)
    (msg : List Nat) (i j : Nat) (hi : i < msg.length) :
    cmac enc (flipBit msg i j) ≠ cmac enc msg := by
  obtain ⟨pre, a, b, suf, hab, hm, hf⟩ := flipBit_split msg i j hi
  have hz : (List.replicate BlockSize (0 : Nat)).length = BlockSize := by simp
  have hK1 := cmacDouble_length _ (hperm _ hz).1
  have hK2 := cmacDouble_length _ hK1
  have hlen : (flipBit msg i j).length = msg.length := by rw [hf, hm]; simp
  unfold cmac
  simp only [hlen]
  exact (cmacBlocks_ne enc dec hperm _ _ hK1 hK2 _ _ _ msg (flipBit msg i j) hz hz rfl
    (Or.inr ⟨rfl, pre, a, b, suf, hab, hm, hf⟩)).symm

theorem cmacBlocks_length (enc : List Nat → List Nat)
    (henc : ∀ b : List Nat, b.length = BlockSize → (enc b).length = BlockSize)
    (K1 K2 : List Nat) (h1 : K1.length = BlockSize) (h2 : K2.length = BlockSize) :
    ∀ (n : Nat) (X m : List Nat), X.length = BlockSize → n = (m.length - 1) / BlockSize →
      (cmacBlocks enc K1 K2 n X m).length = BlockSize := by
  intro n
  induction n with
  | zero =>
    intro X m hX hn
    rw [BlockSize_eq] at hn
    simp only [cmacBlocks]
    apply henc
    split
    · rename_i hfull
      rw [xorBytes_length, xorBytes_length, hfull, h1, hX]; simp
    · rename_i hpart
      rw [BlockSize_eq] at hpart
      rw [xorBytes_length, xorBytes_length, h2, hX, BlockSize_eq]
      simp only [cmacPadding, List.length_append, List.length_cons, List.length_replicate]
      omega
  | succ n ih =>
    intro X m hX hn
    rw [BlockSize_eq] at hn
    simp only [cmacBlocks]
    apply ih
    · apply henc
      rw [xorBytes_length, hX, List.length_take, BlockSize_eq]; omega
    · rw [List.length_drop, BlockSize_eq]; omega

theorem cmac_length (enc : List Nat → List Nat)
    (henc : ∀ b : List Nat, b.length = BlockSize → (enc b).length = BlockSize)
    (msg : List Nat) : (cmac enc msg).length = BlockSize := by
  have hz : (List.replicate BlockSize (0 : Nat)).length = BlockSize := by simp
  have hK1 := cmacDouble_length _ (henc _ hz)
  exact cmacBlocks_length enc henc _ _ hK1 (cmacDouble_length _ hK1) _ _ _ hz rfl

theorem getCMAC_ok (C : Crypto) (pub k tag : List Nat) (h : getCMAC C pub k = .ok tag) :
    (∃ blk, aesNewCipher k = .ok blk) ∧ C.cmacSum pub k k.length = .ok tag := by
  unfold getCMAC at h
  split at h
  · cases h
  · rename_i blk hb
    exact ⟨⟨blk, hb⟩, h⟩

/-- C11: when `getCMAC(pub, k)` succeeds with a tag, `verifyRemotePubKey` accepts
that tag for `pub` under `k` and no other tag; it answers false when a bit of
the tag is flipped, and, the MAC being the CMAC over a block cipher that is a
permutation of the 16-byte blocks, when a bit of the public key is flipped. The
tag `getAuthdPubKey` hands out with a public key is accepted. -/
theorem verifyRemotePubKey_accepts_exactly_cmac (C : Crypto) (hperm : C.IsBlockPermutation)
    (hmac : C.IsCMAC) (pub k tag : List Nat) (h : getCMAC C pub k = .ok tag) :
    keyMgr.verifyRemotePubKey C tag pub k = (true, none) ∧
    (∀ tag1, keyMgr.verifyRemotePubKey C tag1 pub k = (decide (tag1 = tag), none)) ∧
    (∀ i j, i < tag.length →
      keyMgr.verifyRemotePubKey C (flipBit tag i j) pub k = (false, none)) ∧
    (∀ i j, i < pub.length →
      keyMgr.verifyRemotePubKey C tag (flipBit pub i j) k = (false, none)) ∧
    (∀ (km : keyMgr) getGroup gen km1 pubKey pubTag,
      km.getAuthdPubKey C getGroup gen k = (km1, pubKey, pubTag, none) →
        keyMgr.verifyRemotePubKey C pubTag pubKey k = (true, none)) := by
  obtain ⟨⟨blk, hblk⟩, hsum⟩ := getCMAC_ok C pub k tag h
  have hver : ∀ tag1, keyMgr.verifyRemotePubKey C tag1 pub k = (decide (tag1 = tag), none) := by
    intro tag1
    simp only [keyMgr.verifyRemotePubKey, hblk, hsum]
  refine ⟨?_, hver, ?_, ?_, ?_⟩
  · rw [hver]; simp
  · intro i j hi
    rw [hver]
    obtain ⟨pre, a, b, suf, hab, hm, hf⟩ := flipBit_split tag i j hi
    have hne : flipBit tag i j ≠ tag := by
      rw [hf]
      intro heq
      rw [hm] at heq
      exact hab (List.cons_eq_cons.mp (List.append_cancel_left heq)).1.symm
    simp [hne]
  · intro i j hi
    rw [hmac] at hsum
    unfold cmacSumOver at hsum
    split at hsum
    · cases hsum
    · rename_i hts
      have htag : tag = (cmac (C.aesEncrypt k) pub).take k.length := by
        cases hsum; rfl
      have hk16 : k.length = 16 := by
        unfold aesNewCipher at hblk
        rw [BlockSize_eq] at hts
        split at hblk
        · omega
        · cases hblk
      have hlenc : ∀ msg : List Nat, (cmac (C.aesEncrypt k) msg).length = k.length := by
        intro msg
        rw [cmac_length _ (fun b hb => (hperm k b hb).1), BlockSize_eq, hk16]
      have hsum1 : C.cmacSum (flipBit pub i j) k k.length
          = .ok (cmac (C.aesEncrypt k) (flipBit pub i j)) := by
        rw [hmac, cmacSumOver, if_neg hts, List.take_of_length_le (le_of_eq (hlenc _))]
      rw [List.take_of_length_le (le_of_eq (hlenc _))] at htag
      have hne := cmac_flipBit_ne (C.aesEncrypt k) (C.aesDecrypt k) (hperm k) pub i j hi
      simp only [keyMgr.verifyRemotePubKey, hblk, hsum1, htag]
      simp [Ne.symm hne]
  · intro km getGroup gen km1 pubKey pubTag hg
    unfold keyMgr.getAuthdPubKey at hg
    split at hg
    · simp at hg
    · split at hg
      · simp at hg
      · rename_i k1 pk hpk t ht
        simp only [Prod.mk.injEq, and_true] at hg
        obtain ⟨_, h2, h3⟩ := hg
        subst h2 h3
        obtain ⟨⟨blk1, hblk1⟩, hsum1⟩ := getCMAC_ok C _ k _ ht
        simp [keyMgr.verifyRemotePubKey, hblk1, hsum1]

theorem cmacCrypto_isBlockPermutation : cmacCrypto.IsBlockPermutation :=
  toyCrypto_isBlockPermutation

theorem cmacCrypto_isCMAC : cmacCrypto.IsCMAC := fun _ _ _ => rfl

theorem verifyRemotePubKey_accepts_exactly_cmac_witness :
    getCMAC cmacCrypto [5, 5] (List.replicate 16 1)
        = .ok [181, 51, 51, 51, 51, 51, 51, 51, 51, 51, 51, 51, 51, 179, 54, 54] ∧
      keyMgr.verifyRemotePubKey cmacCrypto
          [181, 51, 51, 51, 51, 51, 51, 51, 51, 51, 51, 51, 51, 179, 54, 54] [5, 5]
          (List.replicate 16 1) = (true, none) ∧
      keyMgr.verifyRemotePubKey cmacCrypto
          [181, 51, 51, 51, 51, 51, 51, 51, 51, 51, 51, 51, 51, 179, 54, 54] [4, 5]
          (List.replicate 16 1) = (false, none) :=
  ⟨rfl,
    (verifyRemotePubKey_accepts_exactly_cmac cmacCrypto cmacCrypto_isBlockPermutation
      cmacCrypto_isCMAC [5, 5] (List.replicate 16 1) _ rfl).1,
    (verifyRemotePubKey_accepts_exactly_cmac cmacCrypto cmacCrypto_isBlockPermutation
      cmacCrypto_isCMAC [5, 5] (List.replicate 16 1) _ rfl).2.2.2.1 0 0 (by decide)⟩

/-! ## The IP adapter: claims C12 to C15 -/

theorem lookupLoop_none_iff (addr : List Nat) : ∀ l : List netToClient,
    Router.lookupLoop addr l = none ↔ ∀ x ∈ l, x.net.Contains addr = false
  | [] => by simp [Router.lookupLoop]
  | e :: l => by
    cases hc : e.net.Contains addr with
    | true => simp [Router.lookupLoop, hc]
    | false => simp [Router.lookupLoop, hc, lookupLoop_none_iff addr l]

theorem lookupLoop_some_iff (addr : List Nat) (ia : String) : ∀ l : List netToClient,
    Router.lookupLoop addr l = some ia ↔
      ∃ pre e suf, l = pre ++ e :: suf ∧ (∀ x ∈ pre, x.net.Contains addr = false) ∧
        e.net.Contains addr = true ∧ e.IA = ia
  | [] => by simp [Router.lookupLoop]
  | e :: l => by
    cases hc : e.net.Contains addr with
    | true =>
      simp only [Router.lookupLoop, hc, if_true, Option.some.injEq]
      constructor
      · intro h
        exact ⟨[], e, l, rfl, by simp, hc, h⟩
      · rintro ⟨pre, e1, suf, hl, hpre, he1, hia⟩
        cases pre with
        | nil =>
          simp only [List.nil_append, List.cons.injEq] at hl
          rw [hl.1]; exact hia
        | cons x pre =>
          simp only [List.cons_append, List.cons.injEq] at hl
          have := hpre x (List.mem_cons_self x pre)
          rw [← hl.1, hc] at this
          cases this
    | false =>
      simp only [Router.lookupLoop, hc, Bool.false_eq_true, if_false]
      rw [lookupLoop_some_iff addr ia l]
      constructor
      · rintro ⟨pre, e1, suf, hl, hpre, he1, hia⟩
        refine ⟨e :: pre, e1, suf, by rw [hl]; rfl, ?_, he1, hia⟩
        intro x hx
        rcases List.mem_cons.mp hx with rfl | hx
        · exact hc
        · exact hpre x hx
      · rintro ⟨pre, e1, suf, hl, hpre, he1, hia⟩
        cases pre with
        | nil =>
          simp only [List.nil_append, List.cons.injEq] at hl
          rw [← hl.1, hc] at he1
          cases he1
        | cons x pre =>
          simp only [List.cons_append, List.cons.injEq] at hl
          exact ⟨pre, e1, suf, hl.2, fun y hy => hpre y (List.mem_cons_of_mem x hy), he1, hia⟩

theorem Lookup_ok_iff (r : Router) (addr : List Nat) (ia : String) :
    r.Lookup addr = .ok ia ↔ Router.lookupLoop addr r.netToClientList = some ia := by
  unfold Router.Lookup
  cases Router.lookupLoop addr r.netToClientList <;> simp

theorem Lookup_error_iff (r : Router) (addr : List Nat) :
    (∃ err, r.Lookup addr = .error err) ↔ Router.lookupLoop addr r.netToClientList = none := by
  unfold Router.Lookup
  cases Router.lookupLoop addr r.netToClientList <;> simp

theorem lookupLoop_append (addr : List Nat) (l2 : List netToClient) : ∀ l1 : List netToClient,
    Router.lookupLoop addr (l1 ++ l2)
      = (Router.lookupLoop addr l1).orElse (fun _ => Router.lookupLoop addr l2)
  | [] => by simp [Router.lookupLoop]
  | e :: l1 => by
    cases hc : e.net.Contains addr with
    | true => simp [Router.lookupLoop, hc]
    | false => simp [Router.lookupLoop, hc, lookupLoop_append addr l2 l1]

/-- C12: `Router.Lookup` returns the AS identifier of the first entry of the
route table, in the order of insertion, whose subnet contains the address, and
returns an error exactly when no entry's subnet contains it; `addNet` inserts
at the end. -/
theorem Lookup_first_match (r : Router) (addr : List Nat) :
    (∀ ia, r.Lookup addr = .ok ia ↔
      ∃ pre e suf, r.netToClientList = pre ++ e :: suf ∧
        (∀ x ∈ pre, x.net.Contains addr = false) ∧ e.net.Contains addr = true ∧ e.IA = ia) ∧
    ((∃ err, r.Lookup addr = .error err) ↔
      ∀ x ∈ r.netToClientList, x.net.Contains addr = false) ∧
    (r.Lookup addr = .error (.clientNotFound addr) ∨ ∃ ia, r.Lookup addr = .ok ia) ∧
    (∀ dst IA routeAdd,
      (r.addNet dst IA routeAdd).1.netToClientList = r.netToClientList ++ [⟨dst, IA⟩]) := by
  refine ⟨?_, ?_, ?_, ?_⟩
  · intro ia
    rw [Lookup_ok_iff, lookupLoop_some_iff]
  · rw [Lookup_error_iff, lookupLoop_none_iff]
  · unfold Router.Lookup
    cases Router.lookupLoop addr r.netToClientList with
    | none => exact Or.inl rfl
    | some ia => exact Or.inr ⟨ia, rfl⟩
  · intro dst IA routeAdd
    rfl

/-- C13: `ProcessCtrlMsg` on `ConfMsg{subnet}` from `remoteIA` appends the one
entry `(subnet, remoteIA)` at the end of the route table, whatever the outcome
of the kernel route; every address that resolved before resolves to the same
AS, every address of the subnet that did not resolve now resolves to
`remoteIA`, and every other address still does not resolve. On an empty table,
after `ConfMsg{10.10.0.0/24}`, the address `10.10.0.5` resolves to the sender. -/
theorem ProcessCtrlMsg_ConfMsg_appends (a : IPAdapter) (subnet : IPNet) (remoteIA : String)
    (routeAdd : Option Err) :
    (a.ProcessCtrlMsg (.ConfMsg subnet) remoteIA routeAdd).router.netToClientList
        = a.router.netToClientList ++ [⟨subnet, remoteIA⟩] ∧
    (∀ addr ia, a.router.Lookup addr = .ok ia →
      (a.ProcessCtrlMsg (.ConfMsg subnet) remoteIA routeAdd).router.Lookup addr = .ok ia) ∧
    (∀ addr err, a.router.Lookup addr = .error err → subnet.Contains addr = true →
      (a.ProcessCtrlMsg (.ConfMsg subnet) remoteIA routeAdd).router.Lookup addr
        = .ok remoteIA) ∧
    (∀ addr err, a.router.Lookup addr = .error err → subnet.Contains addr = false →
      (a.ProcessCtrlMsg (.ConfMsg subnet) remoteIA routeAdd).router.Lookup addr
        = .error (.clientNotFound addr)) ∧
    (IPAdapter.ProcessCtrlMsg ⟨a.Subnet, newRouter⟩ (.ConfMsg net_10_10_0) remoteIA
        routeAdd).router.Lookup [10, 10, 0, 5] = .ok remoteIA := by
  have hlist : (a.ProcessCtrlMsg (.ConfMsg subnet) remoteIA routeAdd).router.netToClientList
      = a.router.netToClientList ++ [⟨subnet, remoteIA⟩] := rfl
  have hloop : ∀ addr, Router.lookupLoop addr
      (a.ProcessCtrlMsg (.ConfMsg subnet) remoteIA routeAdd).router.netToClientList
      = (Router.lookupLoop addr a.router.netToClientList).orElse
          (fun _ => if subnet.Contains addr then some remoteIA else none) := by
    intro addr
    rw [hlist, lookupLoop_append]
    rfl
  refine ⟨hlist, ?_, ?_, ?_, ?_⟩
  rotate_right
  · have hc : net_10_10_0.Contains [10, 10, 0, 5] = true := by decide
    simp [IPAdapter.ProcessCtrlMsg, Router.addNet, newRouter, Router.Lookup,
      Router.lookupLoop, hc]
  · intro addr ia h
    rw [Lookup_ok_iff] at h ⊢
    rw [hloop, h]
    rfl
  · intro addr err h hc
    have hn := (Lookup_error_iff a.router addr).mp ⟨err, h⟩
    rw [Lookup_ok_iff, hloop, hn, hc]
    rfl
  · intro addr err h hc
    have hn := (Lookup_error_iff a.router addr).mp ⟨err, h⟩
    unfold Router.Lookup
    rw [hloop, hn, hc]
    rfl

/-- C14: on a buffer of at least 20 bytes, `getDestIP` returns bytes 16 to 19
when the high nibble of byte 0 is 4, and the unsupported-version error, with no
address, for every other nibble. -/
theorem getDestIP_of_length_ge (buf : Slice) (h : 20 ≤ buf.bytes.length) :
    ((buf.bytes.getD 0 0 % 256) / 16 = 4 →
      getDestIP buf = some (.ok [buf.bytes.getD 16 0, buf.bytes.getD 17 0,
        buf.bytes.getD 18 0, buf.bytes.getD 19 0])) ∧
    ((buf.bytes.getD 0 0 % 256) / 16 ≠ 4 →
      getDestIP buf
        = some (.error (.unsupportedIPVersion ((buf.bytes.getD 0 0 % 256) / 16)))) := by
  obtain ⟨bytes, spare⟩ := buf
  simp only at h ⊢
  have hslice : ((bytes ++ spare).drop 16).take 4
      = [bytes.getD 16 0, bytes.getD 17 0, bytes.getD 18 0, bytes.getD 19 0] := by
    rw [List.drop_append_of_le_length (by omega), List.take_append_of_le_length
      (by rw [List.length_drop]; omega)]
    rw [List.getD_eq_getElem bytes 0 (by omega : 16 < bytes.length),
      List.getD_eq_getElem bytes 0 (by omega : 17 < bytes.length),
      List.getD_eq_getElem bytes 0 (by omega : 18 < bytes.length),
      List.getD_eq_getElem bytes 0 (by omega : 19 < bytes.length),
      List.drop_eq_getElem_cons (by omega : 16 < bytes.length), List.take_succ_cons,
      List.drop_eq_getElem_cons (by omega : 17 < bytes.length), List.take_succ_cons,
      List.drop_eq_getElem_cons (by omega : 18 < bytes.length), List.take_succ_cons,
      List.drop_eq_getElem_cons (by omega : 19 < bytes.length), List.take_succ_cons,
      List.take_zero]
  have hlen : ¬ (bytes ++ spare).length < 20 := by
    rw [List.length_append]; omega
  cases bytes with
  | nil => simp at h
  | cons b0 rest =>
    have h0 : (b0 :: rest).getD 0 0 = b0 := rfl
    rw [h0]
    constructor
    · intro hv
      have hs : (b0 % 256) >>> 4 = b0 % 256 / 16 := by rw [Nat.shiftRight_eq_div_pow]
      simp only [getDestIP, hs, hv, if_true, hlen, if_false, hslice]
    · intro hv
      have hs : (b0 % 256) >>> 4 = b0 % 256 / 16 := by rw [Nat.shiftRight_eq_div_pow]
      simp only [getDestIP, hs, hv, if_false]

theorem getDestIP_of_length_ge_witness :
    getDestIP ⟨[69, 0, 0, 20, 0, 0, 0, 0, 64, 17, 0, 0, 10, 0, 0, 1, 10, 0, 0, 5], []⟩
        = some (.ok [10, 0, 0, 5]) ∧
      getDestIP ⟨[96, 0, 0, 20, 0, 0, 0, 0, 64, 17, 0, 0, 10, 0, 0, 1, 10, 0, 0, 5], []⟩
        = some (.error (.unsupportedIPVersion 6)) :=
  ⟨(getDestIP_of_length_ge
      ⟨[69, 0, 0, 20, 0, 0, 0, 0, 64, 17, 0, 0, 10, 0, 0, 1, 10, 0, 0, 5], []⟩ (by decide)).1
      (by decide),
   (getDestIP_of_length_ge
      ⟨[96, 0, 0, 20, 0, 0, 0, 0, 64, 17, 0, 0, 10, 0, 0, 1, 10, 0, 0, 5], []⟩ (by decide)).2
      (by decide)⟩
theorem ProcessEgressPkt_drops (C : Crypto) (a : IPAdapter) (buf : Slice)
    (getPeerWriter : String → Option peer × Option Err)
    (conn : List Nat → Int × Option Err) :
    (∀ err, getDestIP buf = some (.error err) →
      IPAdapter.ProcessEgressPkt C a buf getPeerWriter conn = .dropped) ∧
    (∀ dst err, getDestIP buf = some (.ok dst) → a.router.Lookup dst = .error err →
      IPAdapter.ProcessEgressPkt C a buf getPeerWriter conn = .dropped) ∧
    (∀ dst ia p r, getDestIP buf = some (.ok dst) → a.router.Lookup dst = .ok ia →
      (getPeerWriter ia).1 = some p → peer.egressWrite C p true conn buf.bytes = some r →
      IPAdapter.ProcessEgressPkt C a buf getPeerWriter conn = .wrote ia buf.bytes r) := by
  refine ⟨?_, ?_, ?_⟩
  · intro err h
    simp [IPAdapter.ProcessEgressPkt, h]
  · intro dst err h hl
    simp [IPAdapter.ProcessEgressPkt, h, hl]
  · intro dst ia p r h hl hw hr
    simp [IPAdapter.ProcessEgressPkt, h, hl, hw, hr]

/-- C15 (code defect): `ProcessEgressPkt` logs the error of `getPeerWriter` and
goes on to `w.DataWriter().Write(buf)` with the writer it was handed. For a
packet whose destination has a route, a `getPeerWriter` that answers an error
with a nil writer, as `Gateway.getPeerWriter` does for an AS that is not in the
peer table, makes the call panic instead of dropping the packet. -/
theorem ProcessEgressPkt_writer_error_panics (C : Crypto) (a : IPAdapter) (buf : Slice)
    (conn : List Nat → Int × Option Err) (dst : List Nat) (ia : String)
    (hd : getDestIP buf = some (.ok dst)) (hl : a.router.Lookup dst = .ok ia) :
    (∀ err, IPAdapter.ProcessEgressPkt C a buf (fun _ => (none, some err)) conn = .panic) ∧
    (∀ asClientMap : List (String × peer), asClientMap.lookup ia = none →
      getPeerWriter asClientMap ia = (none, some (.unknownClient ia)) ∧
      IPAdapter.ProcessEgressPkt C a buf (getPeerWriter asClientMap) conn = .panic) := by
  constructor
  · intro err
    simp [IPAdapter.ProcessEgressPkt, hd, hl]
  · intro m hm
    have hg : getPeerWriter m ia = (none, some (.unknownClient ia)) := by
      simp [getPeerWriter, getPeer, hm]
    exact ⟨hg, by simp [IPAdapter.ProcessEgressPkt, hd, hl, hg]⟩

theorem ProcessEgressPkt_writer_error_panics_witness :
    getDestIP samplePacket = some (.ok [10, 10, 0, 5]) ∧
      sampleAdapter.router.Lookup [10, 10, 0, 5] = .ok "1-ff00:0:110" ∧
      getPeerWriter [] "1-ff00:0:110" = (none, some (.unknownClient "1-ff00:0:110")) ∧
      IPAdapter.ProcessEgressPkt toyCrypto sampleAdapter samplePacket (getPeerWriter []) okConn
        = .panic :=
  ⟨rfl, rfl,
    (ProcessEgressPkt_writer_error_panics toyCrypto sampleAdapter samplePacket okConn
      [10, 10, 0, 5] "1-ff00:0:110" rfl rfl).2 [] rfl⟩

/-! ## The path table: claims C16 to C20 -/

theorem pathsSet_foldl_mem (q : Path) : ∀ (l acc : List Path),
    q ∈ l.foldl (fun acc p =>
        if acc.any (fun x => decide (x.fingerprint = p.fingerprint)) then acc else acc ++ [p]) acc ↔
      q ∈ acc ∨ ((∀ x ∈ acc, x.fingerprint ≠ q.fingerprint) ∧
        l.find? (fun x => decide (x.fingerprint = q.fingerprint)) = some q)
  | [], acc => by simp
  | p :: l, acc => by
    rw [List.foldl_cons, pathsSet_foldl_mem q l]
    by_cases hany : acc.any (fun x => decide (x.fingerprint = p.fingerprint)) = true
    · rw [if_pos hany]
      obtain ⟨y, hy, hyp⟩ := List.any_eq_true.mp hany
      have hyp : y.fingerprint = p.fingerprint := of_decide_eq_true hyp
      constructor
      · rintro (h | ⟨h1, h2⟩)
        · exact Or.inl h
        · right
          refine ⟨h1, ?_⟩
          have hpq : ¬ p.fingerprint = q.fingerprint := fun e => h1 y hy (hyp.trans e)
          rw [List.find?_cons_of_neg _ (by simpa using hpq)]
          exact h2
      · rintro (h | ⟨h1, h2⟩)
        · exact Or.inl h
        · right
          refine ⟨h1, ?_⟩
          have hpq : ¬ p.fingerprint = q.fingerprint := fun e => h1 y hy (hyp.trans e)
          rw [List.find?_cons_of_neg _ (by simpa using hpq)] at h2
          exact h2
    · rw [if_neg hany]
      have hall : ∀ x ∈ acc, x.fingerprint ≠ p.fingerprint := by
        intro x hx e
        exact hany (List.any_eq_true.mpr ⟨x, hx, decide_eq_true e⟩)
      by_cases hpq : p.fingerprint = q.fingerprint
      · rw [List.find?_cons_of_pos _ (by simpa using hpq)]
        constructor
        · rintro (h | ⟨h1, _⟩)
          · rcases List.mem_append.mp h with h | h
            · exact Or.inl h
            · right
              have : q = p := by simpa using h
              subst this
              exact ⟨hall, rfl⟩
          · exact absurd hpq (h1 p (by simp))
        · rintro (h | ⟨_, h2⟩)
          · exact Or.inl (List.mem_append_left _ h)
          · left
            have : p = q := by simpa using h2
            simp [this]
      · rw [List.find?_cons_of_neg _ (by simpa using hpq)]
        constructor
        · rintro (h | ⟨h1, h2⟩)
          · rcases List.mem_append.mp h with h | h
            · exact Or.inl h
            · have : q = p := by simpa using h
              exact absurd (by rw [this]) hpq
          · exact Or.inr ⟨fun x hx => h1 x (List.mem_append_left _ hx), h2⟩
        · rintro (h | ⟨h1, h2⟩)
          · exact Or.inl (List.mem_append_left _ h)
          · right
            refine ⟨?_, h2⟩
            intro x hx
            rcases List.mem_append.mp hx with hx | hx
            · exact h1 x hx
            · have : x = p := by simpa using hx
              rw [this]; exact hpq

theorem pathsSet_foldl_nodup : ∀ (l acc : List Path),
    (acc.map Path.fingerprint).Nodup →
    ((l.foldl (fun acc p =>
        if acc.any (fun x => decide (x.fingerprint = p.fingerprint)) then acc else acc ++ [p])
      acc).map Path.fingerprint).Nodup
  | [], acc, h => by simpa using h
  | p :: l, acc, h => by
    rw [List.foldl_cons]
    apply pathsSet_foldl_nodup l
    by_cases hany : acc.any (fun x => decide (x.fingerprint = p.fingerprint)) = true
    · rw [if_pos hany]; exact h
    · rw [if_neg hany, List.map_append, List.nodup_append]
      refine ⟨h, by simp, ?_⟩
      intro f hf hf1
      have : f = p.fingerprint := by simpa using hf1
      obtain ⟨x, hx, hxf⟩ := List.mem_map.mp hf
      exact hany (List.any_eq_true.mpr ⟨x, hx, decide_eq_true (hxf.trans this)⟩)

theorem mem_pathsSet (paths : List Path) (q : Path) :
    q ∈ pathsSet paths ↔
      paths.find? (fun x => decide (x.fingerprint = q.fingerprint)) = some q := by
  unfold pathsSet
  rw [pathsSet_foldl_mem]
  simp

theorem pathsSet_nodup (paths : List Path) :
    ((pathsSet paths).map Path.fingerprint).Nodup :=
  pathsSet_foldl_nodup paths [] (by simp)

theorem mapIteration_perm (order : Nat) (l : List Path) : (mapIteration order l).Perm l := by
  unfold mapIteration
  have hpos : 0 < l.permutations.length := by
    rw [List.length_permutations]; exact Nat.factorial_pos _
  have hlt : order % l.permutations.length < l.permutations.length := Nat.mod_lt _ hpos
  rw [List.getD_eq_getElem _ _ hlt]
  exact List.mem_permutations.mp (List.getElem_mem hlt)

theorem uniquePaths_perm (order : Nat) (paths : List Path) :
    (SortPaths (mapIteration order (pathsSet paths))).Perm (pathsSet paths) :=
  (List.perm_insertionSort _ _).trans (mapIteration_perm order _)

theorem SortPaths_sorted (l : List Path) : (SortPaths l).Sorted fewerHops := by
  haveI : IsTotal Path (fun a b => a.interfaces.length ≤ b.interfaces.length) :=
    ⟨fun a b => Nat.le_total _ _⟩
  haveI : IsTrans Path (fun a b => a.interfaces.length ≤ b.interfaces.length) :=
    ⟨fun _ _ _ h1 h2 => Nat.le_trans h1 h2⟩
  show List.Sorted (fun a b : Path => a.interfaces.length ≤ b.interfaces.length)
    (List.insertionSort (fun a b : Path => a.interfaces.length ≤ b.interfaces.length) l)
  exact List.sorted_insertionSort _ l

theorem updatePathsToRemote_ok (m m1 : pathMgr) (query : List Path) (order : Nat)
    (err : Option Err) (h : m.updatePathsToRemote (.ok query) order = some (m1, err)) :
    err = none ∧ m1.paths = SortPaths (mapIteration order (pathsSet query)) ∧ m1.pathIdx = 0 ∧
      m1.currPath = m1.paths.get? 0 ∧ m1.paths ≠ [] ∧
      m1 = { m with paths := m1.paths, pathIdx := 0, currPath := m1.currPath } := by
  unfold pathMgr.updatePathsToRemote at h
  simp only at h
  split at h
  · cases h
  · rename_i first hfirst
    simp only [Option.some.injEq, Prod.mk.injEq] at h
    obtain ⟨h1, h2⟩ := h
    subst h1 h2
    refine ⟨rfl, rfl, rfl, hfirst.symm, ?_, rfl⟩
    intro hnil
    simp only at hnil
    rw [hnil] at hfirst
    cases hfirst

/-- C16: after an `updatePathsToRemote` that returns without error, no two
entries of `paths` have the same fingerprint, every fingerprint of the query
result occurs exactly once among the fingerprints of `paths`, and the entries
of `paths` are exactly the first paths of their fingerprint in the query
result. -/
theorem updatePathsToRemote_unique (m m1 : pathMgr) (query : List Path) (order : Nat)
    (h : m.updatePathsToRemote (.ok query) order = some (m1, none)) :
    (m1.paths.map Path.fingerprint).Nodup ∧
    (∀ x ∈ query, (m1.paths.map Path.fingerprint).count x.fingerprint = 1) ∧
    (∀ q, q ∈ m1.paths ↔
      query.find? (fun x => decide (x.fingerprint = q.fingerprint)) = some q) ∧
    (∀ f ∈ m1.paths.map Path.fingerprint, f ∈ query.map Path.fingerprint) := by
  obtain ⟨_, hp, _⟩ := updatePathsToRemote_ok m m1 query order none h
  have hperm : m1.paths.Perm (pathsSet query) := hp ▸ uniquePaths_perm order query
  have hnd : (m1.paths.map Path.fingerprint).Nodup :=
    (hperm.map Path.fingerprint).nodup_iff.mpr (pathsSet_nodup query)
  have hmem : ∀ q, q ∈ m1.paths ↔
      query.find? (fun x => decide (x.fingerprint = q.fingerprint)) = some q := by
    intro q
    rw [hperm.mem_iff, mem_pathsSet]
  refine ⟨hnd, ?_, hmem, ?_⟩
  · intro x hx
    apply List.count_eq_one_of_mem hnd
    cases hf : query.find? (fun y => decide (y.fingerprint = x.fingerprint)) with
    | none =>
      have := List.find?_eq_none.mp hf x hx
      simp at this
    | some q =>
      have hq : q.fingerprint = x.fingerprint := by
        have := List.find?_some hf
        exact of_decide_eq_true this
      have hq1 : q ∈ m1.paths := (hmem q).mpr (by rw [hq]; exact hf)
      exact List.mem_map.mpr ⟨q, hq1, hq⟩
  · intro f hf
    obtain ⟨q, hq, rfl⟩ := List.mem_map.mp hf
    exact List.mem_map.mpr ⟨q, List.mem_of_find?_eq_some ((hmem q).mp hq), rfl⟩

theorem updatePathsToRemote_unique_witness :
    pathMgr.updatePathsToRemote (newPathMgr defaultPathingConf)
        (.ok [⟨1, 11, [1, 2, 3, 4]⟩, ⟨2, 12, [1, 2]⟩, ⟨3, 11, [1, 2, 3, 4]⟩]) 0
      = some ({ newPathMgr defaultPathingConf with
                paths := [⟨2, 12, [1, 2]⟩, ⟨1, 11, [1, 2, 3, 4]⟩],
                currPath := some ⟨2, 12, [1, 2]⟩ }, none) ∧
      ([(⟨2, 12, [1, 2]⟩ : Path), ⟨1, 11, [1, 2, 3, 4]⟩].map Path.fingerprint).Nodup :=
  ⟨by decide,
    (updatePathsToRemote_unique (newPathMgr defaultPathingConf)
      { newPathMgr defaultPathingConf with
        paths := [⟨2, 12, [1, 2]⟩, ⟨1, 11, [1, 2, 3, 4]⟩], currPath := some ⟨2, 12, [1, 2]⟩ }
      [⟨1, 11, [1, 2, 3, 4]⟩, ⟨2, 12, [1, 2]⟩, ⟨3, 11, [1, 2, 3, 4]⟩] 0 (by decide)).1⟩

/-- C17: on a query result that is not empty, `updatePathsToRemote` returns
without error; afterwards `paths` is in the order of non-decreasing number of
interfaces, `pathIdx` is 0 and `currPath` is `paths[0]`, which has no more
interfaces than any path of `paths`, and than the first path of any fingerprint
of the query result. -/
theorem updatePathsToRemote_sorted (m : pathMgr) (query : List Path) (order : Nat)
    (hne : query ≠ []) :
    ∃ m1 first, m.updatePathsToRemote (.ok query) order = some (m1, none) ∧
      m1.paths.Sorted fewerHops ∧ m1.pathIdx = 0 ∧
      m1.paths.get? 0 = some first ∧ m1.currPath = some first ∧
      (∀ q ∈ m1.paths, fewerHops first q) ∧
      (∀ x ∈ query, ∃ q, query.find? (fun y => decide (y.fingerprint = x.fingerprint)) = some q ∧
        fewerHops first q) := by
  have hperm := uniquePaths_perm order query
  have hsorted := SortPaths_sorted (mapIteration order (pathsSet query))
  have hex : ∃ x, x ∈ pathsSet query := by
    cases query with
    | nil => exact absurd rfl hne
    | cons p l => exact ⟨p, (mem_pathsSet _ p).mpr (by simp)⟩
  obtain ⟨x0, hx0⟩ := hex
  have hx1 : x0 ∈ SortPaths (mapIteration order (pathsSet query)) := hperm.mem_iff.mpr hx0
  cases hu : SortPaths (mapIteration order (pathsSet query)) with
  | nil => rw [hu] at hx1; cases hx1
  | cons first rest =>
    rw [hu] at hsorted hperm
    have hmin : ∀ q ∈ first :: rest, fewerHops first q := by
      intro q hq
      rcases List.mem_cons.mp hq with rfl | hq
      · exact Nat.le_refl _
      · exact List.rel_of_sorted_cons hsorted q hq
    refine ⟨{ m with paths := first :: rest, pathIdx := 0, currPath := some first }, first,
      ?_, hsorted, rfl, rfl, rfl, hmin, ?_⟩
    · simp only [pathMgr.updatePathsToRemote, hu, List.get?_cons_zero]
    · intro x hx
      cases hf : query.find? (fun y => decide (y.fingerprint = x.fingerprint)) with
      | none =>
        have := List.find?_eq_none.mp hf x hx
        simp at this
      | some q =>
        have hq : q.fingerprint = x.fingerprint := by
          have := List.find?_some hf
          exact of_decide_eq_true this
        have hq1 : q ∈ pathsSet query := (mem_pathsSet query q).mpr (by rw [hq]; exact hf)
        exact ⟨q, rfl, hmin q (hperm.mem_iff.mpr hq1)⟩

theorem updatePathsToRemote_sorted_witness :
    ∃ m1 first, pathMgr.updatePathsToRemote (newPathMgr defaultPathingConf)
        (.ok [⟨1, 11, [1, 2, 3, 4]⟩, ⟨2, 12, [1, 2]⟩]) 1 = some (m1, none) ∧
      m1.paths.Sorted fewerHops ∧ m1.pathIdx = 0 ∧
      m1.paths.get? 0 = some first ∧ m1.currPath = some first ∧
      (∀ q ∈ m1.paths, fewerHops first q) ∧
      (∀ x ∈ [(⟨1, 11, [1, 2, 3, 4]⟩ : Path), ⟨2, 12, [1, 2]⟩],
        ∃ q, [(⟨1, 11, [1, 2, 3, 4]⟩ : Path), ⟨2, 12, [1, 2]⟩].find?
            (fun y => decide (y.fingerprint = x.fingerprint)) = some q ∧
          fewerHops first q) :=
  updatePathsToRemote_sorted (newPathMgr defaultPathingConf)
    [⟨1, 11, [1, 2, 3, 4]⟩, ⟨2, 12, [1, 2]⟩] 1 (by decide)

/-- C18 (code defect): on an empty query result without a query error,
`updatePathsToRemote` returns no error: it stores the empty table and panics on
`m.paths[m.pathIdx]`. So do the request handler and a tick of the refresher
that make the call. -/
theorem updatePathsToRemote_empty_panics (m : pathMgr) (order : Nat) :
    m.updatePathsToRemote (.ok []) order = none ∧
    (∀ (C : Crypto) (p : peer),
      peer.call C p (.updatePathsToRemote (.ok []) order) = none) ∧
    peer.handleHandshakeRequest toyCrypto keyedPeer goodRequest
      { goodOutcomes with paths := .ok [] } = none := by
  have hnil : ∀ m : pathMgr, m.updatePathsToRemote (.ok []) order = none := by
    intro m
    have h1 : mapIteration order (pathsSet []) = [] :=
      List.Perm.eq_nil (mapIteration_perm order (pathsSet []))
    simp [pathMgr.updatePathsToRemote, h1, SortPaths]
  refine ⟨hnil m, ?_, ?_⟩
  · intro C p
    simp [peer.call, hnil]
  · rfl
theorem updatePathsToRemote_IdxOk (m m1 : pathMgr) (query : Except Err (List Path))
    (order : Nat) (err : Option Err) (h : m.updatePathsToRemote query order = some (m1, err))
    (hm : m.IdxOk) : m1.IdxOk := by
  cases query with
  | error e =>
    simp only [pathMgr.updatePathsToRemote, Option.some.injEq, Prod.mk.injEq] at h
    rw [← h.1]; exact hm
  | ok paths =>
    obtain ⟨_, _, h0, _, hne, _⟩ := updatePathsToRemote_ok m m1 paths order err h
    intro _
    rw [h0]
    exact List.length_pos.mpr hne

theorem nextPath_cursor (m m1 : pathMgr) (hidden : Bool) (q : Path)
    (h : m.nextPath hidden = some (m1, q)) :
    m1.paths = m.paths ∧
      (m1.pathIdx = m.pathIdx ∨ (m.paths ≠ [] ∧ m1.pathIdx = (m.pathIdx + 1) % m.paths.length)) := by
  unfold pathMgr.nextPath at h
  split at h
  · split at h
    · cases h
    · split at h
      · simp only [Option.map_eq_some', Prod.mk.injEq] at h
        obtain ⟨_, _, h1, _⟩ := h
        rw [← h1]
        exact ⟨rfl, Or.inl rfl⟩
      · simp only [Option.map_eq_some', Prod.mk.injEq] at h
        obtain ⟨_, _, h1, _⟩ := h
        rw [← h1]
        exact ⟨rfl, Or.inl rfl⟩
  · split at h
    · cases h
    · rename_i hlen
      simp only [Option.map_eq_some', Prod.mk.injEq] at h
      obtain ⟨_, _, h1, _⟩ := h
      rw [← h1]
      refine ⟨rfl, Or.inr ⟨?_, rfl⟩⟩
      intro hnil
      exact hlen (by rw [hnil]; rfl)

theorem nextPath_IdxOk (m m1 : pathMgr) (hidden : Bool) (q : Path)
    (h : m.nextPath hidden = some (m1, q)) (hm : m.IdxOk) : m1.IdxOk := by
  obtain ⟨hp, hi⟩ := nextPath_cursor m m1 hidden q h
  intro hne
  rw [hp] at hne ⊢
  rcases hi with hi | ⟨_, hi⟩
  · rw [hi]; exact hm hne
  · rw [hi]; exact Nat.mod_lt _ (List.length_pos.mpr hne)

theorem IdxOk_of_cursor (m m1 : pathMgr) (hp : m1.paths = m.paths)
    (hi : m1.pathIdx = m.pathIdx) (hm : m.IdxOk) : m1.IdxOk := by
  intro hne
  rw [hp] at hne ⊢
  rw [hi]
  exact hm hne

theorem WriteMsg_pathMgr (C : Crypto) (p p1 : peer) (conn : List Nat → Int × Option Err)
    (bytes : Except Err (List Nat)) (err : Option Err)
    (h : peer.WriteMsg C p conn bytes = some (p1, err)) : p1.pathMgr = p.pathMgr := by
  unfold peer.WriteMsg at h
  split at h
  · simp only [Option.some.injEq, Prod.mk.injEq] at h
    rw [← h.1]
  · split at h
    · cases h
    · split at h
      · cases h
      · split at h
        · simp only [Option.some.injEq, Prod.mk.injEq] at h
          rw [← h.1]
        · simp only [Option.some.injEq, Prod.mk.injEq] at h
          rw [← h.1]

theorem start_pathMgr (C : Crypto) (p p1 : peer) (o : Outcomes)
    (h : pathMgr.start C p o = some p1) :
    p1.pathMgr = p.pathMgr.resetTimeouts o.now := by
  unfold pathMgr.start at h
  simp only at h
  split at h
  · simp only [Option.map_eq_some'] at h
    obtain ⟨⟨q, err⟩, hq, hq1⟩ := h
    simp only at hq1
    subst hq1
    unfold pathMgr.sendHiddenPath at hq
    split at hq
    · simp only [Option.some.injEq, Prod.mk.injEq] at hq
      rw [← hq.1]
    · rw [WriteMsg_pathMgr C _ _ _ _ _ hq]
  · simp only [Option.some.injEq] at h
    rw [← h]

theorem completeHandshake_IdxOk (C : Crypto) (p p1 : peer) (o : Outcomes)
    (h : peer.completeHandshake C p o = some p1) (hm : p.pathMgr.IdxOk) :
    p1.pathMgr.IdxOk := by
  unfold peer.completeHandshake at h
  split at h
  · split at h
    · simp only [Option.some.injEq] at h
      rw [← h]; exact hm
    · cases h
  · split at h
    · simp only [Option.some.injEq] at h
      rw [← h]; exact hm
    · split at h
      · cases h
      · rename_i q hs
        simp only [Option.some.injEq] at h
        rw [← h]
        have := start_pathMgr C p q o hs
        exact IdxOk_of_cursor p.pathMgr _ (by simp only [this]; rfl) (by simp only [this]; rfl) hm

theorem handleHandshakeRequest_IdxOk (C : Crypto) (p p1 : peer) (reqMsg : handshakeRequestMsg)
    (o : Outcomes) (h : peer.handleHandshakeRequest C p reqMsg o = some p1)
    (hm : p.pathMgr.IdxOk) : p1.pathMgr.IdxOk := by
  unfold peer.handleHandshakeRequest at h
  split at h
  · simp only [Option.some.injEq] at h
    rw [← h]; exact hm
  · split at h
    · simp only [Option.some.injEq] at h
      rw [← h]; exact hm
    · simp only at h
      split at h
      · cases h
      · rename_i m e hu
        simp only [Option.some.injEq] at h
        rw [← h]
        exact updatePathsToRemote_IdxOk _ m _ _ _ hu hm
      · rename_i m hu
        have hm1 : m.IdxOk := updatePathsToRemote_IdxOk _ m _ _ _ hu hm
        split at h
        · cases h
        · rename_i p2 e hs
          simp only [Option.some.injEq] at h
          rw [← h, (setupEgressConnections_spec _ _ _ _ _ hs).1]
          exact hm1
        · rename_i p2 hs
          have hp2 : p2.pathMgr = m := (setupEgressConnections_spec _ _ _ _ _ hs).1
          split at h
          · cases h
          · simp only [Option.some.injEq] at h
            rw [← h]
            simp only [hp2]; exact hm1
          · split at h
            · cases h
            · simp only [Option.some.injEq] at h
              rw [← h]
              simp only [hp2]; exact hm1
            · exact completeHandshake_IdxOk C _ p1 o h (by simp only [hp2]; exact hm1)

theorem migrate_IdxOk (p p1 : peer) (hiddenFailover : Bool) (dialCtrl dialData err : Option Err)
    (h : pathMgr.migrate p hiddenFailover dialCtrl dialData = some (p1, err))
    (hm : p.pathMgr.IdxOk) : p1.pathMgr.IdxOk := by
  unfold pathMgr.migrate at h
  split at h
  · simp only [Option.some.injEq, Prod.mk.injEq] at h
    rw [← h.1]; exact hm
  · split at h
    · cases h
    · rename_i m next hn
      have hm1 : m.IdxOk := nextPath_IdxOk _ m _ _ hn
        (IdxOk_of_cursor p.pathMgr _ rfl rfl hm)
      have hm2 : ({ m with currPath := some next } : pathMgr).IdxOk :=
        IdxOk_of_cursor m _ rfl rfl hm1
      split at h
      · cases h
      · rename_i q e hs
        simp only [Option.some.injEq, Prod.mk.injEq] at h
        rw [← h.1]
        have := (setupEgressConnections_spec _ _ _ _ _ hs).1
        exact IdxOk_of_cursor _ _ (by simp only [this]) (by simp only [this]) hm2
      · rename_i q hs
        simp only [Option.some.injEq, Prod.mk.injEq] at h
        rw [← h.1, (setupEgressConnections_spec _ _ _ _ _ hs).1]
        exact hm2

theorem call_IdxOk (C : Crypto) (p p1 : peer) (c : Call) (h : peer.call C p c = some p1)
    (hm : p.pathMgr.IdxOk) : p1.pathMgr.IdxOk := by
  cases c with
  | getAuthdPubKey g gen a =>
    simp only [peer.call, Option.some.injEq] at h
    rw [← h]; exact hm
  | handleHandshakeRequest reqMsg o => exact handleHandshakeRequest_IdxOk C p p1 reqMsg o h hm
  | handleHandshakeResponse o =>
    exact completeHandshake_IdxOk C _ p1 o h hm
  | completeHandshake o => exact completeHandshake_IdxOk C p p1 o h hm
  | updatePathsToRemote query order =>
    simp only [peer.call, Option.map_eq_some'] at h
    obtain ⟨⟨m, e⟩, hu, h⟩ := h
    rw [← h]
    exact updatePathsToRemote_IdxOk _ m _ _ _ hu hm
  | migrate hiddenFailover dialCtrl dialData =>
    simp only [peer.call, Option.map_eq_some'] at h
    obtain ⟨⟨q, e⟩, hq, h⟩ := h
    simp only at h
    rw [← h]
    exact migrate_IdxOk p q _ _ _ _ hq hm
  | migrateDone now =>
    simp only [peer.call, Option.some.injEq] at h
    rw [← h]
    exact IdxOk_of_cursor p.pathMgr _ rfl rfl hm
  | handleKeepAliveRequest now =>
    simp only [peer.call, Option.some.injEq] at h
    rw [← h]
    exact IdxOk_of_cursor p.pathMgr _ rfl rfl hm
  | storeHiddenPaths paths =>
    simp only [peer.call, Option.some.injEq] at h
    rw [← h]
    exact IdxOk_of_cursor p.pathMgr _ rfl rfl hm
  | nextPath hidden =>
    simp only [peer.call, Option.map_eq_some'] at h
    obtain ⟨⟨m, q⟩, hn, h⟩ := h
    rw [← h]
    exact nextPath_IdxOk _ m _ _ hn hm

theorem run_IdxOk (C : Crypto) : ∀ (cs : List Call) (p p1 : peer),
    peer.run C p cs = some p1 → p.pathMgr.IdxOk → p1.pathMgr.IdxOk
  | [], p, p1, h, hm => by
    simp only [peer.run, Option.some.injEq] at h
    rw [← h]; exact hm
  | c :: cs, p, p1, h, hm => by
    simp only [peer.run] at h
    cases hc : peer.call C p c with
    | none => simp [hc] at h
    | some q =>
      simp only [hc] at h
      exact run_IdxOk C cs q p1 h (call_IdxOk C p q c hc hm)

/-- C19: in every state a fresh peer reaches by calls that return (among them
`updatePathsToRemote`, `nextPath`, `migrate` and `storeHiddenPaths`), once
`paths` is not empty `pathIdx` lies below its length; a refresh that returns
without error leaves the cursor at 0 in a table that is not empty, wherever the
cursor stood and however long the table was. -/
theorem pathIdx_valid (C : Crypto) (p : peer) (hr : Reachable C p)
    (hne : p.pathMgr.paths ≠ []) :
    p.pathMgr.pathIdx < p.pathMgr.paths.length ∧
    (∀ (m m1 : pathMgr) query order, m.updatePathsToRemote query order = some (m1, none) →
      m1.pathIdx = 0 ∧ 0 < m1.paths.length) := by
  obtain ⟨conf, rv, cs, hrun⟩ := hr
  refine ⟨run_IdxOk C cs _ p hrun (fun h => absurd rfl h) hne, ?_⟩
  intro m m1 query order h
  cases query with
  | error e => simp [pathMgr.updatePathsToRemote] at h
  | ok paths =>
    obtain ⟨_, _, h0, _, hne1, _⟩ := updatePathsToRemote_ok m m1 paths order none h
    exact ⟨h0, List.length_pos.mpr hne1⟩
theorem refreshedPeer_reachable : Reachable toyCrypto refreshedPeer :=
  ⟨defaultPathingConf, false,
    [.getAuthdPubKey none (.ok [5, 5]) (List.replicate 16 1),
     .handleHandshakeRequest goodRequest goodOutcomes,
     .handleHandshakeResponse goodOutcomes,
     .nextPath false,
     .updatePathsToRemote (.ok [⟨2, 12, [1, 2]⟩]) 0], by decide⟩

theorem pathIdx_valid_witness :
    Reachable toyCrypto refreshedPeer ∧ refreshedPeer.pathMgr.paths ≠ [] ∧
      refreshedPeer.pathMgr.pathIdx < refreshedPeer.pathMgr.paths.length :=
  ⟨refreshedPeer_reachable, by decide,
    (pathIdx_valid toyCrypto refreshedPeer refreshedPeer_reachable (by decide)).1⟩

theorem nextPath_public (m : pathMgr) (hidden : Bool) (hne : m.paths ≠ [])
    (hh : hidden = false ∨ m.hiddenPaths = []) :
    ∃ q, m.paths.get? ((m.pathIdx + 1) % m.paths.length) = some q ∧
      m.nextPath hidden
        = some ({ m with pathIdx := (m.pathIdx + 1) % m.paths.length }, q) := by
  have hpos : 0 < m.paths.length := List.length_pos.mpr hne
  have hlt : (m.pathIdx + 1) % m.paths.length < m.paths.length := Nat.mod_lt _ hpos
  have hcond : (hidden && decide (0 < m.hiddenPaths.length)) = false := by
    rcases hh with h | h
    · rw [h]; rfl
    · rw [h]; simp
  refine ⟨m.paths[(m.pathIdx + 1) % m.paths.length],
    by rw [List.get?_eq_getElem?]; exact List.getElem?_eq_getElem hlt, ?_⟩
  unfold pathMgr.nextPath
  rw [hcond]
  have hl : ¬ m.paths.length = 0 := by omega
  simp only [Bool.false_eq_true, if_false, hl, List.get?_eq_getElem?,
    List.getElem?_eq_getElem hlt, Option.map_some']

theorem nextPathN_public (m : pathMgr) (hidden : Bool) (hne : m.paths ≠ [])
    (hh : hidden = false ∨ m.hiddenPaths = []) : ∀ k : Nat,
    ∃ visited, pathMgr.nextPathN m hidden (k + 1)
        = some ({ m with pathIdx := (m.pathIdx + (k + 1)) % m.paths.length }, visited) ∧
      visited.length = k + 1 ∧
      ∀ j, j < k + 1 → visited.get? j = m.paths.get? ((m.pathIdx + (j + 1)) % m.paths.length)
  | 0 => by
    obtain ⟨q, hq, hn⟩ := nextPath_public m hidden hne hh
    refine ⟨[q], ?_, rfl, ?_⟩
    · simp only [pathMgr.nextPathN, hn, Option.map_some', List.nil_append]
    · intro j hj
      have : j = 0 := by omega
      subst this
      rw [hq]; rfl
  | k + 1 => by
    obtain ⟨visited, hv, hlen, hget⟩ := nextPathN_public m hidden hne hh k
    have hpos : 0 < m.paths.length := List.length_pos.mpr hne
    obtain ⟨q, hq, hn⟩ := nextPath_public
      ({ m with pathIdx := (m.pathIdx + (k + 1)) % m.paths.length } : pathMgr) hidden hne hh
    have hidx : ((m.pathIdx + (k + 1)) % m.paths.length + 1) % m.paths.length
        = (m.pathIdx + (k + 1 + 1)) % m.paths.length := by
      rw [Nat.mod_add_mod]; rfl
    simp only [hidx] at hq hn
    refine ⟨visited ++ [q], ?_, by simp [hlen], ?_⟩
    · rw [pathMgr.nextPathN, hv]
      simp only [hn, Option.map_some']
    · intro j hj
      by_cases hjk : j < k + 1
      · rw [List.get?_eq_getElem?, List.getElem?_append_left (by omega), ← List.get?_eq_getElem?]
        exact hget j hjk
      · have hj1 : j = k + 1 := by omega
        subst hj1
        rw [List.get?_eq_getElem?, List.getElem?_append_right (by omega), hlen, Nat.sub_self,
          hq]
        rfl

/-- C20: with paths in the table, and `hidden` false or no hidden path stored,
`nextPath` moves `pathIdx` from `i` to `(i + 1) mod |paths|`, returns the path
at that index and changes nothing else, the hidden cursor included; `k` calls
in a row return `paths[(i + 1) mod n]`, ..., `paths[(i + k) mod n]`; the
`|paths|` paths that `|paths|` calls return are `paths` rotated by `i + 1`, a
permutation of `paths`, and the manager is then as it was before. -/
theorem nextPath_round_robin (m : pathMgr) (hidden : Bool) (hne : m.paths ≠ [])
    (hh : hidden = false ∨ m.hiddenPaths = []) :
    (∃ q, m.paths.get? ((m.pathIdx + 1) % m.paths.length) = some q ∧
      m.nextPath hidden
        = some ({ m with pathIdx := (m.pathIdx + 1) % m.paths.length }, q)) ∧
    (∀ k, ∃ visited, pathMgr.nextPathN m hidden (k + 1)
        = some ({ m with pathIdx := (m.pathIdx + (k + 1)) % m.paths.length }, visited) ∧
      visited.length = k + 1 ∧
      ∀ j, j < k + 1 →
        visited.get? j = m.paths.get? ((m.pathIdx + (j + 1)) % m.paths.length)) ∧
    (∃ visited, pathMgr.nextPathN m hidden m.paths.length
        = some ({ m with pathIdx := m.pathIdx % m.paths.length }, visited) ∧
      visited = m.paths.rotate (m.pathIdx + 1) ∧ visited.Perm m.paths ∧
      (m.pathIdx < m.paths.length →
        pathMgr.nextPathN m hidden m.paths.length = some (m, visited))) := by
  refine ⟨nextPath_public m hidden hne hh, nextPathN_public m hidden hne hh, ?_⟩
  have hpos : 0 < m.paths.length := List.length_pos.mpr hne
  obtain ⟨n, hn⟩ : ∃ n, m.paths.length = n + 1 := ⟨m.paths.length - 1, by omega⟩
  obtain ⟨visited, hv, hlen, hget⟩ := nextPathN_public m hidden hne hh n
  have hrot : visited = m.paths.rotate (m.pathIdx + 1) := by
    apply List.ext_getElem?
    intro j
    by_cases hj : j < n + 1
    · rw [List.getElem?_rotate (by omega), ← List.get?_eq_getElem?, hget j hj,
        List.get?_eq_getElem?]
      congr 2
      omega
    · rw [List.getElem?_eq_none (by omega), List.getElem?_eq_none
        (by rw [List.length_rotate]; omega)]
  have hidx : (m.pathIdx + (n + 1)) % m.paths.length = m.pathIdx % m.paths.length := by
    rw [← hn, Nat.add_mod_right]
  rw [hidx] at hv
  rw [← hn] at hv
  refine ⟨visited, hv, hrot, ?_, ?_⟩
  · rw [hrot]; exact List.rotate_perm _ _
  · intro hi
    rw [hv, Nat.mod_eq_of_lt hi]

theorem nextPath_round_robin_witness :
    samplePeer.pathMgr.paths ≠ [] ∧
      samplePeer.pathMgr.nextPath false
        = some ({ samplePeer.pathMgr with pathIdx := 1 }, ⟨1, 11, [1, 2, 3, 4]⟩) ∧
      ∃ visited, pathMgr.nextPathN samplePeer.pathMgr false 2
          = some (samplePeer.pathMgr, visited) ∧ visited.Perm samplePeer.pathMgr.paths :=
  ⟨by decide, by decide,
    (nextPath_round_robin samplePeer.pathMgr false (by decide) (Or.inl rfl)).2.2.elim
      (fun visited h => ⟨visited, h.2.2.2 (by decide), h.2.2.1⟩)⟩

/-! ## The buffer pool: claim C24 -/

theorem memPool_get_put (m : memPool) (buf : Slice) : (m.put buf).get = (some buf, m) := by
  cases m with
  | mk pool =>
    simp [memPool.put, memPool.get, List.getElem?_append_right]

theorem memPool_get_of_ne_nil (m : memPool) (h : m.pool ≠ []) :
    ∃ top, m.get = (some top, ⟨m.pool.dropLast⟩) ∧ m.pool = m.pool.dropLast ++ [top] := by
  cases m with
  | mk pool =>
    obtain ⟨l, top, rfl⟩ : ∃ l top, pool = l ++ [top] :=
      ⟨pool.dropLast, pool.getLast h, (List.dropLast_append_getLast h).symm⟩
    refine ⟨top, ?_, ?_⟩
    · have := memPool_get_put ⟨l⟩ top
      simpa [memPool.put] using this
    · simp

/-- C24: the pool is a stack. `newMemPool(size, n)` holds `n` buffers of
`size` bytes each; `get` on a pool that is not empty removes and returns the
buffer on top, the one `put` last; `get` right after `put(b)` returns `b` and
leaves the pool as it was before the `put`; `get` on the empty pool returns
nil and leaves the pool empty. -/
theorem memPool_is_stack :
    (∀ size n : Nat, ∃ m, newMemPool size n = some m ∧ m.pool.length = n ∧
      ∀ b ∈ m.pool, b.bytes.length = size ∧ b.spare = []) ∧
    (∀ m : memPool, m.pool ≠ [] →
      ∃ top, m.get = (some top, ⟨m.pool.dropLast⟩) ∧ m.pool = m.pool.dropLast ++ [top] ∧
        (m.get).2.pool.length + 1 = m.pool.length) ∧
    (∀ (m : memPool) (b : Slice), (m.put b).get = (some b, m)) ∧
    (∀ (m : memPool) (b c : Slice), ((m.put b).put c).get.1 = some c ∧
      ((m.put b).put c).get.2.get = (some b, m)) ∧
    (memPool.get ⟨[]⟩ = (none, ⟨[]⟩)) := by
  refine ⟨?_, ?_, memPool_get_put, ?_, ?_⟩
  · intro size n
    refine ⟨⟨List.replicate n ⟨List.replicate size 0, []⟩⟩, ?_, by simp, ?_⟩
    · have h1 : ¬ ((n : Int) < 0) := by omega
      have h2 : ¬ ((size : Int) < 0) := by omega
      simp [newMemPool, h1, h2]
    · intro b hb
      rw [List.eq_of_mem_replicate hb]
      simp
  · intro m h
    obtain ⟨top, h1, h2⟩ := memPool_get_of_ne_nil m h
    refine ⟨top, h1, h2, ?_⟩
    rw [h1]
    have := congrArg List.length h2
    simp at this
    simp
    omega
  · intro m b c
    rw [memPool_get_put]
    exact ⟨rfl, memPool_get_put m b⟩
  · rfl

/-! ## Missing checks: claims C28 to C30 -/

theorem updatePathsToRemote_head (m : pathMgr) (query : List Path) (order : Nat)
    (hne : query ≠ []) :
    ∃ first rest, SortPaths (mapIteration order (pathsSet query)) = first :: rest ∧
      m.updatePathsToRemote (.ok query) order
        = some ({ m with paths := first :: rest, pathIdx := 0, currPath := some first }, none) ∧
      ∀ q ∈ pathsSet query, fewerHops first q := by
  have hperm := uniquePaths_perm order query
  have hsorted := SortPaths_sorted (mapIteration order (pathsSet query))
  have hex : ∃ x, x ∈ pathsSet query := by
    cases query with
    | nil => exact absurd rfl hne
    | cons p l => exact ⟨p, (mem_pathsSet _ p).mpr (by simp)⟩
  obtain ⟨x0, hx0⟩ := hex
  have hx1 : x0 ∈ SortPaths (mapIteration order (pathsSet query)) := hperm.mem_iff.mpr hx0
  cases hu : SortPaths (mapIteration order (pathsSet query)) with
  | nil => rw [hu] at hx1; cases hx1
  | cons first rest =>
    rw [hu] at hsorted hperm
    refine ⟨first, rest, rfl, ?_, ?_⟩
    · simp only [pathMgr.updatePathsToRemote, hu, List.get?_cons_zero]
    · intro q hq
      rcases List.mem_cons.mp (hperm.mem_iff.mpr hq) with rfl | hq1
      · exact Nat.le_refl _
      · exact List.rel_of_sorted_cons hsorted q hq1

/-- C28 (code defect): `getDestIP` reads `buf[0]` without a check of the
length, and its slice expression `buf[16:20]` is checked against the capacity
of the buffer, not its length. On an empty buffer it panics, and
`ProcessEgressPkt` with it. On a buffer tagged IPv4 that is shorter than 20
bytes it panics when the capacity is below 20, and otherwise hands back four
bytes of the backing array that lie beyond the packet: a packet of the single
byte `0x45` in a buffer that still holds an older packet to `10.10.0.5` is
written to the peer that routes `10.10.0.5`. -/
theorem getDestIP_unchecked_length (C : Crypto) (a : IPAdapter)
    (getPeerWriter : String → Option peer × Option Err)
    (conn : List Nat → Int × Option Err) :
    (∀ spare, getDestIP ⟨[], spare⟩ = none ∧
      IPAdapter.ProcessEgressPkt C a ⟨[], spare⟩ getPeerWriter conn = .panic) ∧
    (∀ b0 tail spare, (b0 % 256) >>> 4 = 4 → (b0 :: tail).length + spare.length < 20 →
      getDestIP ⟨b0 :: tail, spare⟩ = none ∧
      IPAdapter.ProcessEgressPkt C a ⟨b0 :: tail, spare⟩ getPeerWriter conn = .panic) ∧
    (∀ b0 tail spare, (b0 % 256) >>> 4 = 4 → (b0 :: tail).length ≤ 16 →
      20 ≤ (b0 :: tail).length + spare.length →
      getDestIP ⟨b0 :: tail, spare⟩
        = some (.ok ((spare.drop (16 - (b0 :: tail).length)).take 4))) ∧
    getDestIP ⟨[69], List.replicate 15 0 ++ [10, 10, 0, 5]⟩ = some (.ok [10, 10, 0, 5]) ∧
    (∃ r, IPAdapter.ProcessEgressPkt toyCrypto sampleAdapter
        ⟨[69], List.replicate 15 0 ++ [10, 10, 0, 5]⟩
        (Gateway.getPeerWriter [("1-ff00:0:110", samplePeer)]) okConn
      = .wrote "1-ff00:0:110" [69] r) := by
  refine ⟨?_, ?_, ?_, rfl, ⟨_, rfl⟩⟩
  · intro spare
    have h : getDestIP ⟨[], spare⟩ = none := rfl
    exact ⟨h, by simp only [IPAdapter.ProcessEgressPkt, h]⟩
  · intro b0 tail spare hv hlen
    have h : getDestIP ⟨b0 :: tail, spare⟩ = none := by
      simp only [getDestIP, hv, List.length_append]
      simp only [List.length_cons] at hlen ⊢
      simp [hlen]
    exact ⟨h, by simp only [IPAdapter.ProcessEgressPkt, h]⟩
  · intro b0 tail spare hv hle hcap
    have hnot : ¬ ((b0 :: tail) ++ spare).length < 20 := by
      rw [List.length_append]; omega
    simp only [getDestIP, hv, hnot, if_true, if_false]
    rw [List.drop_append_eq_append_drop]
    have : List.drop 16 (b0 :: tail) = [] := List.drop_eq_nil_of_le hle
    rw [this, List.nil_append]

theorem getDestIP_unchecked_length_witness :
    getDestIP ⟨[], [1, 2, 3]⟩ = none ∧
      IPAdapter.ProcessEgressPkt toyCrypto sampleAdapter ⟨[], [1, 2, 3]⟩
        (Gateway.getPeerWriter [("1-ff00:0:110", samplePeer)]) okConn = .panic :=
  (getDestIP_unchecked_length toyCrypto sampleAdapter
    (Gateway.getPeerWriter [("1-ff00:0:110", samplePeer)]) okConn).1 [1, 2, 3]

/-- C29 (code defect): when `migrate` fails because an egress endpoint cannot
be dialled, `setupEgressConnections` has stored nil in place of that endpoint.
The flag `isMigrating` is back to 0, so the next tick of the keep-alive sender
writes on the nil control endpoint, and the next data write on the nil data
endpoint: both panic. -/
theorem migrate_failure_drops_endpoint (C : Crypto) (p : peer) (hiddenFailover : Bool)
    (e : Err) (m : pathMgr) (next : Path) (h0 : p.pathMgr.isMigrating = 0)
    (hn : ({ p.pathMgr with isMigrating := 1 } : pathMgr).nextPath hiddenFailover
      = some (m, next)) :
    (∀ dialData, ∃ p1, pathMgr.migrate p hiddenFailover (some e) dialData = some (p1, some e) ∧
      p1.pathMgr.isMigrating = 0 ∧ p1.egressCtrlEConn = none ∧
      (∀ conn bytes, pathMgr.keepAliveSender C p1 conn (.ok bytes) = none) ∧
      (∀ conn b, peer.egressWrite C p1 false conn b = none)) ∧
    (∃ p1, pathMgr.migrate p hiddenFailover none (some e) = some (p1, some e) ∧
      p1.pathMgr.isMigrating = 0 ∧ p1.egressDataEConn = none ∧
      (∀ conn b, peer.egressWrite C p1 true conn b = none)) := by
  have hne : ¬ (p.pathMgr.isMigrating ≠ 0) := by simp [h0]
  constructor
  · intro dialData
    refine ⟨{ p with pathMgr := { m with currPath := some next, isMigrating := 0 },
                     egressCtrlEConn := none }, ?_, rfl, rfl, ?_, ?_⟩
    · simp only [pathMgr.migrate, hne, if_false, hn, peer.setupEgressConnections,
        pathMgr.getCurrPath]
    · intro conn bytes
      simp [pathMgr.keepAliveSender, peer.WriteMsg]
    · intro conn b
      simp [peer.egressWrite]
  · refine ⟨{ p with pathMgr := { m with currPath := some next, isMigrating := 0 },
                     egressCtrlEConn := some ⟨p.remoteCtrlPort, next⟩,
                     egressDataEConn := none }, ?_, rfl, rfl, ?_⟩
    · simp only [pathMgr.migrate, hne, if_false, hn, peer.setupEgressConnections,
        pathMgr.getCurrPath]
    · intro conn b
      simp [peer.egressWrite]

theorem migrate_failure_drops_endpoint_witness :
    ∃ p1, pathMgr.migrate samplePeer false none (some (.external 7)) = some (p1, some (.external 7)) ∧
      p1.pathMgr.isMigrating = 0 ∧ p1.egressDataEConn = none ∧
      (∀ conn b, peer.egressWrite toyCrypto p1 true conn b = none) :=
  (migrate_failure_drops_endpoint toyCrypto samplePeer false (.external 7)
    { samplePeer.pathMgr with isMigrating := 1, pathIdx := 1 } ⟨1, 11, [1, 2, 3, 4]⟩
    (by decide) (by decide)).2

/-- C30 (code defect): `computeSharedKey` dereferences `k.group` and uses
`k.priKey` without a check. On a key manager whose key pair was never generated
`initDataCrypto` panics; so does `handleHandshakeRequest` on a peer for which
`getPubKey` never ran, once the paths are installed and both egress endpoints
are dialled. -/
theorem initDataCrypto_missing_keypair_panics :
    (∀ (k : keyMgr) (dh : List Nat → Except Err (List Nat)) (remotePubKey : List Nat),
      k.group = false ∨ k.priKey = false → k.initDataCrypto dh remotePubKey = none) ∧
    (∀ (dh : List Nat → Except Err (List Nat)) (remotePubKey : List Nat),
      newKeyMgr.initDataCrypto dh remotePubKey = none) ∧
    (∀ (C : Crypto) (conf : pathingConf) (rendezvous : Bool) (reqMsg : handshakeRequestMsg)
      (o : Outcomes) (hostKey : List Nat) (q : Path) (qs : List Path),
      o.serverHostKey = .ok hostKey → o.paths = .ok (q :: qs) → o.dialCtrl = none →
      o.dialData = none →
      peer.handleHandshakeRequest C (newPeer conf rendezvous) reqMsg o = none) := by
  have h1 : ∀ (k : keyMgr) (dh : List Nat → Except Err (List Nat)) (remotePubKey : List Nat),
      k.group = false ∨ k.priKey = false → k.initDataCrypto dh remotePubKey = none := by
    intro k dh pub hk
    have hc : k.computeSharedKey dh pub = none := by
      rcases hk with hk | hk <;> simp [keyMgr.computeSharedKey, hk]
    unfold keyMgr.initDataCrypto
    split
    · rfl
    · rw [hc]
  refine ⟨h1, fun dh pub => h1 _ dh pub (Or.inl rfl), ?_⟩
  intro C conf rendezvous reqMsg o hostKey q qs hs hp hc hd
  obtain ⟨first, rest, _, hu, _⟩ :=
    updatePathsToRemote_head (newPathMgr conf) (q :: qs) o.mapOrder (by simp)
  have hk := h1 newKeyMgr o.dh reqMsg.PubKey (Or.inl rfl)
  simp only [peer.handleHandshakeRequest, newPeer, hs, hp, hu, hc, hd,
    peer.setupEgressConnections, pathMgr.getCurrPath, hk]
  simp

theorem initDataCrypto_missing_keypair_panics_witness :
    peer.handleHandshakeRequest toyCrypto (newPeer defaultPathingConf false) goodRequest
      goodOutcomes = none :=
  initDataCrypto_missing_keypair_panics.2.2 toyCrypto defaultPathingConf false goodRequest
    goodOutcomes (List.replicate 16 1) ⟨1, 11, [1, 2, 3, 4]⟩ [⟨2, 12, [1, 2]⟩] rfl rfl rfl rfl

/-! ## The keep-alive checker: claim C21 -/

theorem updatePathsToRemote_isMigrating (m m1 : pathMgr) (query : Except Err (List Path))
    (order : Nat) (err : Option Err) (h : m.updatePathsToRemote query order = some (m1, err)) :
    m1.isMigrating = m.isMigrating := by
  cases query with
  | error e =>
    simp only [pathMgr.updatePathsToRemote, Option.some.injEq, Prod.mk.injEq] at h
    rw [← h.1]
  | ok paths =>
    obtain ⟨_, _, _, _, _, h1⟩ := updatePathsToRemote_ok m m1 paths order err h
    rw [h1]

theorem completeHandshake_isMigrating (C : Crypto) (p p1 : peer) (o : Outcomes)
    (h : peer.completeHandshake C p o = some p1) :
    p1.pathMgr.isMigrating = p.pathMgr.isMigrating := by
  unfold peer.completeHandshake at h
  split at h
  · split at h
    · simp only [Option.some.injEq] at h
      rw [← h]
    · cases h
  · split at h
    · simp only [Option.some.injEq] at h
      rw [← h]
    · split at h
      · cases h
      · rename_i q hs
        simp only [Option.some.injEq] at h
        rw [← h]
        have := start_pathMgr C p q o hs
        simp only [this]; rfl

theorem handleHandshakeRequest_isMigrating (C : Crypto) (p p1 : peer)
    (reqMsg : handshakeRequestMsg) (o : Outcomes)
    (h : peer.handleHandshakeRequest C p reqMsg o = some p1) :
    p1.pathMgr.isMigrating = p.pathMgr.isMigrating := by
  unfold peer.handleHandshakeRequest at h
  split at h
  · simp only [Option.some.injEq] at h
    rw [← h]
  · split at h
    · simp only [Option.some.injEq] at h
      rw [← h]
    · simp only at h
      split at h
      · cases h
      · rename_i m e hu
        simp only [Option.some.injEq] at h
        rw [← h]
        exact updatePathsToRemote_isMigrating _ m _ _ _ hu
      · rename_i m hu
        have hm1 : m.isMigrating = p.pathMgr.isMigrating :=
          updatePathsToRemote_isMigrating _ m _ _ _ hu
        split at h
        · cases h
        · rename_i p2 e hs
          simp only [Option.some.injEq] at h
          rw [← h, (setupEgressConnections_spec _ _ _ _ _ hs).1]
          exact hm1
        · rename_i p2 hs
          have hp2 : p2.pathMgr = m := (setupEgressConnections_spec _ _ _ _ _ hs).1
          split at h
          · cases h
          · simp only [Option.some.injEq] at h
            rw [← h]
            simp only [hp2]; exact hm1
          · split at h
            · cases h
            · simp only [Option.some.injEq] at h
              rw [← h]
              simp only [hp2]; exact hm1
            · rw [completeHandshake_isMigrating C _ p1 o h]
              simp only [hp2]; exact hm1

theorem migrate_FlagOk (p p1 : peer) (hiddenFailover : Bool) (dialCtrl dialData err : Option Err)
    (h : pathMgr.migrate p hiddenFailover dialCtrl dialData = some (p1, err))
    (hm : p.pathMgr.FlagOk) : p1.pathMgr.FlagOk := by
  unfold pathMgr.migrate at h
  split at h
  · simp only [Option.some.injEq, Prod.mk.injEq] at h
    rw [← h.1]; exact hm
  · split at h
    · cases h
    · rename_i m next hn
      have hm1 : m.isMigrating = 1 := nextPath_isMigrating _ m _ _ hn
      split at h
      · cases h
      · rename_i q e hs
        simp only [Option.some.injEq, Prod.mk.injEq] at h
        rw [← h.1]
        exact Or.inl rfl
      · rename_i q hs
        simp only [Option.some.injEq, Prod.mk.injEq] at h
        rw [← h.1]
        right
        rw [(setupEgressConnections_spec _ _ _ _ _ hs).1]
        exact hm1

theorem call_FlagOk (C : Crypto) (p p1 : peer) (c : Call) (h : peer.call C p c = some p1)
    (hm : p.pathMgr.FlagOk) : p1.pathMgr.FlagOk := by
  cases c with
  | getAuthdPubKey g gen a =>
    simp only [peer.call, Option.some.injEq] at h
    rw [← h]; exact hm
  | handleHandshakeRequest reqMsg o =>
    unfold pathMgr.FlagOk
    rw [handleHandshakeRequest_isMigrating C p p1 reqMsg o h]; exact hm
  | handleHandshakeResponse o =>
    unfold pathMgr.FlagOk
    rw [completeHandshake_isMigrating C _ p1 o h]; exact hm
  | completeHandshake o =>
    unfold pathMgr.FlagOk
    rw [completeHandshake_isMigrating C p p1 o h]; exact hm
  | updatePathsToRemote query order =>
    simp only [peer.call, Option.map_eq_some'] at h
    obtain ⟨⟨m, e⟩, hu, h⟩ := h
    rw [← h]
    unfold pathMgr.FlagOk
    simp only
    rw [updatePathsToRemote_isMigrating _ m _ _ _ hu]; exact hm
  | migrate hiddenFailover dialCtrl dialData =>
    simp only [peer.call, Option.map_eq_some'] at h
    obtain ⟨⟨q, e⟩, hq, h⟩ := h
    simp only at h
    rw [← h]
    exact migrate_FlagOk p q _ _ _ _ hq hm
  | migrateDone now =>
    simp only [peer.call, Option.some.injEq] at h
    rw [← h]
    exact Or.inl rfl
  | handleKeepAliveRequest now =>
    simp only [peer.call, Option.some.injEq] at h
    rw [← h]
    exact hm
  | storeHiddenPaths paths =>
    simp only [peer.call, Option.some.injEq] at h
    rw [← h]
    exact hm
  | nextPath hidden =>
    simp only [peer.call, Option.map_eq_some'] at h
    obtain ⟨⟨m, q⟩, hn, h⟩ := h
    rw [← h]
    unfold pathMgr.FlagOk
    simp only
    rw [nextPath_isMigrating _ m _ _ hn]; exact hm

theorem run_FlagOk (C : Crypto) : ∀ (cs : List Call) (p p1 : peer),
    peer.run C p cs = some p1 → p.pathMgr.FlagOk → p1.pathMgr.FlagOk
  | [], p, p1, h, hm => by
    simp only [peer.run, Option.some.injEq] at h
    rw [← h]; exact hm
  | c :: cs, p, p1, h, hm => by
    simp only [peer.run] at h
    cases hc : peer.call C p c with
    | none => simp [hc] at h
    | some q =>
      simp only [hc] at h
      exact run_FlagOk C cs q p1 h (call_FlagOk C p q c hc hm)

theorem Reachable_FlagOk (C : Crypto) (p : peer) (hr : Reachable C p) : p.pathMgr.FlagOk := by
  obtain ⟨conf, rendezvous, cs, h⟩ := hr
  exact run_FlagOk C cs _ p h (Or.inl rfl)

theorem timeSub_gt_iff (t u T : Int) (hT : -(2 ^ 63) ≤ T ∧ T < 2 ^ 63 - 1) :
    timeSub t u > T ↔ t - u > T := by
  unfold timeSub
  split
  · constructor
    · intro _; omega
    · intro _; omega
  · split
    · constructor
      · intro h; omega
      · intro h; omega
    · exact Iff.rfl

theorem keepAliveCheckerTicks_migrating (hiddenFailover : Bool) :
    ∀ (ticks : List Tick) (p : peer), p.pathMgr.isMigrating = 1 →
      pathMgr.keepAliveCheckerTicks p hiddenFailover ticks = (0, some p)
  | [], p, _ => rfl
  | t :: ts, p, h => by
    have ht : pathMgr.keepAliveChecker p t.now hiddenFailover t.dialCtrl t.dialData
        = (false, some p) := by
      simp [pathMgr.keepAliveChecker, h]
    simp only [pathMgr.keepAliveCheckerTicks, ht,
      keepAliveCheckerTicks_migrating hiddenFailover ts p h]
    rfl

theorem migrate_sets_flag (p p1 : peer) (hiddenFailover : Bool) (dialCtrl dialData : Option Err)
    (h0 : p.pathMgr.isMigrating = 0)
    (h : pathMgr.migrate p hiddenFailover dialCtrl dialData = some (p1, none)) :
    p1.pathMgr.isMigrating = 1 := by
  unfold pathMgr.migrate at h
  split at h
  · rename_i hne
    exact absurd h0 hne
  · split at h
    · cases h
    · rename_i m next hn
      have hm1 : m.isMigrating = 1 := nextPath_isMigrating _ m _ _ hn
      split at h
      · cases h
      · simp only [Option.some.injEq, Prod.mk.injEq] at h
        cases h.2
      · rename_i q hs
        simp only [Option.some.injEq, Prod.mk.injEq] at h
        rw [← h.1, (setupEgressConnections_spec _ _ _ _ _ hs).1]
        exact hm1

/-- C21: a tick of the keep-alive checker calls `migrate` exactly when
`isMigrating` is 0 and `now - lastKeepAlive`, the `Duration` that `Time.Sub`
returns, is greater than the keep-alive timeout; for a timeout below the
largest `Duration` that is the difference of the two clock readings itself. A
tick that does not call `migrate` leaves the peer as it was. A `migrate` called
by a tick that returns without error has set `isMigrating` to 1, and of this
tick and any ticks that follow it, one called `migrate`. Under the default
timeout of 300 ms, a keep-alive received now or exactly 300 ms ago starts no
migration, one received 301 ms ago starts one; ticks while `isMigrating` is 1
call `migrate` no second time. The flag holds 0 or 1, as it does in every state
a peer reaches. -/
theorem keepAliveChecker_migrates_iff (p : peer) (now : Int) (hiddenFailover : Bool)
    (dialCtrl dialData : Option Err) (hflag : p.pathMgr.FlagOk) :
    ((pathMgr.keepAliveChecker p now hiddenFailover dialCtrl dialData).1 = true ↔
      p.pathMgr.isMigrating = 0 ∧
        timeSub now p.pathMgr.lastKeepAlive > p.pathMgr.conf.KeepAliveTimeout) ∧
    (-(2 ^ 63) ≤ p.pathMgr.conf.KeepAliveTimeout ∧
        p.pathMgr.conf.KeepAliveTimeout < 2 ^ 63 - 1 →
      ((pathMgr.keepAliveChecker p now hiddenFailover dialCtrl dialData).1 = true ↔
        p.pathMgr.isMigrating = 0 ∧
          now - p.pathMgr.lastKeepAlive > p.pathMgr.conf.KeepAliveTimeout)) ∧
    ((pathMgr.keepAliveChecker p now hiddenFailover dialCtrl dialData).1 = false →
      (pathMgr.keepAliveChecker p now hiddenFailover dialCtrl dialData).2 = some p) ∧
    ((pathMgr.keepAliveChecker p now hiddenFailover dialCtrl dialData).1 = true →
      (pathMgr.keepAliveChecker p now hiddenFailover dialCtrl dialData).2
        = (pathMgr.migrate p hiddenFailover dialCtrl dialData).map (fun r => r.1)) ∧
    (∀ p1, (pathMgr.keepAliveChecker p now hiddenFailover dialCtrl dialData).1 = true →
      pathMgr.migrate p hiddenFailover dialCtrl dialData = some (p1, none) →
      p1.pathMgr.isMigrating = 1 ∧
      ∀ ticks, pathMgr.keepAliveCheckerTicks p hiddenFailover (⟨now, dialCtrl, dialData⟩ :: ticks)
        = (1, some p1)) ∧
    (p.pathMgr.conf.KeepAliveTimeout = defaultPathingConf.KeepAliveTimeout →
      (p.pathMgr.lastKeepAlive = now →
        (pathMgr.keepAliveChecker p now hiddenFailover dialCtrl dialData).1 = false) ∧
      (p.pathMgr.lastKeepAlive = now - 300 * 1000000 →
        (pathMgr.keepAliveChecker p now hiddenFailover dialCtrl dialData).1 = false) ∧
      (p.pathMgr.isMigrating = 0 → p.pathMgr.lastKeepAlive = now - 301 * 1000000 →
        (pathMgr.keepAliveChecker p now hiddenFailover dialCtrl dialData).1 = true)) ∧
    (p.pathMgr.isMigrating = 1 →
      ∀ ticks, pathMgr.keepAliveCheckerTicks p hiddenFailover ticks = (0, some p)) := by
  have hiff : (pathMgr.keepAliveChecker p now hiddenFailover dialCtrl dialData).1 = true ↔
      p.pathMgr.isMigrating = 0 ∧
        timeSub now p.pathMgr.lastKeepAlive > p.pathMgr.conf.KeepAliveTimeout := by
    unfold pathMgr.keepAliveChecker
    split
    · rename_i h1
      simp [h1]
    · rename_i h1
      have h0 : p.pathMgr.isMigrating = 0 := by
        rcases hflag with h | h
        · exact h
        · exact absurd h h1
      split
      · rename_i h2
        simp only [true_iff]
        exact ⟨h0, h2⟩
      · rename_i h2
        simp only [Bool.false_eq_true, false_iff, not_and]
        intro _ h3
        exact h2 h3
  have hplain : -(2 ^ 63) ≤ p.pathMgr.conf.KeepAliveTimeout ∧
      p.pathMgr.conf.KeepAliveTimeout < 2 ^ 63 - 1 →
      ((pathMgr.keepAliveChecker p now hiddenFailover dialCtrl dialData).1 = true ↔
        p.pathMgr.isMigrating = 0 ∧
          now - p.pathMgr.lastKeepAlive > p.pathMgr.conf.KeepAliveTimeout) := by
    intro hT
    rw [hiff, timeSub_gt_iff _ _ _ hT]
  have hdef : defaultPathingConf.KeepAliveTimeout = 300 * 1000000 := rfl
  refine ⟨hiff, hplain, ?_, ?_, ?_, ?_, ?_⟩
  · intro h
    unfold pathMgr.keepAliveChecker at h ⊢
    split
    · rfl
    · split
      · rename_i h1 h2
        simp [h1, h2] at h
      · rfl
  · intro h
    unfold pathMgr.keepAliveChecker at h ⊢
    split
    · rename_i h1
      simp [h1] at h
    · split
      · rfl
      · rename_i h1 h2
        simp [h1, h2] at h
  · intro p1 hc hm
    have h0 := (hiff.mp hc).1
    have hp1 := migrate_sets_flag p p1 hiddenFailover dialCtrl dialData h0 hm
    refine ⟨hp1, ?_⟩
    intro ticks
    have ht : pathMgr.keepAliveChecker p now hiddenFailover dialCtrl dialData
        = (true, some p1) := by
      have h1 : ¬ p.pathMgr.isMigrating = 1 := by rw [h0]; decide
      have h2 := (hiff.mp hc).2
      simp [pathMgr.keepAliveChecker, h1, h2, hm]
    simp only [pathMgr.keepAliveCheckerTicks, ht,
      keepAliveCheckerTicks_migrating hiddenFailover ticks p1 hp1]
    rfl
  · intro hconf
    rw [hdef] at hconf
    have hT : -(2 ^ 63) ≤ p.pathMgr.conf.KeepAliveTimeout ∧
        p.pathMgr.conf.KeepAliveTimeout < 2 ^ 63 - 1 := by
      rw [hconf]; decide
    have hp := hplain hT
    refine ⟨?_, ?_, ?_⟩
    · intro hl
      cases hb : (pathMgr.keepAliveChecker p now hiddenFailover dialCtrl dialData).1 with
      | false => rfl
      | true =>
        have := (hp.mp hb).2
        omega
    · intro hl
      cases hb : (pathMgr.keepAliveChecker p now hiddenFailover dialCtrl dialData).1 with
      | false => rfl
      | true =>
        have := (hp.mp hb).2
        omega
    · intro h0 hl
      exact hp.mpr ⟨h0, by omega⟩
  · intro h1 ticks
    exact keepAliveCheckerTicks_migrating hiddenFailover ticks p h1

theorem keepAliveChecker_migrates_iff_witness :
    (pathMgr.keepAliveChecker
        { samplePeer with pathMgr := { samplePeer.pathMgr with lastKeepAlive := 1000 } }
        301001000 false none none).1 = true ∧
      (pathMgr.keepAliveChecker
        { samplePeer with pathMgr := { samplePeer.pathMgr with lastKeepAlive := 1000 } }
        300001000 false none none).1 = false :=
  ⟨((keepAliveChecker_migrates_iff
      { samplePeer with pathMgr := { samplePeer.pathMgr with lastKeepAlive := 1000 } }
      301001000 false none none (Or.inl rfl)).2.2.2.2.2.1 rfl).2.2 rfl rfl,
    ((keepAliveChecker_migrates_iff
      { samplePeer with pathMgr := { samplePeer.pathMgr with lastKeepAlive := 1000 } }
      300001000 false none none (Or.inl rfl)).2.2.2.2.2.1 rfl).2.1 rfl⟩

/-! ## The handshake initiator: claim C22 -/

theorem initHandshakingLoop_returned (C : Crypto) :
    ∀ (rounds : List Round) (p : peer) (sent : Nat) (q : peer) (n : Nat),
      (∀ r ∈ rounds, ∀ e, WriteMsgOneOff r.send ≠ some (some e)) →
      peer.initHandshakingLoop C p sent rounds = .returned q n →
      q.handshakeCompleted = true
  | [], p, sent, q, n, _, h => by
    unfold peer.initHandshakingLoop at h
    split at h
    · rename_i hc
      simp only [InitResult.returned.injEq] at h
      rw [← h.1]; exact hc
    · cases h
  | r :: rest, p, sent, q, n, hs, h => by
    unfold peer.initHandshakingLoop at h
    split at h
    · rename_i hc
      simp only [InitResult.returned.injEq] at h
      rw [← h.1]; exact hc
    · split at h
      · cases h
      · rename_i e he
        exact absurd he (hs r (List.mem_cons_self _ _) e)
      · split at h
        · cases h
        · exact initHandshakingLoop_returned C rest _ _ q n
            (fun r1 hr1 => hs r1 (List.mem_cons_of_mem _ hr1)) h

/-- C22 (code defect): the retry loop of `initHandshaking` returns on the
first request that `WriteMsgOneOff` cannot send. With a DRKey lookup that
succeeds and a first send that fails, the function returns after no request
went out, with `handshakeCompleted` still false, whatever rounds would follow;
the same holds for a failed send in any later round. Only in runs without a
failed send does the function return in completed states alone. -/
theorem initHandshaking_returns_on_send_error (C : Crypto) (p : peer) (hostKey : List Nat)
    (getGroup : Option Err) (gen : Except Err (List Nat)) (r : Round) (rest : List Round)
    (e : Err) (hnot : p.handshakeCompleted = false)
    (herr : WriteMsgOneOff r.send = some (some e)) :
    (∃ q, peer.initHandshaking C p (.ok hostKey) getGroup gen (r :: rest) = .returned q 0 ∧
      q.handshakeCompleted = false) ∧
    (∀ sent, peer.initHandshakingLoop C p sent (r :: rest) = .returned p sent) ∧
    (∀ (rounds : List Round) (q : peer) (n : Nat),
      (∀ r1 ∈ rounds, ∀ e1, WriteMsgOneOff r1.send ≠ some (some e1)) →
      peer.initHandshaking C p (.ok hostKey) getGroup gen rounds = .returned q n →
      q.handshakeCompleted = true) := by
  refine ⟨⟨{ p with keyMgr := (p.keyMgr.getAuthdPubKey C getGroup gen hostKey).1 }, ?_, hnot⟩,
    ?_, ?_⟩
  · simp only [peer.initHandshaking, peer.initHandshakingLoop, hnot, herr]
    simp
  · intro sent
    simp only [peer.initHandshakingLoop, hnot, herr]
    simp
  · intro rounds q n hs h
    exact initHandshakingLoop_returned C rounds _ 0 q n hs h

theorem initHandshaking_returns_on_send_error_witness :
    ∃ q, peer.initHandshaking toyCrypto (newPeer defaultPathingConf false)
        (.ok (List.replicate 16 1)) none (.ok [5, 5]) [⟨sendFails, []⟩, ⟨goodOutcomes, []⟩]
      = .returned q 0 ∧ q.handshakeCompleted = false :=
  (initHandshaking_returns_on_send_error toyCrypto (newPeer defaultPathingConf false)
    (List.replicate 16 1) none (.ok [5, 5]) ⟨sendFails, []⟩ [⟨goodOutcomes, []⟩] (.external 3)
    rfl rfl).1

/-! ## Hidden paths: claim C26 -/

theorem nextPath_hidden_advance (m : pathMgr) (q : Path)
    (hlen : m.hiddenPathsIdx + 1 < m.hiddenPaths.length)
    (hq : m.hiddenPaths.get? (m.hiddenPathsIdx + 1) = some q) :
    m.nextPath true = some ({ m with hiddenPathsIdx := m.hiddenPathsIdx + 1 }, q) := by
  have hpos : 0 < m.hiddenPaths.length := by omega
  have hcur : ∃ c, m.hiddenPaths.get? m.hiddenPathsIdx = some c := by
    rw [List.get?_eq_getElem?]
    exact ⟨_, List.getElem?_eq_getElem (by omega)⟩
  obtain ⟨c, hc⟩ := hcur
  have hne : ¬ (m.hiddenPathsIdx = m.hiddenPaths.length - 1) := by omega
  have hmod : (m.hiddenPathsIdx + 1) % m.hiddenPaths.length = m.hiddenPathsIdx + 1 :=
    Nat.mod_eq_of_lt hlen
  simp only [pathMgr.nextPath, hpos, decide_True, Bool.and_self, if_true, hc, hne, and_false,
    if_false, hmod, hq, Option.map_some']

theorem nextPath_hidden_fallback (m : pathMgr) (c pub : Path)
    (hc : m.hiddenPaths.get? m.hiddenPathsIdx = some c) (hcur : m.currPath = some c)
    (hlast : m.hiddenPathsIdx = m.hiddenPaths.length - 1)
    (hp : m.paths.get? m.pathIdx = some pub) :
    m.nextPath true = some ({ m with hiddenPathsIdx := 0 }, pub) := by
  have hpos : 0 < m.hiddenPaths.length := by
    rcases Nat.eq_zero_or_pos m.hiddenPaths.length with h | h
    · rw [List.length_eq_zero.mp h] at hc
      cases hc
    · exact h
  unfold pathMgr.nextPath
  rw [if_pos (by simp [hpos])]
  simp only [hc]
  rw [if_pos ⟨hcur, hlast⟩, hp]
  rfl

theorem migrations_hidden (m : pathMgr) (h0 : Path) (t : List Path)
    (hh : m.hiddenPaths = h0 :: t) (hi : m.hiddenPathsIdx = 0) :
    ∀ k, k < t.length →
      m.migrations true (k + 1)
        = some ({ m with hiddenPathsIdx := k + 1, currPath := t.get? k }, t.take (k + 1))
  | 0, hk => by
    obtain ⟨q, hq⟩ : ∃ q, t.get? 0 = some q := by
      rw [List.get?_eq_getElem?]
      exact ⟨_, List.getElem?_eq_getElem hk⟩
    have hstep := nextPath_hidden_advance m q (by rw [hi, hh]; simp; omega)
      (by rw [hi, hh]; simpa using hq)
    have htake : t.take 1 = [q] := by
      cases t with
      | nil => cases hq
      | cons a l =>
        simp only [List.get?_cons_zero, Option.some.injEq] at hq
        simp [hq]
    simp only [pathMgr.migrations, hstep, Option.map_some', hi, hq, htake, List.nil_append]
  | k + 1, hk => by
    have ih := migrations_hidden m h0 t hh hi k (by omega)
    obtain ⟨c, hc⟩ : ∃ c, t.get? k = some c := by
      rw [List.get?_eq_getElem?]
      exact ⟨_, List.getElem?_eq_getElem (by omega)⟩
    obtain ⟨q, hq⟩ : ∃ q, t.get? (k + 1) = some q := by
      rw [List.get?_eq_getElem?]
      exact ⟨_, List.getElem?_eq_getElem hk⟩
    have hstep := nextPath_hidden_advance
      ({ m with hiddenPathsIdx := k + 1, currPath := t.get? k } : pathMgr) q
      (by simp only [hh, List.length_cons]; omega)
      (by simp only [hh, List.get?_cons_succ]; exact hq)
    have htake : t.take (k + 1) ++ [q] = t.take (k + 1 + 1) := by
      rw [List.get?_eq_getElem?] at hq
      rw [show t.take (k + 1 + 1) = t.take (k + 1) ++ t[k + 1]?.toList from List.take_succ, hq]
      rfl
    rw [pathMgr.migrations, ih]
    simp only [hstep, Option.map_some', hq, htake]

/-- C26 (code defect): after hidden paths were installed, `nextPath(true)`
moves the hidden cursor on before it reads the path, so the first path it
returns is `hiddenPaths[1]`. With two or more hidden paths `h0 :: t` and the
hidden cursor at 0, the first `|t|` migrations return the paths of `t` in
order, and the next call takes the fall-back branch and returns the public
path `paths[pathIdx]` with the hidden cursor back at 0: the path `h0` was not
returned before the fall-back. On a peer with two hidden paths the first
migration moves to the second hidden path and the next one to the public
path. -/
theorem nextPath_skips_first_hidden (m : pathMgr) (h0 : Path) (t : List Path) (pub : Path)
    (hh : m.hiddenPaths = h0 :: t) (ht : t ≠ []) (hi : m.hiddenPathsIdx = 0)
    (hp : m.paths.get? m.pathIdx = some pub) (hnd : h0 ∉ t) :
    (∀ k, k < t.length → ∃ mk, m.migrations true (k + 1) = some (mk, t.take (k + 1))) ∧
    (∃ m1, m.migrations true t.length = some (m1, t) ∧ m1.currPath = t.getLast? ∧
      m1.nextPath true = some ({ m1 with hiddenPathsIdx := 0 }, pub)) ∧
    (∃ m2, m.migrations true (t.length + 1) = some (m2, t ++ [pub]) ∧
      m2.currPath = some pub ∧ m2.hiddenPathsIdx = 0) ∧
    (∀ k mk visited, k ≤ t.length → m.migrations true k = some (mk, visited) → h0 ∉ visited) ∧
    ((peer.run toyCrypto hiddenPeer [.migrate true none none]).map
        (fun q => q.pathMgr.currPath) = some (some ⟨11, 0, [1, 9, 3]⟩)) ∧
    ((peer.run toyCrypto hiddenPeer
        [.migrate true none none, .migrateDone 0, .migrate true none none]).map
        (fun q => q.pathMgr.currPath) = some (some ⟨2, 12, [1, 2]⟩)) := by
  have hall := migrations_hidden m h0 t hh hi
  obtain ⟨n, hn⟩ : ∃ n, t.length = n + 1 := by
    cases t with
    | nil => exact absurd rfl ht
    | cons a l => exact ⟨l.length, rfl⟩
  have hlast := hall n (by omega)
  obtain ⟨c, hc⟩ : ∃ c, t.get? n = some c := by
    rw [List.get?_eq_getElem?]
    exact ⟨_, List.getElem?_eq_getElem (by omega)⟩
  have htake : t.take (n + 1) = t := by
    rw [← hn]; exact List.take_length t
  have hgl : t.getLast? = some c := by
    rw [List.getLast?_eq_getElem?, hn]
    rw [List.get?_eq_getElem?] at hc
    simpa using hc
  have hfb := nextPath_hidden_fallback
    ({ m with hiddenPathsIdx := n + 1, currPath := t.get? n } : pathMgr) c pub
    (by simp only [hh, List.get?_cons_succ]; exact hc) hc
    (by simp only [hh, List.length_cons, hn]; omega) hp
  refine ⟨fun k hk => ⟨_, hall k hk⟩, ?_, ?_, ?_, by decide, by decide⟩
  · refine ⟨_, ?_, ?_, hfb⟩
    · rw [hn, hlast, htake]
    · simp only [hc, hgl]
  · refine ⟨{ m with hiddenPathsIdx := 0, currPath := some pub }, ?_, rfl, rfl⟩
    rw [hn, pathMgr.migrations, hlast]
    simp only [hfb, Option.map_some', htake]
  · intro k mk visited hk hm hmem
    cases k with
    | zero =>
      simp only [pathMgr.migrations, Option.some.injEq, Prod.mk.injEq] at hm
      rw [← hm.2] at hmem
      cases hmem
    | succ k =>
      rw [hall k (by omega)] at hm
      simp only [Option.some.injEq, Prod.mk.injEq] at hm
      rw [← hm.2] at hmem
      exact hnd (List.mem_of_mem_take hmem)

theorem nextPath_skips_first_hidden_witness :
    ∃ m2, hiddenPeer.pathMgr.migrations true 2
        = some (m2, [⟨11, 0, [1, 9, 3]⟩] ++ [⟨2, 12, [1, 2]⟩]) ∧
      m2.currPath = some ⟨2, 12, [1, 2]⟩ ∧ m2.hiddenPathsIdx = 0 :=
  (nextPath_skips_first_hidden hiddenPeer.pathMgr ⟨10, 0, [1, 9, 2]⟩ [⟨11, 0, [1, 9, 3]⟩]
    ⟨2, 12, [1, 2]⟩ rfl (by decide) rfl rfl (by decide)).2.2.1

/-! ## Current path and egress endpoints: claim C27 -/

theorem run_snoc (C : Crypto) : ∀ (cs : List Call) (p p1 p2 : peer) (c : Call),
    peer.run C p cs = some p1 → peer.call C p1 c = some p2 →
    peer.run C p (cs ++ [c]) = some p2
  | [], p, p1, p2, c, h, hc => by
    simp only [peer.run, Option.some.injEq] at h
    subst h
    simp only [List.nil_append, peer.run, hc]
  | c0 :: cs, p, p1, p2, c, h, hc => by
    simp only [peer.run] at h
    cases h0 : peer.call C p c0 with
    | none => simp [h0] at h
    | some q =>
      simp only [h0] at h
      simp only [List.cons_append, peer.run, h0]
      exact run_snoc C cs q p1 p2 c h hc

theorem Reachable_call (C : Crypto) (p p1 : peer) (c : Call) (hr : Reachable C p)
    (hc : peer.call C p c = some p1) : Reachable C p1 := by
  obtain ⟨conf, rendezvous, cs, h⟩ := hr
  exact ⟨conf, rendezvous, cs ++ [c], run_snoc C cs _ p p1 c h hc⟩

theorem migratedPeer_reachable : Reachable toyCrypto migratedPeer :=
  Reachable_call toyCrypto samplePeer migratedPeer (.migrate false none none)
    samplePeer_reachable (by decide)

/-- C27 (code defect): a tick of the path refresher calls
`updatePathsToRemote` and nothing else: `currPath` becomes the head of the
fresh table, and the egress endpoints are not rebuilt. Whenever the query holds
a path (the first of its fingerprint) with fewer interfaces than the path the
data endpoint was built on, the tick leaves both endpoints as they were and
`currPath` on another path than the one of the data endpoint; the state after
the tick is reachable when the state before was. This is so after a migration
away from the shortest path. -/
theorem pathRefresher_keeps_endpoints (C : Crypto) (p : peer) (ec ed : eConn)
    (query : List Path) (order : Nat) (q : Path)
    (hc : p.egressCtrlEConn = some ec) (hd : p.egressDataEConn = some ed)
    (hq : q ∈ pathsSet query) (hlt : q.interfaces.length < ed.path.interfaces.length) :
    ∃ p1 first, peer.call C p (.updatePathsToRemote (.ok query) order) = some p1 ∧
      p1.egressCtrlEConn = some ec ∧ p1.egressDataEConn = some ed ∧
      p1.pathMgr.currPath = some first ∧
      first.interfaces.length < ed.path.interfaces.length ∧ first ≠ ed.path ∧
      (Reachable C p → Reachable C p1) := by
  have hne : query ≠ [] := by
    intro h
    rw [h] at hq
    cases hq
  obtain ⟨first, rest, _, hu, hmin⟩ := updatePathsToRemote_head p.pathMgr query order hne
  have hcall : peer.call C p (.updatePathsToRemote (.ok query) order)
      = some { p with pathMgr := { p.pathMgr with paths := first :: rest, pathIdx := 0,
                                                  currPath := some first } } := by
    simp only [peer.call, hu, Option.map_some']
  have hfl : first.interfaces.length < ed.path.interfaces.length :=
    Nat.lt_of_le_of_lt (hmin q hq) hlt
  refine ⟨_, first, hcall, hc, hd, rfl, hfl, ?_, fun hr => Reachable_call C p _ _ hr hcall⟩
  intro h
  rw [h] at hfl
  exact Nat.lt_irrefl _ hfl

theorem pathRefresher_keeps_endpoints_witness :
    ∃ p1, peer.call toyCrypto migratedPeer
        (.updatePathsToRemote (.ok [⟨1, 11, [1, 2, 3, 4]⟩, ⟨2, 12, [1, 2]⟩]) 0) = some p1 ∧
      p1.egressCtrlEConn = some ⟨4000, ⟨1, 11, [1, 2, 3, 4]⟩⟩ ∧
      p1.egressDataEConn = some ⟨4001, ⟨1, 11, [1, 2, 3, 4]⟩⟩ ∧
      p1.pathMgr.currPath = some ⟨2, 12, [1, 2]⟩ ∧ Reachable toyCrypto p1 :=
  match pathRefresher_keeps_endpoints toyCrypto migratedPeer ⟨4000, ⟨1, 11, [1, 2, 3, 4]⟩⟩
      ⟨4001, ⟨1, 11, [1, 2, 3, 4]⟩⟩ [⟨1, 11, [1, 2, 3, 4]⟩, ⟨2, 12, [1, 2]⟩] 0 ⟨2, 12, [1, 2]⟩
      rfl rfl (by decide) (by decide) with
  | ⟨p1, _, h1, h2, h3, _, _, _, h7⟩ =>
    ⟨p1, h1, h2, h3,
      (by
        have h0 : peer.call toyCrypto migratedPeer
            (.updatePathsToRemote (.ok [⟨1, 11, [1, 2, 3, 4]⟩, ⟨2, 12, [1, 2]⟩]) 0)
            = some { migratedPeer with pathMgr := { migratedPeer.pathMgr with
                       paths := [⟨2, 12, [1, 2]⟩, ⟨1, 11, [1, 2, 3, 4]⟩], pathIdx := 0,
                       currPath := some ⟨2, 12, [1, 2]⟩ } } := by decide
        rw [h0] at h1
        simp only [Option.some.injEq] at h1
        rw [← h1]),
      h7 migratedPeer_reachable⟩

/-! ## Buffers between readers and worker: claim C25 -/

theorem sum_extra_set : ∀ (rs : List Reader) (i : Nat) (r x : Reader),
    rs.get? i = some r →
    ((rs.set i x).map Reader.extra).sum + r.extra = (rs.map Reader.extra).sum + x.extra
  | [], i, r, x, h => by cases h
  | a :: rs, 0, r, x, h => by
    simp only [List.get?_cons_zero, Option.some.injEq] at h
    subst h
    simp only [List.set_cons_zero, List.map_cons, List.sum_cons]
    omega
  | a :: rs, i + 1, r, x, h => by
    simp only [List.get?_cons_succ] at h
    have := sum_extra_set rs i r x h
    simp only [List.set_cons_succ, List.map_cons, List.sum_cons]
    omega

theorem extra_le_sum : ∀ (rs : List Reader) (i : Nat) (r : Reader),
    rs.get? i = some r → r.extra ≤ (rs.map Reader.extra).sum
  | [], i, r, h => by cases h
  | a :: rs, 0, r, h => by
    simp only [List.get?_cons_zero, Option.some.injEq] at h
    subst h
    simp only [List.map_cons, List.sum_cons]
    omega
  | a :: rs, i + 1, r, h => by
    simp only [List.get?_cons_succ] at h
    have := extra_le_sum rs i r h
    simp only [List.map_cons, List.sum_cons]
    omega

theorem memPool_get_cases (m : memPool) :
    (m.pool = [] ∧ m.get = (none, m)) ∨
    (∃ top, m.get = (some top, ⟨m.pool.dropLast⟩) ∧ m.pool.dropLast.length + 1 = m.pool.length) := by
  by_cases h : m.pool = []
  · left
    refine ⟨h, ?_⟩
    simp [memPool.get, h]
  · right
    obtain ⟨top, h1, h2⟩ := memPool_get_of_ne_nil m h
    refine ⟨top, h1, ?_⟩
    have := congrArg List.length h2
    simp only [List.length_append, List.length_singleton] at this
    omega

theorem step_buffers (s s1 : Pipeline) (st : Step) (h : s.step st = some s1) :
    s1.buffers = s.buffers := by
  cases st with
  | read i data =>
    simp only [Pipeline.step] at h
    split at h
    · rename_i buf hr
      rcases memPool_get_cases s.worker.pktsPool with ⟨_, hg⟩ | ⟨top, hg, hlen⟩
      · rw [hg] at h
        simp only [Option.some.injEq] at h
        subst h
        have := sum_extra_set s.readers i _ (.reading (buf.readInto data)) hr
        simp only [Reader.extra] at this
        simp only [Pipeline.buffers, Pipeline.inFlight]
        omega
      · rw [hg] at h
        simp only [Option.some.injEq] at h
        subst h
        have := sum_extra_set s.readers i _
          (.sending ((buf.readInto data).upTo (min data.length buf.bytes.length)) top) hr
        simp only [Reader.extra] at this
        simp only [Pipeline.buffers, Pipeline.inFlight]
        omega
    · cases h
  | send i =>
    simp only [Pipeline.step] at h
    split at h
    · rename_i pkt freeBuf hr
      split at h
      · simp only [Option.some.injEq] at h
        subst h
        have := sum_extra_set s.readers i _ (.reading freeBuf) hr
        simp only [Reader.extra] at this
        simp only [Pipeline.buffers, Pipeline.inFlight, List.length_append,
          List.length_singleton]
        omega
      · cases h
    · cases h
  | receive =>
    simp only [Pipeline.step] at h
    split at h
    · rename_i buf rest hh hc
      simp only [Option.some.injEq] at h
      subst h
      simp only [Pipeline.buffers, Pipeline.inFlight, hh, hc, List.length_cons,
        Option.toList_some, Option.toList_none, List.length_singleton, List.length_nil]
      omega
    · cases h
  | process =>
    simp only [Pipeline.step] at h
    split at h
    · rename_i buf hh
      simp only [Option.some.injEq] at h
      subst h
      simp only [Pipeline.buffers, Pipeline.inFlight, hh, memPool.put, List.length_append,
        Option.toList_some, Option.toList_none, List.length_singleton, List.length_nil]
      omega
    · cases h

theorem run_buffers : ∀ (steps : List Step) (s s1 : Pipeline),
    s.run steps = some s1 → s1.buffers = s.buffers
  | [], s, s1, h => by
    simp only [Pipeline.run, Option.some.injEq] at h
    rw [h]
  | st :: rest, s, s1, h => by
    simp only [Pipeline.run] at h
    cases hs : s.step st with
    | none => simp [hs] at h
    | some s2 =>
      simp only [hs] at h
      rw [run_buffers rest s2 s1 h, step_buffers s s2 st hs]

theorem start_buffers (MaxMTU readers : Nat) (s0 : Pipeline)
    (h : Pipeline.start MaxMTU readers = some s0) : s0.buffers = chanLength := by
  have h1 : ¬ ((chanLength : Int) < 0) := by decide
  have h2 : ¬ ((MaxMTU : Int) < 0) := by omega
  simp only [Pipeline.start, newWorker, newMemPool, h1, h2, if_false, and_false,
    Option.map_some', Option.some.injEq] at h
  subst h
  simp [Pipeline.buffers, Pipeline.inFlight, Reader.extra]

theorem start_eq (MaxMTU readers : Nat) :
    Pipeline.start MaxMTU readers
      = some ⟨⟨[], ⟨List.replicate chanLength ⟨List.replicate MaxMTU 0, []⟩⟩⟩, none,
          List.replicate readers (.reading ⟨List.replicate MaxMTU 0, []⟩)⟩ := by
  have h1 : ¬ ((chanLength : Int) < 0) := by decide
  have h2 : ¬ ((MaxMTU : Int) < 0) := by omega
  simp only [Pipeline.start, newWorker, newMemPool, h1, h2, if_false, and_false,
    Option.map_some', Int.toNat_ofNat]

/-- C25 (amended): from a fresh worker, whose pool holds `chanLength` buffers,
with any number of readers, after any steps of the readers and of the loop of
`Run`: the buffers in the pool, in the channel and with the loop of `Run`, with
one more for every reader that took a free buffer and has not sent its packet
yet, are `chanLength`; with no such reader the three numbers alone add up to
`chanLength`. A reader that is about to send finds fewer than `chanLength`
buffers in the channel: its send can be taken, it does not block. -/
theorem pipeline_conserves_buffers (MaxMTU readers : Nat) (steps : List Step)
    (s0 s : Pipeline) (h0 : Pipeline.start MaxMTU readers = some s0)
    (h : s0.run steps = some s) :
    s.worker.pktsPool.pool.length + s.worker.pktsChannel.length + s.held.toList.length
        + s.inFlight = chanLength ∧
    (s.inFlight = 0 →
      s.worker.pktsPool.pool.length + s.worker.pktsChannel.length + s.held.toList.length
        = chanLength) ∧
    (∀ i pkt freeBuf, s.readers.get? i = some (.sending pkt freeBuf) →
      s.worker.pktsChannel.length < chanLength ∧ ∃ s1, s.step (.send i) = some s1) := by
  have hb : s.buffers = chanLength := by
    rw [run_buffers steps s0 s h, start_buffers MaxMTU readers s0 h0]
  unfold Pipeline.buffers at hb
  refine ⟨hb, fun hz => by omega, ?_⟩
  intro i pkt freeBuf hr
  have hle := extra_le_sum s.readers i _ hr
  simp only [Reader.extra] at hle
  have hlt : s.worker.pktsChannel.length < chanLength := by
    unfold Pipeline.inFlight at hb
    omega
  refine ⟨hlt, ?_⟩
  simp only [Pipeline.step, hr, hlt, if_true]
  exact ⟨_, rfl⟩

theorem pool_replicate_eq_put (b : Slice) :
    (⟨List.replicate chanLength b⟩ : memPool) = (⟨List.replicate 1499 b⟩ : memPool).put b := by
  show (⟨List.replicate (1499 + 1) b⟩ : memPool) = _
  rw [List.replicate_succ']
  rfl

theorem read_step_takes_buffer (m : memPool) (b : Slice) :
    (Pipeline.mk ⟨[], m.put b⟩ none [.reading ⟨[0, 0, 0, 0], []⟩]).run [.read 0 [1, 2, 3]]
      = some ⟨⟨[], m⟩, none, [.sending ⟨[1, 2, 3], [0]⟩ b]⟩ := by
  simp [Pipeline.run, Pipeline.step, memPool_get_put, Slice.readInto, Slice.upTo]

theorem run_first_read :
    (Pipeline.mk ⟨[], ⟨List.replicate chanLength ⟨List.replicate 4 0, []⟩⟩⟩ none
        (List.replicate 1 (.reading ⟨List.replicate 4 0, []⟩))).run [.read 0 [1, 2, 3]]
      = some ⟨⟨[], ⟨List.replicate 1499 ⟨List.replicate 4 0, []⟩⟩⟩, none,
          [.sending ⟨[1, 2, 3], [0]⟩ ⟨List.replicate 4 0, []⟩]⟩ := by
  rw [pool_replicate_eq_put]
  exact read_step_takes_buffer _ _

theorem pipeline_sum_counterexample :
    ∃ s0 s, Pipeline.start 4 1 = some s0 ∧ s0.run [.read 0 [1, 2, 3]] = some s ∧
      s.worker.pktsPool.pool.length + s.worker.pktsChannel.length + s.held.toList.length
        = 1499 ∧
      s.worker.pktsPool.pool.length + s.worker.pktsChannel.length + s.held.toList.length
        ≠ chanLength :=
  ⟨_, _, start_eq 4 1, run_first_read,
    by simp only [List.length_replicate, List.length_nil, Option.toList_none],
    by simp only [List.length_replicate, List.length_nil, Option.toList_none, chanLength]
       decide⟩

theorem pipeline_conserves_buffers_witness :
    ∃ s0 s, Pipeline.start 4 1 = some s0 ∧ s0.run [.read 0 [1, 2, 3]] = some s ∧
      s.readers = [.sending ⟨[1, 2, 3], [0]⟩ ⟨[0, 0, 0, 0], []⟩] ∧
      s.worker.pktsChannel.length < chanLength ∧ ∃ s1, s.step (.send 0) = some s1 :=
  ⟨_, _, start_eq 4 1, run_first_read, rfl,
    (pipeline_conserves_buffers 4 1 [.read 0 [1, 2, 3]] _ _ (start_eq 4 1)
      run_first_read).2.2 0 _ _ rfl⟩

/-! ## The message codec: claim C23 -/

theorem registry_lookup (ty : MsgType) :
    ∃ r, registry.find? (fun r => decide (r.base = ty)) = some r ∧
      registry.find? (fun x => decide (x.name = r.name)) = some r ∧
      r.base = ty ∧ r.pointer = true := by
  cases ty
  · exact ⟨⟨"*gateway.keepAliveMsg", true, .keepAliveMsg⟩, by decide, by decide, rfl, rfl⟩
  · exact ⟨⟨"*gateway.handshakeRequestMsg", true, .handshakeRequestMsg⟩, by decide, by decide,
      rfl, rfl⟩
  · exact ⟨⟨"*gateway.handshakeResponseMsg", true, .handshakeResponseMsg⟩, by decide, by decide,
      rfl, rfl⟩
  · exact ⟨⟨"*gateway.hiddenPathRequestMsg", true, .hiddenPathRequestMsg⟩, by decide, by decide,
      rfl, rfl⟩
  · exact ⟨⟨"*ipadapter.ConfMsg", true, .ConfMsg⟩, by decide, by decide, rfl, rfl⟩

theorem Decode_Encode (g : Gob) (hg : g.IsCodec) (msg : Message) (ty : MsgType)
    (pointer : Bool) (hty : Message.type? msg = some ty) :
    ∃ bytes, g.Encode registry ⟨pointer, msg⟩ = .ok bytes ∧
      g.Decode registry bytes = .ok ⟨true, msg⟩ := by
  obtain ⟨r, h1, h2, h3, h4⟩ := registry_lookup ty
  refine ⟨g.frame r.name (g.encodeStruct msg), ?_, ?_⟩
  · simp only [Gob.Encode, hty, h1]
  · simp only [Gob.Decode, hg.1, h2, h3, hg.2 msg ty hty, h4]

theorem toyUnframe_toyFrame (name : String) (value : List Nat) :
    toyUnframe (toyFrame name value) = .ok (name, value) := by
  have hlen : (name.toList.map Char.toNat).length = name.length := by
    rw [List.length_map]; rfl
  have hnot : ¬ ((name.toList.map Char.toNat ++ value).length < name.length) := by
    rw [List.length_append, hlen]; omega
  have htake : (name.toList.map Char.toNat ++ value).take name.length
      = name.toList.map Char.toNat := by
    rw [← hlen]; exact List.take_left' rfl
  have hdrop : (name.toList.map Char.toNat ++ value).drop name.length = value := by
    rw [← hlen]; exact List.drop_left' rfl
  have hchars : (name.toList.map Char.toNat).map Char.ofNat = name.toList := by
    rw [List.map_map]
    conv_rhs => rw [← List.map_id name.toList]
    apply List.map_congr_left
    intro c _
    exact Char.ofNat_toNat c
  unfold toyFrame toyUnframe
  simp only [hnot, if_false, htake, hdrop, hchars]
  rfl

theorem toyDecodeStruct_toyEncodeStruct (msg : Message) (ty : MsgType)
    (hty : Message.type? msg = some ty) :
    toyDecodeStruct ty (toyEncodeStruct msg) = .ok msg := by
  cases msg with
  | keepAliveMsg =>
    simp only [Message.type?, Option.some.injEq] at hty
    subst hty
    rfl
  | handshakeRequestMsg m =>
    simp only [Message.type?, Option.some.injEq] at hty
    subst hty
    cases m with
    | mk pk tag cp dp =>
      simp only [toyEncodeStruct, toyDecodeStruct, List.cons_append, List.nil_append,
        List.take_left', List.drop_left', List.take_length, Int.toNat_sub_toNat_neg]
  | handshakeResponseMsg =>
    simp only [Message.type?, Option.some.injEq] at hty
    subst hty
    rfl
  | hiddenPathRequestMsg seg =>
    simp only [Message.type?, Option.some.injEq] at hty
    subst hty
    rfl
  | ConfMsg n =>
    simp only [Message.type?, Option.some.injEq] at hty
    subst hty
    cases n with
    | mk ip mask =>
      simp only [toyEncodeStruct, toyDecodeStruct, List.take_left', List.drop_left']
  | other tag => cases hty

theorem toyGob_isCodec : toyGob.IsCodec :=
  ⟨toyUnframe_toyFrame, toyDecodeStruct_toyEncodeStruct⟩

/-- C23: for a message of any of the five struct types, handed to `WriteMsg`
as a struct or as a pointer, `WriteMsg` hands one sequence of bytes to the
writer, and `ReadMsg` on a reader that hands these bytes back (their number,
and a buffer that holds them in front, as the connection does for a datagram
of at most `MaxMTU` bytes, and the encrypted endpoint for what it decrypted)
returns a pointer to a message of the same type with the same fields, and the
source address. The encoding is that of the library, with the names `init`
registers. -/
theorem ReadMsg_writeMsg (g : Gob) (hg : g.IsCodec) (msg : Message) (ty : MsgType)
    (pointer : Bool) (writer : List Nat → Int × Option Err)
    (hty : Message.type? msg = some ty) :
    ∃ bytes, writeMsg g ⟨pointer, msg⟩ writer = ((writer bytes).2, some bytes) ∧
      (∀ (raddr : Nat) (buf : List Nat), buf.take bytes.length = bytes →
        ReadMsg g (.ok (bytes.length : Int) raddr buf) = some (.ok (⟨true, msg⟩, raddr))) ∧
      (∀ (MaxMTU raddr : Nat), bytes.length ≤ MaxMTU →
        ReadMsg g (connReadFrom MaxMTU bytes raddr) = some (.ok (⟨true, msg⟩, raddr))) := by
  obtain ⟨bytes, he, hd⟩ := Decode_Encode g hg msg ty pointer hty
  have hread : ∀ (raddr : Nat) (buf : List Nat), buf.take bytes.length = bytes →
      ReadMsg g (.ok (bytes.length : Int) raddr buf) = some (.ok (⟨true, msg⟩, raddr)) := by
    intro raddr buf hb
    have hle : bytes.length ≤ buf.length := by
      have := congrArg List.length hb
      rw [List.length_take] at this
      omega
    have h1 : ¬ (((bytes.length : Nat) : Int) < 0 ∨ (buf.length : Int) < (bytes.length : Int)) := by
      omega
    simp only [ReadMsg, h1, if_false, Int.toNat_ofNat, hb, hd]
  refine ⟨bytes, ?_, hread, ?_⟩
  · simp only [writeMsg, he]
  · intro MaxMTU raddr hlen
    have hmin : min bytes.length MaxMTU = bytes.length := Nat.min_eq_left hlen
    unfold connReadFrom
    simp only [hmin]
    apply hread
    rw [List.take_length]
    exact List.take_left' rfl

theorem ReadMsg_writeMsg_witness :
    ∃ bytes, writeMsg toyGob ⟨false, .handshakeRequestMsg goodRequest⟩ okConn
        = ((okConn bytes).2, some bytes) ∧
      (∀ (MaxMTU raddr : Nat), bytes.length ≤ MaxMTU →
        ReadMsg toyGob (connReadFrom MaxMTU bytes raddr)
          = some (.ok (⟨true, .handshakeRequestMsg goodRequest⟩, raddr))) :=
  match ReadMsg_writeMsg toyGob toyGob_isCodec (.handshakeRequestMsg goodRequest)
      .handshakeRequestMsg false okConn rfl with
  | ⟨bytes, h1, _, h3⟩ => ⟨bytes, h1, h3⟩

end Gateway
